import Mathlib

/-!
# Verification development for the user-level thread library (libuthread)

Shallow embedding of `queue.c`, of `uthread.c`, of `sem.c`, and of the signal
mask that `preempt_disable` and `preempt_enable` of `preempt.c` set.

Modelling conventions
* A pointer is a natural number; `0` is `NULL`.
* Every queue carries the arena of the `queue_node` blocks that `queue_enqueue`
  obtained from `malloc` for it: the node at address `p + 1` is entry `p` of the
  arena.  `malloc` is modelled as always succeeding and returning the next
  unused address; blocks are never reused (the source never frees a node outside
  `queue_destroy`).  A block that the source allocates and then leaks before
  storing anything reachable in it is not part of the arena.
* `int` fields are mathematical integers (no overflow is modelled); the
  `size_t` count of a semaphore wraps around above `SIZE_MAX`.
* A result `none` means that the source has no defined result on that input:
  it dereferences a pointer that is `NULL` or was never allocated, or a loop
  does not terminate.
-/

namespace Uthread

/-! ## queue.c -/

/-- The return value `ERROR_FOUND` of queue.c and uthread.c. -/
def ERROR_FOUND : Int := -1

/-- The return value `NO_ERROR` of queue.c and uthread.c. -/
def NO_ERROR : Int := 0

/-- The constant `ONE_NODE` of queue.c. -/
def ONE_NODE : Int := 1

/-- The node type `struct queue_node`. -/
structure queue_node where
  data_in_node : Nat
  next_in_queue : Nat
  prev_in_queue : Nat
  deriving DecidableEq, Repr

/-- The queue type `struct queue`, together with the arena of its nodes. -/
structure queue where
  first_in_queue : Nat
  last_in_queue : Nat
  num_of_nodes : Int
  mem : List queue_node
  deriving DecidableEq, Repr

/-- The handle type `queue_t`, a pointer to a queue: `none` is `NULL`, and
`some q` points to a queue whose current contents are `q`. -/
abbrev queue_t := Option queue

/-- Read the node a pointer points to (`none`: not a valid node pointer). -/
def node_at (mem : List queue_node) : Nat → Option queue_node
  | 0 => none
  | p + 1 => mem[p]?

/-- Overwrite the node a pointer points to (`none`: not a valid node pointer). -/
def node_put (mem : List queue_node) (ptr : Nat) (n : queue_node) : Option (List queue_node) :=
  match ptr with
  | 0 => none
  | p + 1 => if p < mem.length then some (mem.set p n) else none

/-- The assignment `ptr->next_in_queue = v`. -/
def set_next (mem : List queue_node) (ptr v : Nat) : Option (List queue_node) :=
  match node_at mem ptr with
  | none => none
  | some n => node_put mem ptr { n with next_in_queue := v }

/-- The assignment `ptr->prev_in_queue = v`. -/
def set_prev (mem : List queue_node) (ptr v : Nat) : Option (List queue_node) :=
  match node_at mem ptr with
  | none => none
  | some n => node_put mem ptr { n with prev_in_queue := v }

/-- The function `queue_create`: an empty queue with no node allocated yet. -/
def queue_create : queue_t :=
  some { first_in_queue := 0, last_in_queue := 0, num_of_nodes := 0, mem := [] }

/-- The loop of `queue_destroy`, which frees `num_of_nodes` nodes along the
next-links.  The argument `n` is `num_of_nodes` (as a natural number), and the
result is whether every node it reads is a valid node. -/
def queue_destroy_loop (mem : List queue_node) : Nat → Nat → Nat → Option Unit
  | 0, _, _ => some ()
  | n + 1, _node_to_destroy, next_node =>
    -- free(node_to_destroy); queue->num_of_nodes -= ONE_NODE;
    if n = 0 then some ()
    else
      -- node_to_destroy = next_node; next_node = node_to_destroy->next_in_queue;
      match node_at mem next_node with
      | none => none
      | some nd => queue_destroy_loop mem n next_node nd.next_in_queue

/-- The function `queue_destroy`.  The second component of the result is what
the handle points to afterwards (`none` once the queue has been freed). -/
def queue_destroy (queue : queue_t) : Option (Int × queue_t) :=
  match queue with
  | none => some (ERROR_FOUND, none)
  | some q =>
    if q.num_of_nodes = 0 then some (ERROR_FOUND, some q)
    else
      match node_at q.mem q.first_in_queue with
      | none => none
      | some nd =>
        match queue_destroy_loop q.mem q.num_of_nodes.toNat q.first_in_queue nd.next_in_queue with
        | none => none
        | some _ => some (NO_ERROR, none)

/-- The function `queue_enqueue`. -/
def queue_enqueue (queue : queue_t) (data : Nat) : Option (Int × queue_t) :=
  match queue with
  | none => some (ERROR_FOUND, none)
  | some q =>
    if data = 0 then some (ERROR_FOUND, some q)
    else
      let node_to_enqueue := q.mem.length + 1
      if q.num_of_nodes = 0 then
        some (NO_ERROR, some
          { first_in_queue := node_to_enqueue
            last_in_queue := node_to_enqueue
            num_of_nodes := q.num_of_nodes + ONE_NODE
            mem := q.mem ++ [{ data_in_node := data, next_in_queue := 0, prev_in_queue := 0 }] })
      else
        match set_next q.mem q.last_in_queue node_to_enqueue with
        | none => none
        | some mem1 =>
          some (NO_ERROR, some
            { first_in_queue := q.first_in_queue
              last_in_queue := node_to_enqueue
              num_of_nodes := q.num_of_nodes + ONE_NODE
              mem := mem1 ++ [{ data_in_node := data, next_in_queue := 0,
                                prev_in_queue := q.last_in_queue }] })

/-- The function `queue_dequeue`.  The out-parameter `data` is `none` for a
`NULL` pointer and `some v` for a pointer to a cell that holds `v`; the third
component of the result is that cell afterwards. -/
def queue_dequeue (queue : queue_t) (data : Option Nat) :
    Option (Int × queue_t × Option Nat) :=
  match queue, data with
  | some q, some d =>
    if q.num_of_nodes = 0 then some (ERROR_FOUND, some q, some d)
    else
      match node_at q.mem q.first_in_queue with
      | none => none
      | some node_to_dequeue =>
        some (NO_ERROR,
          some { q with first_in_queue := node_to_dequeue.next_in_queue
                        num_of_nodes := q.num_of_nodes - ONE_NODE },
          some node_to_dequeue.data_in_node)
  | _, _ => some (ERROR_FOUND, queue, data)

/-- The body of `queue_delete` once `index_node` holds `data`: unlink it
according to which of its two links are `NULL`, and decrement the count. -/
def queue_delete_unlink (q : queue) (index_node : queue_node) : Option (Int × queue) :=
  if index_node.next_in_queue ≠ 0 ∧ index_node.prev_in_queue = 0 then
    -- first node in the queue
    match set_prev q.mem index_node.next_in_queue 0 with
    | none => none
    | some mem1 =>
      some (NO_ERROR, { q with first_in_queue := index_node.next_in_queue
                               num_of_nodes := q.num_of_nodes - ONE_NODE
                               mem := mem1 })
  else if index_node.next_in_queue ≠ 0 ∧ index_node.prev_in_queue ≠ 0 then
    -- middle node in the queue
    match set_prev q.mem index_node.next_in_queue index_node.prev_in_queue with
    | none => none
    | some mem1 =>
      match set_next mem1 index_node.prev_in_queue index_node.next_in_queue with
      | none => none
      | some mem2 =>
        some (NO_ERROR, { q with num_of_nodes := q.num_of_nodes - ONE_NODE, mem := mem2 })
  else if index_node.next_in_queue = 0 ∧ index_node.prev_in_queue ≠ 0 then
    -- last node in the queue
    match set_next q.mem index_node.prev_in_queue 0 with
    | none => none
    | some mem1 =>
      some (NO_ERROR, { q with last_in_queue := index_node.prev_in_queue
                               num_of_nodes := q.num_of_nodes - ONE_NODE
                               mem := mem1 })
  else
    -- only node in the queue
    some (NO_ERROR, { q with first_in_queue := 0, last_in_queue := 0
                             num_of_nodes := q.num_of_nodes - ONE_NODE })

/-- The search loop of `queue_delete`, started at `index_node`.  The first
argument bounds the number of iterations. -/
def queue_delete_loop (q : queue) (data : Nat) : Nat → Nat → Option (Int × queue)
  | 0, _ => none
  | fuel + 1, index_node =>
    if index_node = 0 then some (ERROR_FOUND, q)
    else
      match node_at q.mem index_node with
      | none => none
      | some nd =>
        if nd.data_in_node ≠ data then queue_delete_loop q data fuel nd.next_in_queue
        else queue_delete_unlink q nd

/-- The function `queue_delete`.  The search reads the arena without changing
it, so it either ends within `mem.length + 1` iterations or never does. -/
def queue_delete (queue : queue_t) (data : Nat) : Option (Int × queue_t) :=
  match queue with
  | none => some (ERROR_FOUND, none)
  | some q =>
    if data = 0 ∨ q.first_in_queue = 0 then some (ERROR_FOUND, some q)
    else
      match queue_delete_loop q data (q.mem.length + 1) q.first_in_queue with
      | none => none
      | some (r, q1) => some (r, some q1)

/-- The function `queue_length`. -/
def queue_length (queue : queue_t) : Int :=
  match queue with
  | none => ERROR_FOUND
  | some q => q.num_of_nodes

/-! ### queue_iterate -/

/-- The callback type `queue_func_t`.  A callback receives the data item; it
reaches the queue through a global handle, as `inc_item` of queue_tester.c does,
and may own further memory `σ`.  It maps that memory and the contents of the
queue before the call to those after it (`none`: no defined result). -/
abbrev queue_func_t (σ : Type) := Nat → σ × queue → Option (σ × queue)

/-- The loop of `queue_iterate`, started at `index_node`.  The first argument
bounds the number of iterations.  Besides the final memory and queue, the result
lists the arguments of the successive calls of the callback. -/
def queue_iterate_loop {σ : Type} (func : queue_func_t σ) :
    Nat → Nat → σ × queue → Option (List Nat × σ × queue)
  | 0, _, _ => none
  | fuel + 1, index_node, (w, q) =>
    if index_node = 0 then some ([], w, q)
    else
      match node_at q.mem index_node with
      | none => none
      | some nd =>
        -- func(index_node->data_in_node);
        match func nd.data_in_node (w, q) with
        | none => none
        | some (w1, q1) =>
          -- if (index_node->next_in_queue != NULL), read after the call
          match node_at q1.mem index_node with
          | none => none
          | some nd1 =>
            if nd1.next_in_queue ≠ 0 then
              match queue_iterate_loop func fuel nd1.next_in_queue (w1, q1) with
              | none => none
              | some (calls, r) => some (nd.data_in_node :: calls, r)
            else some ([nd.data_in_node], w1, q1)

/-- The function `queue_iterate`; `func` is `none` for a `NULL` callback.  The
result is the return value, the arguments of the successive calls of the
callback, the callback's memory and the queue. -/
def queue_iterate {σ : Type} (fuel : Nat) (queue : queue_t) (func : Option (queue_func_t σ))
    (w : σ) : Option (Int × List Nat × σ × queue_t) :=
  match queue, func with
  | some q, some f =>
    match queue_iterate_loop f fuel q.first_in_queue (w, q) with
    | none => none
    | some (calls, w1, q1) => some (NO_ERROR, calls, w1, some q1)
  | _, _ => some (ERROR_FOUND, [], w, queue)

/-- Calling the callback on each item of a list in turn, oldest first, each
call starting from the memory and the queue that the call before it left: what
an iteration over these items is to do. -/
def call_each {σ : Type} (func : queue_func_t σ) : List Nat → σ × queue → Option (σ × queue)
  | [], s => some s
  | x :: xs, s => (func x s).bind (call_each func xs)

/-- On each of the calls that an iteration over `items` makes, the first of
them from the memory and the queue given, the callback either leaves the queue
untouched or calls `queue_delete` on the item it was handed (and does anything
to its own memory).  Nothing is asked of the callback on other arguments. -/
def DeletesOnlyCurrent {σ : Type} (func : queue_func_t σ) : List Nat → σ × queue → Prop
  | [], _ => True
  | x :: xs, (w, q) =>
    ((∃ w1, func x (w, q) = some (w1, q)) ∨
     (∃ w1, func x (w, q)
        = (queue_delete (some q) x).bind (fun r => r.2.map (fun q1 => (w1, q1))))) ∧
    ∀ s1, func x (w, q) = some s1 → DeletesOnlyCurrent func xs s1

/-- Every link of the arena respects the order of allocation: a next-link is
`NULL` or points to a node allocated later, a prev-link is `NULL` or points to a
node allocated earlier.  The queue functions keep this: `queue_enqueue` links
the tail and a fresh node, and `queue_delete` links neighbours of neighbours. -/
def LinksForward (mem : List queue_node) : Prop :=
  ∀ p n, node_at mem p = some n →
    (n.next_in_queue = 0 ∨ (p < n.next_in_queue ∧ n.next_in_queue ≤ mem.length)) ∧
    n.prev_in_queue < p

/-- Every node at address `a` or above has the same data and next-link in
`mem1` as in `mem`. -/
def KeepsFrom (a : Nat) (mem mem1 : List queue_node) : Prop :=
  ∀ p m, a ≤ p → node_at mem p = some m →
    ∃ m1, node_at mem1 p = some m1 ∧ m1.data_in_node = m.data_in_node ∧
      m1.next_in_queue = m.next_in_queue

/-- The callback that calls `queue_delete` on every item it is handed. -/
def delete_current : queue_func_t Unit :=
  fun x wq => (queue_delete (some wq.2) x).bind (fun r => r.2.map (fun q1 => (wq.1, q1)))

/-- A callback that appends the item it is handed to a log and leaves the queue
untouched. -/
def record_item : queue_func_t (List Nat) :=
  fun x wq => some (wq.1 ++ [x], wq.2)

/-! ### Driving a queue: sequences of calls -/

/-- Call `queue_enqueue` on each item in turn; the result lists the return
values of the calls. -/
def enqueue_all : queue_t → List Nat → Option (List Int × queue_t)
  | q, [] => some ([], q)
  | q, e :: es =>
    match queue_enqueue q e with
    | none => none
    | some (r, q1) =>
      match enqueue_all q1 es with
      | none => none
      | some (rs, q2) => some (r :: rs, q2)

/-- Call `queue_dequeue` the given number of times, each time with an
out-parameter cell that holds `NULL` before the call; the result lists, for
each call, its return value and the cell afterwards. -/
def dequeue_n : queue_t → Nat → Option (List (Int × Option Nat) × queue_t)
  | q, 0 => some ([], q)
  | q, j + 1 =>
    match queue_dequeue q (some 0) with
    | none => none
    | some (r, q1, d) =>
      match dequeue_n q1 j with
      | none => none
      | some (rs, q2) => some ((r, d) :: rs, q2)

/-! ### What a queue holds -/

/-- Following next-links from `a` through nodes that store `items`, in this
order, one arrives at `b`. -/
def Seg (mem : List queue_node) : Nat → List Nat → Nat → Prop
  | a, [], b => a = b
  | a, x :: xs, b =>
    ∃ n, node_at mem a = some n ∧ n.data_in_node = x ∧ Seg mem n.next_in_queue xs b

/-- The queue holds `items`, oldest first: the count is their number and, unless
there is none, the nodes from the head on store them, the last of these nodes is
the tail and its next-link is `NULL`.  Nothing is asked of the prev-links, nor
of head and tail when the count is zero. -/
def Rep (q : queue) (items : List Nat) : Prop :=
  q.num_of_nodes = (items.length : Int) ∧
  (items = [] ∨ ∃ front lastx, items = front ++ [lastx] ∧
    Seg q.mem q.first_in_queue front q.last_in_queue ∧
    Seg q.mem q.last_in_queue [lastx] 0)

/-! ## preempt.c and uthread.c -/

/-- The states of `enum Thread_State`. -/
def RUNNING : Nat := 0

/-- The thread is in the ready queue. -/
def READY : Nat := 1

/-- The thread is in the blocked queue. -/
def BLOCKED : Nat := 2

/-- The thread has finished. -/
def EXIT : Nat := 3

/-- The thread control block `struct uthread_tcb`.  Its stack and its execution
context belong to the external context subsystem and are not modelled. -/
structure uthread_tcb where
  tid : Int
  state : Nat
  deriving DecidableEq, Repr

/-- The global variables of uthread.c, the arena of the thread control blocks
that `malloc` returned and that were initialised, and whether `SIGVTALRM` is
blocked in the signal mask (preempt.c).  A block that is allocated and never
initialised has no entry in the arena: its contents are not defined. -/
structure uthread_state where
  ready_q : queue_t
  blocked_q : queue_t
  main_tcb : Nat
  current_tcb : Nat
  num_of_threads : Int
  tcbs : List uthread_tcb
  sigvtalrm_blocked : Bool
  deriving DecidableEq, Repr

/-- Read the thread control block a pointer points to. -/
def tcb_at (tcbs : List uthread_tcb) : Nat → Option uthread_tcb
  | 0 => none
  | p + 1 => tcbs[p]?

/-- The assignment `ptr->state = v`. -/
def set_state (tcbs : List uthread_tcb) (ptr v : Nat) : Option (List uthread_tcb) :=
  match ptr with
  | 0 => none
  | p + 1 =>
    match tcbs[p]? with
    | none => none
    | some t => some (tcbs.set p { t with state := v })

/-- The function `preempt_disable`: block `SIGVTALRM`. -/
def preempt_disable (s : uthread_state) : uthread_state :=
  { s with sigvtalrm_blocked := true }

/-- The function `preempt_enable`: unblock `SIGVTALRM`. -/
def preempt_enable (s : uthread_state) : uthread_state :=
  { s with sigvtalrm_blocked := false }

/-- The statements `next_tcb = malloc(...); queue_dequeue(q, &next_tcb)`: the
queue afterwards and the pointer in `next_tcb`.  Before the call `next_tcb`
points to an uninitialised block, the next address the arena would hand out. -/
def dequeue_tcb (tcbs : List uthread_tcb) (q : queue_t) : Option (queue_t × Nat) :=
  match queue_dequeue q (some (tcbs.length + 1)) with
  | none => none
  | some (_, q1, cell) => some (q1, cell.getD (tcbs.length + 1))

/-- The function `uthread_yield`, as a transition of the scheduler data.  The
context switch itself is external; the `preempt_enable` after it is the last
step of the transition. -/
def uthread_yield (s : uthread_state) : Option uthread_state :=
  let s := preempt_disable s
  if queue_length s.ready_q = 0 then some s
  else
    -- current_tcb->state = READY; queue_enqueue(ready_q, current_tcb);
    match set_state s.tcbs s.current_tcb READY with
    | none => none
    | some tcbs1 =>
      match queue_enqueue s.ready_q s.current_tcb with
      | none => none
      | some (_, rq1) =>
        match dequeue_tcb tcbs1 rq1 with
        | none => none
        | some (rq2, next_tcb) =>
          -- next_tcb->state = RUNNING; current_tcb = next_tcb;
          match set_state tcbs1 next_tcb RUNNING with
          | none => none
          | some tcbs2 =>
            some (preempt_enable
              { s with ready_q := rq2, current_tcb := next_tcb, tcbs := tcbs2 })

/-- The function `uthread_exit`, as a transition of the scheduler data. -/
def uthread_exit (s : uthread_state) : Option uthread_state :=
  let s := preempt_disable s
  let next : Option (queue_t × Nat) :=
    if queue_length s.ready_q > 0 then dequeue_tcb s.tcbs s.ready_q
    else some (s.ready_q, s.main_tcb)
  match next with
  | none => none
  | some (rq1, next_tcb) =>
    -- current_tcb->state = EXIT;
    match set_state s.tcbs s.current_tcb EXIT with
    | none => none
    | some tcbs1 =>
      -- the switch reads next_tcb->ctx
      match tcb_at tcbs1 next_tcb with
      | none => none
      | some _ =>
        some (preempt_enable
          { s with ready_q := rq1, current_tcb := next_tcb
                   num_of_threads := s.num_of_threads - 1, tcbs := tcbs1 })

/-- The function `uthread_create`, as a transition of the scheduler data.  The
argument is whether the external `uthread_ctx_init` succeeds (returns 0). -/
def uthread_create (ctx_init_ok : Bool) (s : uthread_state) : Option (Int × uthread_state) :=
  let s := preempt_disable s
  let new_thread_t := s.tcbs.length + 1
  let s := { s with tcbs := s.tcbs ++ [{ tid := s.num_of_threads, state := READY }] }
  if ctx_init_ok = false then some (ERROR_FOUND, s)
  else
    match queue_enqueue s.ready_q new_thread_t with
    | none => none
    | some (_, rq1) =>
      some (NO_ERROR, preempt_enable
        { s with ready_q := rq1, num_of_threads := s.num_of_threads + 1 })

/-- The part of `uthread_start` that precedes its scheduling loop, from the
initial values of the globals (all zero): the two queues, the main thread,
`preempt_start` (which leaves the signal mask alone) and the first thread.
The arguments are whether the two external `uthread_ctx_init` calls succeed. -/
def uthread_start_setup (main_ctx_ok first_ctx_ok : Bool) : Option (Int × uthread_state) :=
  let s : uthread_state :=
    { ready_q := queue_create, blocked_q := queue_create, main_tcb := 0, current_tcb := 0
      num_of_threads := 0, tcbs := [{ tid := 0, state := READY }], sigvtalrm_blocked := false }
  if main_ctx_ok = false then some (ERROR_FOUND, s)
  else
    let s := { s with num_of_threads := s.num_of_threads + 1, main_tcb := 1, current_tcb := 1 }
    match uthread_create first_ctx_ok s with
    | none => none
    | some (r, s1) => if r ≠ 0 then some (ERROR_FOUND, s1) else some (NO_ERROR, s1)

/-- The function `uthread_block`, as a transition of the scheduler data. -/
def uthread_block (s : uthread_state) : Option uthread_state :=
  let s := preempt_disable s
  -- current_tcb->state = BLOCKED; queue_enqueue(blocked_q, current_tcb);
  match set_state s.tcbs s.current_tcb BLOCKED with
  | none => none
  | some tcbs1 =>
    match queue_enqueue s.blocked_q s.current_tcb with
    | none => none
    | some (_, bq1) =>
      match dequeue_tcb tcbs1 s.ready_q with
      | none => none
      | some (rq1, next_tcb) =>
        -- next_tcb->state = RUNNING; current_tcb = next_tcb;
        match set_state tcbs1 next_tcb RUNNING with
        | none => none
        | some tcbs2 =>
          some (preempt_enable
            { s with ready_q := rq1, blocked_q := bq1, current_tcb := next_tcb, tcbs := tcbs2 })

/-- The loop of `uthread_unblock`; the first argument is `len`, the second the
pointer in `temp`. -/
def uthread_unblock_loop (uthread : Nat) : Nat → Nat → uthread_state → Option uthread_state
  | 0, _, s => some s
  | len + 1, temp, s =>
    match queue_dequeue s.blocked_q (some temp) with
    | none => none
    | some (_, bq1, cell) =>
      let temp1 := cell.getD temp
      -- if (temp->tid == uthread->tid)
      match tcb_at s.tcbs temp1, tcb_at s.tcbs uthread with
      | some t, some u =>
        if t.tid = u.tid then
          -- uthread->state = READY; queue_enqueue(ready_q, uthread); break;
          match set_state s.tcbs uthread READY with
          | none => none
          | some tcbs1 =>
            match queue_enqueue s.ready_q uthread with
            | none => none
            | some (_, rq1) => some { s with ready_q := rq1, blocked_q := bq1, tcbs := tcbs1 }
        else
          -- queue_enqueue(blocked_q, temp); len--;
          match queue_enqueue bq1 temp1 with
          | none => none
          | some (_, bq2) => uthread_unblock_loop uthread len temp1 { s with blocked_q := bq2 }
      | _, _ => none

/-- The function `uthread_unblock`.  Before the loop `temp` points to an
uninitialised block.  A negative `len` (the blocked queue is `NULL`, or its
count is negative) is given no result: the loop would count it down without
reaching zero. -/
def uthread_unblock (s : uthread_state) (uthread : Nat) : Option uthread_state :=
  let s := preempt_disable s
  let len := queue_length s.blocked_q
  if len < 0 then none
  else
    match uthread_unblock_loop uthread len.toNat (s.tcbs.length + 1) s with
    | none => none
    | some s1 => some (preempt_enable s1)

/-- The function `uthread_current`. -/
def uthread_current (s : uthread_state) : Nat :=
  s.current_tcb

/-- Call `uthread_yield` the given number of times, each call made by the
thread that is then running; the result lists the running thread after each
call. -/
def yield_n : Nat → uthread_state → Option (List Nat × uthread_state)
  | 0, s => some ([], s)
  | n + 1, s =>
    match uthread_yield s with
    | none => none
    | some s1 =>
      match yield_n n s1 with
      | none => none
      | some (rs, s2) => some (s1.current_tcb :: rs, s2)

/-- A scheduler state as `uthread_start` and one further `uthread_create`
leave it: the main thread (block 1) is current, the threads in blocks 2 and 3
are ready. -/
def sched_two_ready : uthread_state :=
  { ready_q := some ⟨1, 2, 2, [⟨2, 2, 0⟩, ⟨3, 0, 1⟩]⟩
    blocked_q := some ⟨0, 0, 0, []⟩
    main_tcb := 1
    current_tcb := 1
    num_of_threads := 3
    tcbs := [⟨0, READY⟩, ⟨1, READY⟩, ⟨2, READY⟩]
    sigvtalrm_blocked := false }

/-- A run from `uthread_start`: three more threads are created, the main
thread yields, and the threads of blocks 2, 3 and 4 block in turn. -/
def three_blocked_run : Option uthread_state :=
  (uthread_start_setup true true).bind fun r =>
  (uthread_create true r.2).bind fun r =>
  (uthread_create true r.2).bind fun r =>
  (uthread_create true r.2).bind fun r =>
  (uthread_yield r.2).bind fun s =>
  (uthread_block s).bind fun s =>
  (uthread_block s).bind fun s =>
  uthread_block s

/-- The state at the end of `three_blocked_run`: the blocked queue holds the
blocks 2, 3, 4, the thread of block 5 runs, the main thread is ready. -/
def sched_three_blocked : uthread_state :=
  { ready_q := some ⟨5, 5, 1, [⟨2, 2, 0⟩, ⟨3, 3, 1⟩, ⟨4, 4, 2⟩, ⟨5, 5, 3⟩, ⟨1, 0, 4⟩]⟩
    blocked_q := some ⟨1, 3, 3, [⟨2, 2, 0⟩, ⟨3, 3, 1⟩, ⟨4, 0, 2⟩]⟩
    main_tcb := 1
    current_tcb := 5
    num_of_threads := 5
    tcbs := [⟨0, READY⟩, ⟨1, BLOCKED⟩, ⟨2, BLOCKED⟩, ⟨3, BLOCKED⟩, ⟨4, RUNNING⟩]
    sigvtalrm_blocked := false }

/-- A run from `uthread_start` in which a thread exits between two creations:
the first thread (block 2) creates the threads of blocks 3 and 4 and exits,
the thread of block 3 creates the thread of block 5, and the threads of blocks
4 and 5 block in turn. -/
def tid_reuse_run : Option uthread_state :=
  (uthread_start_setup true true).bind fun r =>
  (uthread_yield r.2).bind fun s =>
  (uthread_create true s).bind fun r =>
  (uthread_create true r.2).bind fun r =>
  (uthread_exit r.2).bind fun s =>
  (uthread_yield s).bind fun s =>
  (uthread_create true s).bind fun r =>
  (uthread_yield r.2).bind fun s =>
  (uthread_block s).bind fun s =>
  (uthread_yield s).bind fun s =>
  uthread_block s

/-- The state at the end of `tid_reuse_run`: the blocked queue holds the blocks
4 and 5, which both carry the identifier 3; the thread of block 3 runs. -/
def sched_tid_reuse : uthread_state :=
  { ready_q := some ⟨8, 8, 1, [⟨2, 2, 0⟩, ⟨1, 3, 1⟩, ⟨3, 4, 2⟩, ⟨4, 5, 3⟩, ⟨1, 6, 4⟩, ⟨5, 7, 5⟩,
      ⟨3, 8, 6⟩, ⟨1, 0, 7⟩]⟩
    blocked_q := some ⟨1, 2, 2, [⟨4, 2, 0⟩, ⟨5, 0, 1⟩]⟩
    main_tcb := 1
    current_tcb := 3
    num_of_threads := 4
    tcbs := [⟨0, READY⟩, ⟨1, EXIT⟩, ⟨2, RUNNING⟩, ⟨3, BLOCKED⟩, ⟨3, BLOCKED⟩]
    sigvtalrm_blocked := false }

/-- The state after the main thread yields in `sched_two_ready`: the thread of
block 2 runs, the thread of block 3 and the main thread are ready. -/
def sched_first_running : uthread_state :=
  { sched_two_ready with
    ready_q := some ⟨2, 3, 2, [⟨2, 2, 0⟩, ⟨3, 3, 1⟩, ⟨1, 0, 2⟩]⟩
    current_tcb := 2
    tcbs := [⟨0, READY⟩, ⟨1, RUNNING⟩, ⟨2, READY⟩] }

/-! ## sem.c -/

/-- The return value `ERROR` of sem.c. -/
def ERROR : Int := -1

/-- The largest value of the type `size_t` of the resource count, taken for a
platform on which `size_t` has 64 bits; arithmetic on the count wraps around
above it. -/
def SIZE_MAX : Nat := 2 ^ 64 - 1

/-- The type `struct semaphore`. -/
structure semaphore where
  resources_avail : Nat
  blocked_threads : queue_t
  num_of_blocked_threads : Int
  deriving DecidableEq, Repr

/-- The handle type `sem_t`: `none` is `NULL`, and `some sm` points to a
semaphore whose current contents are `sm`. -/
abbrev sem_t := Option semaphore

/-- The function `sem_create`; the argument is converted to `size_t`. -/
def sem_create (count : Nat) : sem_t :=
  some { blocked_threads := queue_create
         resources_avail := count % (SIZE_MAX + 1)
         num_of_blocked_threads := 0 }

/-- The function `sem_destroy`.  The second component of the result is what the
handle points to afterwards (`none` once the semaphore has been freed). -/
def sem_destroy (sem : sem_t) (s : uthread_state) : Option (Int × sem_t × uthread_state) :=
  let s := preempt_disable s
  match sem with
  | none => some (ERROR, none, s)
  | some sm =>
    if queue_length sm.blocked_threads > 0 then some (ERROR, some sm, s)
    else
      -- if (queue_destroy(sem->blocked_threads)) return ERROR;
      match queue_destroy sm.blocked_threads with
      | none => none
      | some (r, wq1) =>
        if r ≠ 0 then some (ERROR, some { sm with blocked_threads := wq1 }, s)
        else some (NO_ERROR, none, preempt_enable s)

/-- The loop of `sem_down` and what follows it.  The first component of the
result is `some r` when the call returns `r`, and `none` when the calling
thread has been switched out inside `uthread_block` with the call in progress;
once that thread is switched in again, the call goes on with this loop. -/
def sem_down_loop (sm : semaphore) (s : uthread_state) :
    Option (Option Int × sem_t × uthread_state) :=
  if sm.resources_avail = 0 then
    -- sem->num_of_blocked_threads++;
    -- queue_enqueue(sem->blocked_threads, (void*)uthread_current()); uthread_block();
    match queue_enqueue sm.blocked_threads (uthread_current s) with
    | none => none
    | some (_, wq1) =>
      match uthread_block s with
      | none => none
      | some s1 =>
        some (none, some { sm with num_of_blocked_threads := sm.num_of_blocked_threads + 1
                                   blocked_threads := wq1 }, s1)
  else
    let sm1 := if sm.resources_avail > 0
      then { sm with resources_avail := sm.resources_avail - 1 } else sm
    some (some NO_ERROR, some sm1, preempt_enable s)

/-- The function `sem_down`. -/
def sem_down (sem : sem_t) (s : uthread_state) : Option (Option Int × sem_t × uthread_state) :=
  let s := preempt_disable s
  match sem with
  | none => some (some ERROR, none, s)
  | some sm => sem_down_loop sm s

/-- The function `sem_up`.  The local `thread_to_unblock` is not initialised:
when the dequeue fails, the pointer passed on to `uthread_unblock` has no
defined value. -/
def sem_up (sem : sem_t) (s : uthread_state) : Option (Int × sem_t × uthread_state) :=
  let s := preempt_disable s
  match sem with
  | none => some (ERROR, none, s)
  | some sm =>
    -- sem->resources_avail += 1;
    let sm1 : semaphore :=
      { sm with resources_avail := (sm.resources_avail + 1) % (SIZE_MAX + 1) }
    if 0 < sm1.num_of_blocked_threads then
      let sm2 : semaphore :=
        { sm1 with num_of_blocked_threads := sm1.num_of_blocked_threads - 1 }
      match queue_dequeue sm2.blocked_threads (some 0) with
      | none => none
      | some (r, wq1, cell) =>
        if r ≠ 0 then none
        else
          match uthread_unblock s (cell.getD 0) with
          | none => none
          | some s1 =>
            some (NO_ERROR, some { sm2 with blocked_threads := wq1 }, preempt_enable s1)
    else some (NO_ERROR, some sm1, preempt_enable s)

/-- The semaphore has the waiters `ws`, oldest first: its waiter queue holds
them and its waiter counter is their number. -/
def SemRep (sm : semaphore) (ws : List Nat) : Prop :=
  ∃ wq, sm.blocked_threads = some wq ∧ Rep wq ws ∧
    sm.num_of_blocked_threads = (ws.length : Int)

/-! ## queue_tester.c -/

/-- The callback `inc_item` of queue_tester.c, on the global queue `q`.  The
callback's memory is the array `data`, and the item `&data[i]` is the pointer
`i + 1`. -/
def inc_item : queue_func_t (List Int) :=
  fun d wq =>
    match d with
    | 0 => none
    | i + 1 =>
      match wq.1[i]? with
      | none => none
      | some a =>
        if a = 5 then (queue_delete (some wq.2) d).bind (fun r => r.2.map (fun q1 => (wq.1, q1)))
        else some (wq.1.set i (a + 1), wq.2)

/-- What the end-to-end scenario observes. -/
structure scenario_result where
  enqueued : List Int
  dequeued : List (Int × Option Nat)
  delete_10 : Int
  delete_7 : Int
  iterate : Int
  length : Int
  data : List Int
  deriving DecidableEq, Repr

/-- The end-to-end scenario on a fresh queue, with the calls that
`test_queue_dequeue_multiple`, `test_queue_delete` and `test_queue_iterate` of
queue_tester.c make on the global queue: the items `&data[0]` to `&data[9]`,
valued 1 to 10, are enqueued, three are dequeued, the items valued 10 and 7 are
deleted, and the queue is iterated with `inc_item`. -/
def tester_scenario : Option scenario_result :=
  (enqueue_all queue_create [1, 2, 3, 4, 5, 6, 7, 8, 9, 10]).bind fun r0 =>
  (dequeue_n r0.2 3).bind fun r1 =>
  (queue_delete r1.2 10).bind fun r2 =>
  (queue_delete r2.2 7).bind fun r3 =>
  (queue_iterate 11 r3.2 (some inc_item) [1, 2, 3, 4, 5, 6, 7, 8, 9, 10]).bind fun r4 =>
  some { enqueued := r0.1, dequeued := r1.1, delete_10 := r2.1, delete_7 := r3.1
         iterate := r4.1, length := queue_length r4.2.2.2, data := r4.2.2.1 }

/-- A run from `uthread_start`: the first thread (block 2) creates the threads
of blocks 3 and 4 and exits, and the main thread yields to the thread of
block 3. -/
def exit_between_creates_run : Option uthread_state :=
  (uthread_start_setup true true).bind fun r =>
  (uthread_yield r.2).bind fun s =>
  (uthread_create true s).bind fun r =>
  (uthread_create true r.2).bind fun r =>
  (uthread_exit r.2).bind fun s =>
  uthread_yield s

/-- The state at the end of `exit_between_creates_run`: three threads are
alive, the main thread (identifier 0) and the threads of blocks 3 and 4
(identifiers 2 and 3), and the thread counter is 3. -/
def sched_exit_between_creates : uthread_state :=
  { ready_q := some ⟨4, 5, 2, [⟨2, 2, 0⟩, ⟨1, 3, 1⟩, ⟨3, 4, 2⟩, ⟨4, 5, 3⟩, ⟨1, 0, 4⟩]⟩
    blocked_q := some ⟨0, 0, 0, []⟩
    main_tcb := 1
    current_tcb := 3
    num_of_threads := 3
    tcbs := [⟨0, READY⟩, ⟨1, EXIT⟩, ⟨2, RUNNING⟩, ⟨3, READY⟩]
    sigvtalrm_blocked := false }

/-- A run from `uthread_start`: the main thread yields to the first thread,
which exits. -/
def main_alone_run : Option uthread_state :=
  (uthread_start_setup true true).bind fun r =>
  (uthread_yield r.2).bind fun s =>
  uthread_exit s

/-- The state at the end of `main_alone_run`: the main thread runs, the ready
queue is empty, and `SIGVTALRM` is not blocked. -/
def sched_main_alone : uthread_state :=
  { ready_q := some ⟨0, 2, 0, [⟨2, 2, 0⟩, ⟨1, 0, 1⟩]⟩
    blocked_q := some ⟨0, 0, 0, []⟩
    main_tcb := 1
    current_tcb := 1
    num_of_threads := 1
    tcbs := [⟨0, READY⟩, ⟨1, EXIT⟩]
    sigvtalrm_blocked := false }

/-! ## preempt.c: the timer -/

/-- The constant `HZ` of preempt.c. -/
def HZ : Int := 100

/-- The type `struct timeval`. -/
structure timeval where
  tv_sec : Int
  tv_usec : Int
  deriving DecidableEq, Repr

/-- The type `struct itimerval`. -/
structure itimerval where
  it_interval : timeval
  it_value : timeval
  deriving DecidableEq, Repr

/-- The function `preempt_start`, on the global `timer`: the value that it
passes to `setitimer`.  The installation of the signal handler is not
modelled. -/
def preempt_start (_timer : itimerval) : itimerval :=
  { it_interval := { tv_sec := 0, tv_usec := 10 * HZ }
    it_value := { tv_sec := 0, tv_usec := 10 * HZ } }

/-- The function `preempt_stop`, on the global `timer`. -/
def preempt_stop (timer : itimerval) : itimerval :=
  { it_interval := { timer.it_interval with tv_usec := 0 }
    it_value := { timer.it_value with tv_usec := 0 } }

/-! ## The queue as a doubly-linked list -/

/-- The last address of a list of node addresses, or `p` when the list is
empty. -/
def lastOr (p : Nat) : List Nat → Nat
  | [] => p
  | n :: ns => lastOr n ns

/-- The nodes at the addresses `ns` are linked in this order, in both
directions: the first one is at `a` and its prev-link is `p`, the next-link of
each one points to the following one, whose prev-link points back, and the
next-link of the last one is `b`. -/
def DSeg (mem : List queue_node) : Nat → Nat → List Nat → Nat → Prop
  | _, a, [], b => a = b
  | p, a, n :: ns, b =>
    a = n ∧ ∃ nd, node_at mem n = some nd ∧ nd.prev_in_queue = p ∧
      DSeg mem n nd.next_in_queue ns b

/-- The nodes of the queue are the distinct nodes `ns`, doubly linked from the
head to `NULL`, the head's prev-link being `p`; the count is their number and,
unless there is none, the tail is the last of them. -/
def LinkedFrom (p : Nat) (q : queue) (ns : List Nat) : Prop :=
  DSeg q.mem p q.first_in_queue ns 0 ∧ ns.Nodup ∧
  q.num_of_nodes = (ns.length : Int) ∧ (ns ≠ [] → q.last_in_queue = lastOr 0 ns)

/-- The queue is a well-formed doubly-linked list of the nodes `ns`: the head's
prev-link and the tail's next-link are `NULL`, adjacent nodes point to each
other, the count is the number of nodes, and head and tail are `NULL` when
there is no node. -/
def WellLinked (q : queue) (ns : List Nat) : Prop :=
  LinkedFrom 0 q ns ∧ q.last_in_queue = lastOr 0 ns

/-- The item `x` is not stored in a head node whose prev-link is not `NULL`
(as `queue_dequeue` leaves it when it moves the head). -/
def HeadDeletable (q : queue) (x : Nat) : Prop :=
  ∀ nd, node_at q.mem q.first_in_queue = some nd → nd.data_in_node = x →
    nd.prev_in_queue = 0

/-- The queues obtained from `queue_create` by calls of `queue_enqueue` and
`queue_delete` only. -/
inductive Built : queue → Prop
  | create : Built ⟨0, 0, 0, []⟩
  | enqueue {q q1 : queue} {e : Nat} {r : Int} :
      Built q → queue_enqueue (some q) e = some (r, some q1) → Built q1
  | delete {q q1 : queue} {x : Nat} {r : Int} :
      Built q → queue_delete (some q) x = some (r, some q1) → Built q1

/-- The queue after `queue_enqueue` of 11, 12 and 13 on a fresh queue. -/
def queue_three : queue :=
  { first_in_queue := 1, last_in_queue := 3, num_of_nodes := 3
    mem := [⟨11, 2, 0⟩, ⟨12, 3, 1⟩, ⟨13, 0, 2⟩] }

/-- The run `tid_reuse_run` followed by `uthread_unblock` of block 5 and by two
calls of `uthread_yield`, the first by the thread of block 3 and the second by
the main thread: the thread of block 5 then runs. -/
def exit_while_blocked_run : Option uthread_state :=
  tid_reuse_run.bind fun s =>
  (uthread_unblock s 5).bind fun s =>
  (uthread_yield s).bind fun s =>
  uthread_yield s

/-- The state at the end of `exit_while_blocked_run`: the thread of block 5
runs, the ready queue holds block 3 and the main block 1, and the blocked queue
still holds block 5. -/
def sched_exit_while_blocked : uthread_state :=
  { ready_q := some ⟨10, 11, 2, [⟨2, 2, 0⟩, ⟨1, 3, 1⟩, ⟨3, 4, 2⟩, ⟨4, 5, 3⟩, ⟨1, 6, 4⟩,
      ⟨5, 7, 5⟩, ⟨3, 8, 6⟩, ⟨1, 9, 7⟩, ⟨5, 10, 8⟩, ⟨3, 11, 9⟩, ⟨1, 0, 10⟩]⟩
    blocked_q := some ⟨2, 2, 1, [⟨4, 2, 0⟩, ⟨5, 0, 1⟩]⟩
    main_tcb := 1
    current_tcb := 5
    num_of_threads := 4
    tcbs := [⟨0, READY⟩, ⟨1, EXIT⟩, ⟨2, READY⟩, ⟨3, BLOCKED⟩, ⟨3, RUNNING⟩]
    sigvtalrm_blocked := false }

/-! # Lemmas and theorems -/

/-! ### Arena lemmas -/

theorem node_at_zero (mem : List queue_node) : node_at mem 0 = none := rfl

theorem node_at_append {mem : List queue_node} {a : Nat} {n : queue_node} (l : List queue_node)
    (h : node_at mem a = some n) : node_at (mem ++ l) a = some n := by
  cases a with
  | zero => simp [node_at] at h
  | succ p =>
    simp only [node_at] at h ⊢
    have hp : p < mem.length := by
      by_contra hc
      rw [List.getElem?_eq_none (by omega)] at h
      cases h
    rw [List.getElem?_append_left hp]
    exact h

theorem node_at_fresh (mem : List queue_node) (n : queue_node) :
    node_at (mem ++ [n]) (mem.length + 1) = some n := by
  simp [node_at]

theorem node_at_le {mem : List queue_node} {a : Nat} {n : queue_node}
    (h : node_at mem a = some n) : 0 < a ∧ a ≤ mem.length := by
  cases a with
  | zero => simp [node_at] at h
  | succ p =>
    simp only [node_at] at h
    have hp : p < mem.length := by
      by_contra hc
      rw [List.getElem?_eq_none (by omega)] at h
      cases h
    omega

theorem node_put_some {mem : List queue_node} {a : Nat} {n : queue_node} (m : queue_node)
    (h : node_at mem a = some n) : ∃ mem1, node_put mem a m = some mem1 := by
  have hle := node_at_le h
  cases a with
  | zero => omega
  | succ p =>
    refine ⟨mem.set p m, ?_⟩
    simp only [node_put]
    rw [if_pos (by omega)]

theorem node_put_length {mem mem1 : List queue_node} {a : Nat} {m : queue_node}
    (h : node_put mem a m = some mem1) : mem1.length = mem.length := by
  cases a with
  | zero => simp [node_put] at h
  | succ p =>
    simp only [node_put] at h
    split at h
    · cases h; simp
    · cases h

theorem node_at_put_same {mem mem1 : List queue_node} {a : Nat} {m : queue_node}
    (h : node_put mem a m = some mem1) : node_at mem1 a = some m := by
  cases a with
  | zero => simp [node_put] at h
  | succ p =>
    simp only [node_put] at h
    split at h
    · cases h
      simp only [node_at]
      rw [List.getElem?_set_self (by assumption)]
    · cases h

theorem node_at_put_other {mem mem1 : List queue_node} {a b : Nat} {m : queue_node}
    (h : node_put mem a m = some mem1) (hab : b ≠ a) : node_at mem1 b = node_at mem b := by
  cases a with
  | zero => simp [node_put] at h
  | succ p =>
    simp only [node_put] at h
    split at h
    · cases h
      cases b with
      | zero => rfl
      | succ r =>
        simp only [node_at]
        rw [List.getElem?_set_ne (by omega)]
    · cases h

theorem set_next_spec {mem : List queue_node} {a : Nat} {n : queue_node} (v : Nat)
    (h : node_at mem a = some n) :
    ∃ mem1, set_next mem a v = some mem1 ∧ mem1.length = mem.length ∧
      node_at mem1 a = some { n with next_in_queue := v } ∧
      ∀ b, b ≠ a → node_at mem1 b = node_at mem b := by
  obtain ⟨mem1, h1⟩ := node_put_some { n with next_in_queue := v } h
  refine ⟨mem1, ?_, node_put_length h1, node_at_put_same h1, fun b hb => node_at_put_other h1 hb⟩
  simp only [set_next, h, h1]

theorem set_prev_spec {mem : List queue_node} {a : Nat} {n : queue_node} (v : Nat)
    (h : node_at mem a = some n) :
    ∃ mem1, set_prev mem a v = some mem1 ∧ mem1.length = mem.length ∧
      node_at mem1 a = some { n with prev_in_queue := v } ∧
      ∀ b, b ≠ a → node_at mem1 b = node_at mem b := by
  obtain ⟨mem1, h1⟩ := node_put_some { n with prev_in_queue := v } h
  refine ⟨mem1, ?_, node_put_length h1, node_at_put_same h1, fun b hb => node_at_put_other h1 hb⟩
  simp only [set_prev, h, h1]

/-! ### Segments -/

theorem Seg_append {mem : List queue_node} {xs ys : List Nat} {a b c : Nat}
    (h1 : Seg mem a xs b) (h2 : Seg mem b ys c) : Seg mem a (xs ++ ys) c := by
  induction xs generalizing a with
  | nil => simp only [Seg] at h1; subst h1; simpa using h2
  | cons x xs ih =>
    obtain ⟨n, hn, hx, hrest⟩ := h1
    exact ⟨n, hn, hx, ih hrest⟩

/-- A segment whose nodes all keep their contents is still a segment. -/
theorem Seg_congr {mem mem1 : List queue_node} {xs : List Nat} {a b : Nat}
    (h : Seg mem a xs b)
    (hsame : ∀ p n, node_at mem p = some n → p ≠ b → node_at mem1 p = some n)
    (hb : ∀ n, node_at mem b = some n → n.next_in_queue = 0) (hb0 : b ≠ 0) :
    Seg mem1 a xs b := by
  induction xs generalizing a with
  | nil => exact h
  | cons x xs ih =>
    obtain ⟨n, hn, hx, hrest⟩ := h
    have hab : a ≠ b := by
      intro hab
      subst hab
      have h0 := hb n hn
      rw [h0] at hrest
      cases xs with
      | nil => exact hb0 hrest.symm
      | cons y ys =>
        obtain ⟨m, hm, _⟩ := hrest
        simp [node_at] at hm
    exact ⟨n, hsame a n hn hab, hx, ih hrest⟩

/-- Appending nodes to the arena keeps every segment. -/
theorem Seg_grow {mem : List queue_node} {xs : List Nat} {a b : Nat} (l : List queue_node)
    (h : Seg mem a xs b) : Seg (mem ++ l) a xs b := by
  induction xs generalizing a with
  | nil => exact h
  | cons x xs ih =>
    obtain ⟨n, hn, hx, hrest⟩ := h
    exact ⟨n, node_at_append l hn, hx, ih hrest⟩

/-! ### Enqueue and dequeue on a represented queue -/

theorem Rep_nil_iff (q : queue) : Rep q [] ↔ q.num_of_nodes = 0 := by
  simp [Rep]

theorem queue_enqueue_Rep {q : queue} {items : List Nat} {e : Nat}
    (hrep : Rep q items) (he : e ≠ 0) :
    ∃ q1, queue_enqueue (some q) e = some (0, some q1) ∧ Rep q1 (items ++ [e]) := by
  obtain ⟨hcount, hshape⟩ := hrep
  rcases hshape with hnil | ⟨front, lastx, hitems, hfront, hlast⟩
  · subst hnil
    simp only [List.length_nil, Nat.cast_zero] at hcount
    refine ⟨{ first_in_queue := q.mem.length + 1
              last_in_queue := q.mem.length + 1
              num_of_nodes := q.num_of_nodes + ONE_NODE
              mem := q.mem ++ [{ data_in_node := e, next_in_queue := 0, prev_in_queue := 0 }] },
      ?_, ?_⟩
    · simp only [queue_enqueue, if_neg he, if_pos hcount]
      rfl
    · refine ⟨by simp [hcount, ONE_NODE], Or.inr ⟨[], e, rfl, rfl, ?_⟩⟩
      exact ⟨_, node_at_fresh _ _, rfl, rfl⟩
  · obtain ⟨nl, hnl, hdata, hnext⟩ := hlast
    simp only [Seg] at hnext
    have hne : q.num_of_nodes ≠ 0 := by
      rw [hcount, hitems]; simp
      omega
    obtain ⟨mem1, hset, hlen, hself, hother⟩ := set_next_spec (q.mem.length + 1) hnl
    have hlast0 : q.last_in_queue ≠ 0 := (node_at_le hnl).1.ne'
    refine ⟨{ first_in_queue := q.first_in_queue
              last_in_queue := q.mem.length + 1
              num_of_nodes := q.num_of_nodes + ONE_NODE
              mem := mem1 ++ [{ data_in_node := e, next_in_queue := 0,
                                prev_in_queue := q.last_in_queue }] }, ?_, ?_⟩
    · simp only [queue_enqueue, if_neg he, if_neg hne, hset]
      rfl
    · refine ⟨?_, Or.inr ⟨front ++ [lastx], e, by rw [hitems], ?_, ?_⟩⟩
      · simp only [hcount, ONE_NODE, List.length_append, List.length_singleton]
        push_cast; ring
      · apply Seg_append (b := q.last_in_queue)
        · apply Seg_grow
          refine Seg_congr hfront (fun p n hp hpb => by rw [hother p hpb]; exact hp) ?_ hlast0
          intro n hn
          rw [hnl] at hn; cases hn; exact hnext
        · refine ⟨_, node_at_append _ hself, hdata, ?_⟩
          simp only [Seg]
      · refine ⟨{ data_in_node := e, next_in_queue := 0, prev_in_queue := q.last_in_queue },
          ?_, rfl, rfl⟩
        show node_at (mem1 ++ _) (q.mem.length + 1) = _
        rw [← hlen]
        exact node_at_fresh _ _

theorem queue_dequeue_Rep {q : queue} {x : Nat} {items : List Nat} (d : Nat)
    (hrep : Rep q (x :: items)) :
    ∃ q1, queue_dequeue (some q) (some d) = some (0, some q1, some x) ∧ Rep q1 items := by
  obtain ⟨hcount, hshape⟩ := hrep
  have hne : q.num_of_nodes ≠ 0 := by
    rw [hcount]; simp
    omega
  rcases hshape with hnil | ⟨front, lastx, hitems, hfront, hlast⟩
  · cases hnil
  · cases front with
    | nil =>
      simp only [List.nil_append, List.cons.injEq] at hitems
      obtain ⟨hx, hrest⟩ := hitems
      subst hx hrest
      simp only [Seg] at hfront
      obtain ⟨nl, hnl, hdata, _⟩ := hlast
      rw [← hfront] at hnl
      refine ⟨{ q with first_in_queue := nl.next_in_queue
                       num_of_nodes := q.num_of_nodes - ONE_NODE }, ?_, ?_⟩
      · simp only [queue_dequeue, if_neg hne, hnl, hdata]
        rfl
      · refine ⟨?_, Or.inl rfl⟩
        simp only [hcount, ONE_NODE, List.length_singleton, List.length_nil]
        norm_num
    | cons y front =>
      simp only [List.cons_append, List.cons.injEq] at hitems
      obtain ⟨hx, hrest⟩ := hitems
      subst hx
      obtain ⟨n, hn, hdata, hseg⟩ := hfront
      refine ⟨{ q with first_in_queue := n.next_in_queue
                       num_of_nodes := q.num_of_nodes - ONE_NODE }, ?_, ?_⟩
      · simp only [queue_dequeue, if_neg hne, hn, hdata]
        rfl
      · refine ⟨?_, Or.inr ⟨front, lastx, hrest, hseg, hlast⟩⟩
        simp only [hcount, ONE_NODE, List.length_cons]
        push_cast; ring

theorem enqueue_all_Rep {q : queue} {items : List Nat} (es : List Nat)
    (hrep : Rep q items) (hes : ∀ e ∈ es, e ≠ 0) :
    ∃ q1, enqueue_all (some q) es = some (List.replicate es.length 0, some q1) ∧
      Rep q1 (items ++ es) := by
  induction es generalizing q items with
  | nil => exact ⟨q, rfl, by simpa using hrep⟩
  | cons e es ih =>
    obtain ⟨q1, h1, hrep1⟩ := queue_enqueue_Rep hrep (hes e (List.mem_cons_self _ _))
    obtain ⟨q2, h2, hrep2⟩ := ih hrep1 (fun e' he' => hes e' (List.mem_cons_of_mem _ he'))
    refine ⟨q2, ?_, by simpa using hrep2⟩
    simp only [enqueue_all, h1, h2, List.length_cons, List.replicate_succ]

theorem dequeue_n_Rep {q : queue} (xs ys : List Nat) (hrep : Rep q (xs ++ ys)) :
    ∃ q1, dequeue_n (some q) xs.length = some (xs.map (fun x => (0, some x)), some q1) ∧
      Rep q1 ys := by
  induction xs generalizing q with
  | nil => exact ⟨q, rfl, hrep⟩
  | cons x xs ih =>
    obtain ⟨q1, h1, hrep1⟩ := queue_dequeue_Rep 0 hrep
    obtain ⟨q2, h2, hrep2⟩ := ih hrep1
    refine ⟨q2, ?_, hrep2⟩
    simp only [dequeue_n, List.length_cons, h1, h2, List.map_cons]

/-! ### C1: the FIFO law -/

/-- C1: starting from a queue whose count is zero (freshly created, or emptied
again by dequeues), enqueueing any non-null items `es` returns 0 every time;
then, for every `j ≤ es.length`, the first `j` dequeues all return 0, the i-th
one stores the i-th item in the out-parameter, and `queue_length` after them is
`es.length - j`. -/
theorem queue_fifo_law (q : queue) (es : List Nat)
    (hq : q.num_of_nodes = 0) (hes : ∀ e ∈ es, e ≠ 0) :
    ∃ q1, enqueue_all (some q) es = some (List.replicate es.length 0, some q1) ∧
      ∀ j, j ≤ es.length →
        ∃ q2, dequeue_n (some q1) j
              = some ((es.take j).map (fun e => ((0 : Int), some e)), some q2) ∧
          queue_length (some q2) = (es.length : Int) - (j : Int) := by
  obtain ⟨q1, h1, hrep1⟩ := @enqueue_all_Rep q [] es ((Rep_nil_iff q).2 hq) hes
  refine ⟨q1, h1, ?_⟩
  intro j hj
  rw [List.nil_append, ← List.take_append_drop j es] at hrep1
  obtain ⟨q2, h2, hrep2⟩ := dequeue_n_Rep (es.take j) (es.drop j) hrep1
  rw [List.length_take, Nat.min_eq_left hj] at h2
  refine ⟨q2, h2, ?_⟩
  simp only [queue_length, hrep2.1, List.length_drop]
  omega

/-- C1 at the queue returned by `queue_create` and three items. -/
theorem queue_fifo_law_witness :
    (0 : Int) = 0 ∧ (∀ e ∈ [11, 12, 13], e ≠ 0) ∧
    ∃ q1, enqueue_all queue_create [11, 12, 13] = some ([0, 0, 0], some q1) ∧
      ∀ j, j ≤ 3 →
        ∃ q2, dequeue_n (some q1) j
              = some (([11, 12, 13].take j).map (fun e => ((0 : Int), some e)), some q2) ∧
          queue_length (some q2) = (3 : Int) - (j : Int) :=
  ⟨rfl, by decide,
    queue_fifo_law { first_in_queue := 0, last_in_queue := 0, num_of_nodes := 0, mem := [] }
      [11, 12, 13] rfl (by decide)⟩

/-! ### C2, C3: `queue_delete` after a dequeue -/

/-- C2 at a failing input: on the queue obtained from `queue_create` by
enqueueing 11, 12, 13 and dequeueing once (it holds 12 and 13),
`queue_delete` of 12 returns 0 and lowers `queue_length` from 2 to 1, but does
not remove the node: the next dequeue returns the deleted item 12, and the one
after fails, so that 13 is never returned. -/
theorem queue_delete_after_dequeue_keeps_item :
    ∃ q0 q1 q2 q3 : queue,
      enqueue_all queue_create [11, 12, 13] = some ([0, 0, 0], some q0) ∧
      dequeue_n (some q0) 1 = some ([(0, some 11)], some q1) ∧
      Rep q1 [12, 13] ∧
      queue_delete (some q1) 12 = some (0, some q2) ∧
      queue_length (some q2) = 1 ∧
      dequeue_n (some q2) 2 = some ([(0, some 12), (-1, some 0)], some q3) :=
  ⟨⟨1, 3, 3, [⟨11, 2, 0⟩, ⟨12, 3, 1⟩, ⟨13, 0, 2⟩]⟩,
   ⟨2, 3, 2, [⟨11, 2, 0⟩, ⟨12, 3, 1⟩, ⟨13, 0, 2⟩]⟩,
   ⟨2, 3, 1, [⟨11, 3, 0⟩, ⟨12, 3, 1⟩, ⟨13, 0, 1⟩]⟩,
   ⟨3, 3, 0, [⟨11, 3, 0⟩, ⟨12, 3, 1⟩, ⟨13, 0, 1⟩]⟩,
   by decide, by decide,
   ⟨rfl, Or.inr ⟨[12], 13, rfl, ⟨⟨12, 3, 1⟩, rfl, rfl, rfl⟩, ⟨⟨13, 0, 2⟩, rfl, rfl, rfl⟩⟩⟩,
   by decide, by decide, by decide⟩

/-- C3 at a failing input: on the queue obtained from `queue_create` by
enqueueing 11 and 12, dequeueing once and deleting 12 (return value 0, length
0), the item 12 is no longer held, yet a second `queue_delete` of 12 returns 0
instead of -1 and takes `queue_length` from 0 to -1. -/
theorem queue_delete_twice_after_dequeue :
    ∃ q0 q1 q2 q3 : queue,
      enqueue_all queue_create [11, 12] = some ([0, 0], some q0) ∧
      dequeue_n (some q0) 1 = some ([(0, some 11)], some q1) ∧
      queue_delete (some q1) 12 = some (0, some q2) ∧
      queue_length (some q2) = 0 ∧
      queue_delete (some q2) 12 = some (0, some q3) ∧
      queue_length (some q3) = -1 :=
  ⟨⟨1, 2, 2, [⟨11, 2, 0⟩, ⟨12, 0, 1⟩]⟩,
   ⟨2, 2, 1, [⟨11, 2, 0⟩, ⟨12, 0, 1⟩]⟩,
   ⟨2, 1, 0, [⟨11, 0, 0⟩, ⟨12, 0, 1⟩]⟩,
   ⟨2, 1, -1, [⟨11, 0, 0⟩, ⟨12, 0, 1⟩]⟩,
   by decide, by decide, by decide, by decide, by decide, by decide⟩

/-! ### C5: `queue_destroy` -/

/-- C5 at two failing inputs: `queue_destroy` returns -1 on the empty queue
that `queue_create` returns, and leaves it allocated; on a queue that holds one
item it returns 0 and frees the queue. -/
theorem queue_destroy_inverted :
    queue_destroy queue_create = some (-1, queue_create) ∧
    ∃ q1 : queue, queue_enqueue queue_create 11 = some (0, some q1) ∧
      queue_length (some q1) = 1 ∧
      queue_destroy (some q1) = some (0, none) :=
  ⟨by decide, ⟨1, 1, 1, [⟨11, 0, 0⟩]⟩, by decide, by decide, by decide⟩

/-- A queue holds at most one list of items. -/
theorem Rep_unique {q : queue} {xs ys : List Nat} (hx : Rep q xs) (hy : Rep q ys) : xs = ys := by
  have hlen : xs.length = ys.length := by
    have h := hx.1.symm.trans hy.1
    exact_mod_cast h
  obtain ⟨q1, h1, _⟩ := dequeue_n_Rep xs [] (by simpa using hx)
  obtain ⟨q2, h2, _⟩ := dequeue_n_Rep ys [] (by simpa using hy)
  rw [hlen, h2] at h1
  simp only [Option.some.injEq, Prod.mk.injEq] at h1
  have hinj : Function.Injective (fun x : Nat => ((0 : Int), some x)) := by
    intro a b hab
    simpa using hab
  exact (hinj.list_map h1.1).symm

/-! ### Thread control blocks -/

theorem tcb_at_le {tcbs : List uthread_tcb} {a : Nat} {t : uthread_tcb}
    (h : tcb_at tcbs a = some t) : 0 < a ∧ a ≤ tcbs.length := by
  cases a with
  | zero => simp [tcb_at] at h
  | succ p =>
    simp only [tcb_at] at h
    have hp : p < tcbs.length := by
      by_contra hc
      rw [List.getElem?_eq_none (by omega)] at h
      cases h
    omega

theorem set_state_spec {tcbs : List uthread_tcb} {a : Nat} {t : uthread_tcb} (v : Nat)
    (h : tcb_at tcbs a = some t) :
    ∃ tcbs1, set_state tcbs a v = some tcbs1 ∧ tcbs1.length = tcbs.length ∧
      tcb_at tcbs1 a = some { t with state := v } ∧
      ∀ b, b ≠ a → tcb_at tcbs1 b = tcb_at tcbs b := by
  have hle := tcb_at_le h
  cases a with
  | zero => omega
  | succ p =>
    simp only [tcb_at] at h
    refine ⟨tcbs.set p { t with state := v }, ?_, by simp, ?_, ?_⟩
    · simp only [set_state, h]
    · simp only [tcb_at]
      rw [List.getElem?_set_self (by omega)]
    · intro b hb
      cases b with
      | zero => rfl
      | succ r =>
        simp only [tcb_at]
        rw [List.getElem?_set_ne (by omega)]

theorem dequeue_tcb_Rep {q : queue} {x : Nat} {items : List Nat} (tcbs : List uthread_tcb)
    (hrep : Rep q (x :: items)) :
    ∃ q1, dequeue_tcb tcbs (some q) = some (some q1, x) ∧ Rep q1 items := by
  obtain ⟨q1, h1, hrep1⟩ := queue_dequeue_Rep (tcbs.length + 1) hrep
  exact ⟨q1, by simp only [dequeue_tcb, h1, Option.getD_some], hrep1⟩

/-! ### `uthread_yield` -/

/-- The switching path of `uthread_yield`, with the resulting state spelled
out. -/
theorem uthread_yield_switch {s : uthread_state} {rq : queue} {t1 : Nat} {ts : List Nat}
    {tc tt : uthread_tcb}
    (hq : s.ready_q = some rq) (hrep : Rep rq (t1 :: ts))
    (hc : tcb_at s.tcbs s.current_tcb = some tc) (ht : tcb_at s.tcbs t1 = some tt) :
    ∃ rq1 tcbs1 tcbs2,
      set_state s.tcbs s.current_tcb READY = some tcbs1 ∧
      set_state tcbs1 t1 RUNNING = some tcbs2 ∧
      Rep rq1 (ts ++ [s.current_tcb]) ∧
      uthread_yield s = some
        { s with ready_q := some rq1, current_tcb := t1, tcbs := tcbs2
                 sigvtalrm_blocked := false } := by
  obtain ⟨tcbs1, hs1, hlen1, hself1, hother1⟩ := set_state_spec READY hc
  have ht1 : ∃ tt1, tcb_at tcbs1 t1 = some tt1 := by
    by_cases h : t1 = s.current_tcb
    · exact ⟨_, h ▸ hself1⟩
    · exact ⟨tt, by rw [hother1 t1 h]; exact ht⟩
  obtain ⟨tt1, ht1⟩ := ht1
  obtain ⟨tcbs2, hs2, _, _, _⟩ := set_state_spec RUNNING ht1
  have hc0 : s.current_tcb ≠ 0 := (tcb_at_le hc).1.ne'
  obtain ⟨rqa, hen, hrepa⟩ := queue_enqueue_Rep hrep hc0
  obtain ⟨rqb, hde, hrepb⟩ := dequeue_tcb_Rep tcbs1 hrepa
  refine ⟨rqb, tcbs1, tcbs2, hs1, hs2, hrepb, ?_⟩
  have hlen : queue_length (some rq) ≠ 0 := by
    simp only [queue_length, hrep.1, List.length_cons]
    push_cast
    omega
  simp only [uthread_yield, preempt_disable, preempt_enable, hq, if_neg hlen, hs1, hen, hde, hs2]

/-- C6: with current thread `c` and ready queue `t1 :: ts`, where `c` is not
`t1`, `uthread_yield` makes `t1` the current thread and marks it RUNNING, leaves
the ready queue holding `ts` followed by `c`, marks `c` READY, and changes
neither the blocked queue, nor the live-thread count, nor any other TCB. -/
theorem uthread_yield_rotates (s : uthread_state) (rq : queue) (t1 : Nat) (ts : List Nat)
    (tc tt : uthread_tcb)
    (hq : s.ready_q = some rq) (hrep : Rep rq (t1 :: ts))
    (hc : tcb_at s.tcbs s.current_tcb = some tc) (ht : tcb_at s.tcbs t1 = some tt)
    (hne : s.current_tcb ≠ t1) :
    ∃ s1 rq1, uthread_yield s = some s1 ∧
      s1.current_tcb = t1 ∧ tcb_at s1.tcbs t1 = some { tt with state := RUNNING } ∧
      s1.ready_q = some rq1 ∧ Rep rq1 (ts ++ [s.current_tcb]) ∧
      tcb_at s1.tcbs s.current_tcb = some { tc with state := READY } ∧
      s1.blocked_q = s.blocked_q ∧ s1.num_of_threads = s.num_of_threads ∧
      s1.main_tcb = s.main_tcb ∧
      ∀ p, p ≠ s.current_tcb → p ≠ t1 → tcb_at s1.tcbs p = tcb_at s.tcbs p := by
  obtain ⟨rq1, tcbs1, tcbs2, hs1, hs2, hrep1, hy⟩ := uthread_yield_switch hq hrep hc ht
  obtain ⟨tcbs1', hs1', _, hself1, hother1⟩ := set_state_spec READY hc
  rw [hs1] at hs1'; cases hs1'
  have ht1 : tcb_at tcbs1 t1 = some tt := by rw [hother1 t1 (Ne.symm hne)]; exact ht
  obtain ⟨tcbs2', hs2', _, hself2, hother2⟩ := set_state_spec RUNNING ht1
  rw [hs2] at hs2'; cases hs2'
  refine ⟨_, rq1, hy, rfl, hself2, rfl, hrep1, ?_, rfl, rfl, rfl, ?_⟩
  · show tcb_at tcbs2 s.current_tcb = _
    rw [hother2 _ hne]; exact hself1
  · intro p hpc hpt
    show tcb_at tcbs2 p = _
    rw [hother2 p hpt, hother1 p hpc]

theorem sched_two_ready_reached :
    (uthread_start_setup true true).bind (fun r => uthread_create true r.2)
      = some (0, sched_two_ready) := by
  decide

theorem sched_two_ready_Rep :
    Rep ⟨1, 2, 2, [⟨2, 2, 0⟩, ⟨3, 0, 1⟩]⟩ [2, 3] :=
  ⟨rfl, Or.inr ⟨[2], 3, rfl, ⟨⟨2, 2, 0⟩, rfl, rfl, rfl⟩, ⟨⟨3, 0, 1⟩, rfl, rfl, rfl⟩⟩⟩

/-- C6 at the state reached by `uthread_start` and a second `uthread_create`:
the main thread yields to the thread in block 2. -/
theorem uthread_yield_rotates_witness :
    Rep ⟨1, 2, 2, [⟨2, 2, 0⟩, ⟨3, 0, 1⟩]⟩ [2, 3] ∧ sched_two_ready.current_tcb ≠ 2 ∧
    ∃ s1 rq1, uthread_yield sched_two_ready = some s1 ∧
      s1.current_tcb = 2 ∧ tcb_at s1.tcbs 2 = some { tid := 1, state := RUNNING } ∧
      s1.ready_q = some rq1 ∧ Rep rq1 ([3] ++ [sched_two_ready.current_tcb]) ∧
      tcb_at s1.tcbs sched_two_ready.current_tcb = some { tid := 0, state := READY } ∧
      s1.blocked_q = sched_two_ready.blocked_q ∧
      s1.num_of_threads = sched_two_ready.num_of_threads ∧
      s1.main_tcb = sched_two_ready.main_tcb ∧
      ∀ p, p ≠ sched_two_ready.current_tcb → p ≠ 2 →
        tcb_at s1.tcbs p = tcb_at sched_two_ready.tcbs p :=
  ⟨sched_two_ready_Rep, by decide,
    uthread_yield_rotates sched_two_ready _ 2 [3] ⟨0, READY⟩ ⟨1, READY⟩ rfl
      sched_two_ready_Rep rfl rfl (by decide)⟩

/-! ### Round robin -/

theorem set_state_valid {tcbs tcbs1 : List uthread_tcb} {a v b : Nat}
    (h : set_state tcbs a v = some tcbs1) (hb : ∃ t, tcb_at tcbs b = some t) :
    ∃ t, tcb_at tcbs1 b = some t := by
  cases a with
  | zero => simp [set_state] at h
  | succ p =>
    cases hp : tcbs[p]? with
    | none => simp [set_state, hp] at h
    | some t =>
      obtain ⟨tcbs1', hs, _, hself, hother⟩ := set_state_spec (a := p + 1) v (t := t) hp
      rw [h] at hs; cases hs
      by_cases hba : b = p + 1
      · exact ⟨_, hba ▸ hself⟩
      · obtain ⟨t', ht'⟩ := hb
        exact ⟨t', by rw [hother b hba]; exact ht'⟩

/-- One yield, on the sequence made of the ready queue followed by the current
thread: its head becomes the current thread and moves to the end. -/
theorem uthread_yield_step {s : uthread_state} {rq : queue} {ready rest : List Nat} {x : Nat}
    (hq : s.ready_q = some rq) (hrep : Rep rq ready)
    (hvalid : ∀ p ∈ ready ++ [s.current_tcb], ∃ t, tcb_at s.tcbs p = some t)
    (hseq : ready ++ [s.current_tcb] = x :: rest) :
    ∃ s1 rq1 ready1, uthread_yield s = some s1 ∧ s1.current_tcb = x ∧
      s1.ready_q = some rq1 ∧ Rep rq1 ready1 ∧
      ready1 ++ [s1.current_tcb] = rest ++ [x] ∧
      ∀ p, (∃ t, tcb_at s.tcbs p = some t) → ∃ t, tcb_at s1.tcbs p = some t := by
  cases ready with
  | nil =>
    simp only [List.nil_append, List.cons.injEq] at hseq
    obtain ⟨hx, hrest⟩ := hseq
    subst hrest
    have hlen : queue_length (some rq) = 0 := by simp [queue_length, hrep.1]
    refine ⟨preempt_disable s, rq, [], ?_, hx, hq, hrep, by simp [preempt_disable, hx],
      fun p hp => hp⟩
    simp only [uthread_yield, preempt_disable, hq, hlen, if_true]
  | cons t L =>
    simp only [List.cons_append, List.cons.injEq] at hseq
    obtain ⟨hx, hrest⟩ := hseq
    subst hx
    obtain ⟨tc, hc⟩ := hvalid s.current_tcb (by simp)
    obtain ⟨tt, ht⟩ := hvalid t (by simp)
    obtain ⟨rq1, tcbs1, tcbs2, hs1, hs2, hrep1, hy⟩ := uthread_yield_switch hq hrep hc ht
    refine ⟨_, rq1, L ++ [s.current_tcb], hy, rfl, rfl, hrep1, by simp [← hrest], ?_⟩
    intro p hp
    exact set_state_valid hs2 (set_state_valid hs1 hp)

theorem yield_n_rotate (xs : List Nat) :
    ∀ (ys : List Nat) (s : uthread_state) (rq : queue) (ready : List Nat),
      s.ready_q = some rq → Rep rq ready →
      (∀ p ∈ xs ++ ys, ∃ t, tcb_at s.tcbs p = some t) →
      ready ++ [s.current_tcb] = xs ++ ys →
      ∃ s1 rq1 ready1, yield_n xs.length s = some (xs, s1) ∧
        s1.ready_q = some rq1 ∧ Rep rq1 ready1 ∧ ready1 ++ [s1.current_tcb] = ys ++ xs := by
  induction xs with
  | nil =>
    intro ys s rq ready hq hrep _ hseq
    exact ⟨s, rq, ready, rfl, hq, hrep, by simpa using hseq⟩
  | cons x xs ih =>
    intro ys s rq ready hq hrep hvalid hseq
    obtain ⟨s1, rq1, ready1, hy, hcur, hq1, hrep1, hseq1, hkeep⟩ :=
      uthread_yield_step hq hrep (by rw [hseq]; exact hvalid) (by simpa using hseq)
    obtain ⟨s2, rq2, ready2, hyn, hq2, hrep2, hseq2⟩ :=
      ih (ys ++ [x]) s1 rq1 ready1 hq1 hrep1
        (fun p hp => hkeep p (hvalid p (by
          simp only [List.mem_append, List.mem_singleton, List.mem_cons] at hp ⊢
          tauto)))
        (by simpa using hseq1)
    refine ⟨s2, rq2, ready2, ?_, hq2, hrep2, by simpa using hseq2⟩
    simp only [yield_n, List.length_cons, hy, hyn, hcur]

/-- C7: with current thread `c` and ready queue `ts` (of `k` threads),
`k + 1` consecutive yields make the threads of `ts`, in their order, and then
`c` the running thread, and leave the ready queue holding `ts` again with `c`
running. -/
theorem uthread_yield_round_robin (s : uthread_state) (rq : queue) (ts : List Nat)
    (hq : s.ready_q = some rq) (hrep : Rep rq ts)
    (hvalid : ∀ p ∈ ts ++ [s.current_tcb], ∃ t, tcb_at s.tcbs p = some t) :
    ∃ s1 rq1, yield_n (ts.length + 1) s = some (ts ++ [s.current_tcb], s1) ∧
      s1.ready_q = some rq1 ∧ Rep rq1 ts ∧ s1.current_tcb = s.current_tcb := by
  obtain ⟨s1, rq1, ready1, hyn, hq1, hrep1, hseq1⟩ :=
    yield_n_rotate (ts ++ [s.current_tcb]) [] s rq ts hq hrep (by simpa using hvalid) (by simp)
  simp only [List.nil_append] at hseq1
  obtain ⟨hready, hcur⟩ := List.append_inj' hseq1 (by simp)
  simp only [List.cons.injEq, and_true] at hcur
  subst hready
  refine ⟨s1, rq1, ?_, hq1, hrep1, hcur⟩
  simpa using hyn

/-- C7 at the state reached by `uthread_start` and a second `uthread_create`:
three yields run the threads of blocks 2 and 3, created in this order, and
then the main thread. -/
theorem uthread_yield_round_robin_witness :
    Rep ⟨1, 2, 2, [⟨2, 2, 0⟩, ⟨3, 0, 1⟩]⟩ [2, 3] ∧
    ∃ s1 rq1, yield_n 3 sched_two_ready = some ([2, 3, 1], s1) ∧
      s1.ready_q = some rq1 ∧ Rep rq1 [2, 3] ∧ s1.current_tcb = 1 :=
  ⟨sched_two_ready_Rep,
    uthread_yield_round_robin sched_two_ready _ [2, 3] rfl sched_two_ready_Rep (by
      intro p hp
      simp only [sched_two_ready, List.cons_append, List.nil_append, List.mem_cons,
        List.mem_singleton, List.not_mem_nil, or_false] at hp
      rcases hp with rfl | rfl | rfl <;> exact ⟨_, rfl⟩)⟩

/-- A successful `uthread_create` appends the new thread, READY and carrying the
current value of the thread counter, at the tail of the ready queue. -/
theorem uthread_create_Rep {s : uthread_state} {rq : queue} {ts : List Nat}
    (hq : s.ready_q = some rq) (hrep : Rep rq ts) :
    ∃ s1 rq1, uthread_create true s = some (0, s1) ∧
      s1.ready_q = some rq1 ∧ Rep rq1 (ts ++ [s.tcbs.length + 1]) ∧
      tcb_at s1.tcbs (s.tcbs.length + 1) = some ⟨s.num_of_threads, READY⟩ ∧
      s1.current_tcb = s.current_tcb ∧ s1.blocked_q = s.blocked_q ∧
      s1.num_of_threads = s.num_of_threads + 1 ∧
      ∀ p t, tcb_at s.tcbs p = some t → tcb_at s1.tcbs p = some t := by
  obtain ⟨rq1, hen, hrep1⟩ := queue_enqueue_Rep hrep (Nat.succ_ne_zero s.tcbs.length)
  refine ⟨preempt_enable { preempt_disable s with
      ready_q := some rq1
      num_of_threads := s.num_of_threads + 1
      tcbs := s.tcbs ++ [⟨s.num_of_threads, READY⟩] }, rq1, ?_, rfl, hrep1, ?_, rfl, rfl, rfl, ?_⟩
  · simp only [uthread_create, preempt_disable, preempt_enable, hq, hen]
    rfl
  · simp [preempt_enable, preempt_disable, tcb_at]
  · intro p t hp
    cases p with
    | zero => simp [tcb_at] at hp
    | succ r =>
      simp only [tcb_at, preempt_enable, preempt_disable] at hp ⊢
      have hr : r < s.tcbs.length := by
        by_contra hc
        rw [List.getElem?_eq_none (by omega)] at hp
        cases hp
      rw [List.getElem?_append_left hr]
      exact hp

/-! ### `uthread_unblock` -/

theorem three_blocked_run_eq : three_blocked_run = some sched_three_blocked := by
  decide

theorem tid_reuse_run_eq : tid_reuse_run = some sched_tid_reuse := by
  decide

/-- The scan of `uthread_unblock` over TCBs that do not carry the identifier
looked for: each is dequeued and enqueued again at the tail. -/
theorem uthread_unblock_loop_skip {t : Nat} {tu : uthread_tcb} (xs : List Nat) :
    ∀ (ys : List Nat) (temp : Nat) (s : uthread_state) (bq : queue),
      s.blocked_q = some bq → Rep bq (xs ++ ys) → tcb_at s.tcbs t = some tu →
      (∀ b ∈ xs, ∃ tb, tcb_at s.tcbs b = some tb ∧ tb.tid ≠ tu.tid) →
      ∃ bq1, Rep bq1 (ys ++ xs) ∧
        uthread_unblock_loop t xs.length temp s = some { s with blocked_q := some bq1 } := by
  induction xs with
  | nil =>
    intro ys temp s bq hq hrep _ _
    refine ⟨bq, by simpa using hrep, ?_⟩
    simp only [List.length_nil, uthread_unblock_loop, ← hq]
  | cons x xs ih =>
    intro ys temp s bq hq hrep ht hxs
    obtain ⟨bqa, hde, hrepa⟩ := queue_dequeue_Rep temp hrep
    obtain ⟨tb, hb, hne⟩ := hxs x (List.mem_cons_self _ _)
    have hx0 : x ≠ 0 := (tcb_at_le hb).1.ne'
    obtain ⟨bqb, hen, hrepb⟩ := queue_enqueue_Rep hrepa hx0
    obtain ⟨bq1, hrep1, hloop⟩ := ih (ys ++ [x]) x { s with blocked_q := some bqb } bqb rfl
      (by simpa using hrepb) ht (fun b hb' => hxs b (List.mem_cons_of_mem _ hb'))
    refine ⟨bq1, by simpa using hrep1, ?_⟩
    simp only [List.length_cons, uthread_unblock_loop, hq, hde, Option.getD_some, hb, ht,
      if_neg hne, hen, hloop]

/-- The scan of `uthread_unblock` up to the first TCB that carries the
identifier looked for. -/
theorem uthread_unblock_loop_found {t t1 : Nat} {tu tt : uthread_tcb} (pre : List Nat) :
    ∀ (rest : List Nat) (k temp : Nat) (s : uthread_state) (bq rq : queue) (rs : List Nat),
      s.blocked_q = some bq → Rep bq (pre ++ t1 :: rest) →
      s.ready_q = some rq → Rep rq rs →
      tcb_at s.tcbs t = some tu → tcb_at s.tcbs t1 = some tt → tt.tid = tu.tid →
      (∀ b ∈ pre, ∃ tb, tcb_at s.tcbs b = some tb ∧ tb.tid ≠ tu.tid) →
      ∃ bq1 rq1 tcbs1, Rep bq1 (rest ++ pre) ∧ Rep rq1 (rs ++ [t]) ∧
        set_state s.tcbs t READY = some tcbs1 ∧
        uthread_unblock_loop t (pre.length + 1 + k) temp s
          = some { s with ready_q := some rq1, blocked_q := some bq1, tcbs := tcbs1 } := by
  induction pre with
  | nil =>
    intro rest k temp s bq rq rs hq hrep hrq hrs ht ht1 htid _
    obtain ⟨bqa, hde, hrepa⟩ := queue_dequeue_Rep temp hrep
    obtain ⟨tcbs1, hs1, _, _, _⟩ := set_state_spec READY ht
    have ht0 : t ≠ 0 := (tcb_at_le ht).1.ne'
    obtain ⟨rq1, hen, hrep1⟩ := queue_enqueue_Rep hrs ht0
    refine ⟨bqa, rq1, tcbs1, by simpa using hrepa, hrep1, hs1, ?_⟩
    have hk : ([] : List Nat).length + 1 + k = k + 1 := by
      simp only [List.length_nil]; omega
    rw [hk]
    simp only [uthread_unblock_loop, hq, hde, Option.getD_some, ht1, ht, htid, if_true, hs1,
      hrq, hen]
  | cons x pre ih =>
    intro rest k temp s bq rq rs hq hrep hrq hrs ht ht1 htid hpre
    obtain ⟨bqa, hde, hrepa⟩ := queue_dequeue_Rep temp hrep
    obtain ⟨tb, hb, hne⟩ := hpre x (List.mem_cons_self _ _)
    have hx0 : x ≠ 0 := (tcb_at_le hb).1.ne'
    obtain ⟨bqb, hen, hrepb⟩ := queue_enqueue_Rep hrepa hx0
    obtain ⟨bq1, rq1, tcbs1, hrep1, hrepr, hs1, hloop⟩ :=
      ih (rest ++ [x]) k x { s with blocked_q := some bqb } bqb rq rs rfl
        (by simpa using hrepb) hrq hrs ht ht1 htid
        (fun b hb' => hpre b (List.mem_cons_of_mem _ hb'))
    refine ⟨bq1, rq1, tcbs1, by simpa using hrep1, hrepr, hs1, ?_⟩
    have hk : (x :: pre).length + 1 + k = (pre.length + 1 + k) + 1 := by
      simp only [List.length_cons]; omega
    rw [hk]
    simp only [uthread_unblock_loop, hq, hde, Option.getD_some, hb, ht, if_neg hne, hen, hloop]

theorem sched_three_blocked_Rep :
    Rep ⟨1, 3, 3, [⟨2, 2, 0⟩, ⟨3, 3, 1⟩, ⟨4, 0, 2⟩]⟩ [2, 3, 4] :=
  ⟨rfl, Or.inr ⟨[2, 3], 4, rfl,
    ⟨⟨2, 2, 0⟩, rfl, rfl, ⟨3, 3, 1⟩, rfl, rfl, rfl⟩, ⟨⟨4, 0, 2⟩, rfl, rfl, rfl⟩⟩⟩

theorem sched_three_blocked_ready_Rep :
    Rep ⟨5, 5, 1, [⟨2, 2, 0⟩, ⟨3, 3, 1⟩, ⟨4, 4, 2⟩, ⟨5, 5, 3⟩, ⟨1, 0, 4⟩]⟩ [1] :=
  ⟨rfl, Or.inr ⟨[], 1, rfl, rfl, ⟨⟨1, 0, 4⟩, rfl, rfl, rfl⟩⟩⟩

/-- C8 at a failing input, the state at the end of `tid_reuse_run`, in which
the blocked queue holds the blocks 4 and 5 and both carry the identifier 3:
`uthread_unblock` of block 5 removes block 4 from the blocked queue instead,
which stays BLOCKED and is in neither queue afterwards, while block 5 is marked
READY, appended to the ready queue, and still in the blocked queue. -/
theorem uthread_unblock_removes_other_tcb :
    tid_reuse_run = some sched_tid_reuse ∧
    Rep ⟨1, 2, 2, [⟨4, 2, 0⟩, ⟨5, 0, 1⟩]⟩ [4, 5] ∧
    tcb_at sched_tid_reuse.tcbs 4 = some ⟨3, BLOCKED⟩ ∧
    tcb_at sched_tid_reuse.tcbs 5 = some ⟨3, BLOCKED⟩ ∧
    ∃ s1 bq1 rq1, uthread_unblock sched_tid_reuse 5 = some s1 ∧
      s1.blocked_q = some bq1 ∧ Rep bq1 [5] ∧
      s1.ready_q = some rq1 ∧ Rep rq1 [1, 5] ∧
      tcb_at s1.tcbs 4 = some ⟨3, BLOCKED⟩ ∧ tcb_at s1.tcbs 5 = some ⟨3, READY⟩ :=
  ⟨by decide,
   ⟨rfl, Or.inr ⟨[4], 5, rfl, ⟨⟨4, 2, 0⟩, rfl, rfl, rfl⟩, ⟨⟨5, 0, 1⟩, rfl, rfl, rfl⟩⟩⟩,
   rfl, rfl,
   { sched_tid_reuse with
      ready_q := some ⟨8, 9, 2, [⟨2, 2, 0⟩, ⟨1, 3, 1⟩, ⟨3, 4, 2⟩, ⟨4, 5, 3⟩, ⟨1, 6, 4⟩,
        ⟨5, 7, 5⟩, ⟨3, 8, 6⟩, ⟨1, 9, 7⟩, ⟨5, 0, 8⟩]⟩
      blocked_q := some ⟨2, 2, 1, [⟨4, 2, 0⟩, ⟨5, 0, 1⟩]⟩
      tcbs := [⟨0, READY⟩, ⟨1, EXIT⟩, ⟨2, RUNNING⟩, ⟨3, BLOCKED⟩, ⟨3, READY⟩] },
   _, _, by decide, rfl,
   ⟨rfl, Or.inr ⟨[], 5, rfl, rfl, ⟨⟨5, 0, 1⟩, rfl, rfl, rfl⟩⟩⟩,
   rfl,
   ⟨rfl, Or.inr ⟨[1], 5, rfl, ⟨⟨1, 9, 7⟩, rfl, rfl, rfl⟩, ⟨⟨5, 0, 8⟩, rfl, rfl, rfl⟩⟩⟩,
   rfl, rfl⟩

/-- C9, the claim as stated, fails at the end of `three_blocked_run`: the
blocked queue holds the blocks 2, 3, 4 (with the distinct identifiers 1, 2, 3),
and after `uthread_unblock` of block 3 it holds 4 before 2, not 2 before 4. -/
theorem uthread_unblock_reorders :
    Rep ⟨1, 3, 3, [⟨2, 2, 0⟩, ⟨3, 3, 1⟩, ⟨4, 0, 2⟩]⟩ [2, 3, 4] ∧
    ∃ s1 bq1, uthread_unblock sched_three_blocked 3 = some s1 ∧
      s1.blocked_q = some bq1 ∧ Rep bq1 [4, 2] ∧ ¬ Rep bq1 [2, 4] := by
  have hrep : Rep ⟨3, 4, 2, [⟨2, 2, 0⟩, ⟨3, 3, 1⟩, ⟨4, 4, 2⟩, ⟨2, 0, 3⟩]⟩ [4, 2] :=
    ⟨rfl, Or.inr ⟨[4], 2, rfl, ⟨⟨4, 4, 2⟩, rfl, rfl, rfl⟩, ⟨⟨2, 0, 3⟩, rfl, rfl, rfl⟩⟩⟩
  refine ⟨sched_three_blocked_Rep,
    { sched_three_blocked with
      ready_q := some ⟨5, 6, 2, [⟨2, 2, 0⟩, ⟨3, 3, 1⟩, ⟨4, 4, 2⟩, ⟨5, 5, 3⟩, ⟨1, 6, 4⟩,
        ⟨3, 0, 5⟩]⟩
      blocked_q := some ⟨3, 4, 2, [⟨2, 2, 0⟩, ⟨3, 3, 1⟩, ⟨4, 4, 2⟩, ⟨2, 0, 3⟩]⟩
      tcbs := [⟨0, READY⟩, ⟨1, BLOCKED⟩, ⟨2, READY⟩, ⟨3, BLOCKED⟩, ⟨4, RUNNING⟩] },
    _, by decide, rfl, hrep, ?_⟩
  intro h
  have := Rep_unique hrep h
  simp at this

/-- C9, amended: when the blocked queue holds `pre`, then `t`, then `post`, and
no TCB of `pre` carries the identifier of `t`, the blocked queue holds `post`
followed by `pre` after `uthread_unblock t`: the TCBs skipped during the scan
are moved behind those that followed `t`, each group keeping its order. -/
theorem uthread_unblock_rotation (s : uthread_state) (bq rq : queue) (pre post rs : List Nat)
    (t : Nat) (tu : uthread_tcb)
    (hq : s.blocked_q = some bq) (hrep : Rep bq (pre ++ t :: post))
    (hrq : s.ready_q = some rq) (hrs : Rep rq rs)
    (ht : tcb_at s.tcbs t = some tu)
    (hpre : ∀ b ∈ pre, ∃ tb, tcb_at s.tcbs b = some tb ∧ tb.tid ≠ tu.tid) :
    ∃ s1 bq1, uthread_unblock s t = some s1 ∧ s1.blocked_q = some bq1 ∧
      Rep bq1 (post ++ pre) := by
  obtain ⟨bq1, rq1, tcbs1, hrep1, _, _, hloop⟩ :=
    @uthread_unblock_loop_found t t tu tu pre post post.length (s.tcbs.length + 1)
      (preempt_disable s) bq rq rs hq hrep hrq hrs ht ht rfl hpre
  have hlen : queue_length s.blocked_q = ((pre.length + 1 + post.length : Nat) : Int) := by
    simp only [hq, queue_length, hrep.1, List.length_append, List.length_cons]
    push_cast; ring
  refine ⟨preempt_enable { preempt_disable s with
      ready_q := some rq1, blocked_q := some bq1, tcbs := tcbs1 }, bq1, ?_, rfl, hrep1⟩
  simp only [uthread_unblock, preempt_disable] at hloop ⊢
  rw [hlen, if_neg (by omega), Int.toNat_ofNat, hloop]

/-- C9, amended, at the end of `three_blocked_run`: unblocking block 3 leaves
the blocked queue holding 4 and then 2. -/
theorem uthread_unblock_rotation_witness :
    Rep ⟨1, 3, 3, [⟨2, 2, 0⟩, ⟨3, 3, 1⟩, ⟨4, 0, 2⟩]⟩ ([2] ++ 3 :: [4]) ∧
    ∃ s1 bq1, uthread_unblock sched_three_blocked 3 = some s1 ∧ s1.blocked_q = some bq1 ∧
      Rep bq1 ([4] ++ [2]) :=
  ⟨sched_three_blocked_Rep,
    uthread_unblock_rotation sched_three_blocked _ _ [2] [4] [1] 3 ⟨2, BLOCKED⟩ rfl
      sched_three_blocked_Rep rfl sched_three_blocked_ready_Rep rfl (by
        intro b hb
        simp only [List.mem_singleton] at hb
        subst hb
        exact ⟨⟨1, BLOCKED⟩, rfl, by decide⟩)⟩

/-- C10: when no TCB in the blocked queue carries the identifier of `t`,
`uthread_unblock t` leaves the blocked queue holding the same TCBs in the same
order, and changes neither the ready queue, nor the current thread, nor any
TCB, nor the live-thread count, whatever the length of the blocked queue. -/
theorem uthread_unblock_absent (s : uthread_state) (bq : queue) (bs : List Nat)
    (t : Nat) (tu : uthread_tcb)
    (hq : s.blocked_q = some bq) (hrep : Rep bq bs)
    (ht : tcb_at s.tcbs t = some tu)
    (habs : ∀ b ∈ bs, ∃ tb, tcb_at s.tcbs b = some tb ∧ tb.tid ≠ tu.tid) :
    ∃ s1 bq1, uthread_unblock s t = some s1 ∧ s1.blocked_q = some bq1 ∧ Rep bq1 bs ∧
      s1.ready_q = s.ready_q ∧ s1.current_tcb = s.current_tcb ∧ s1.tcbs = s.tcbs ∧
      s1.num_of_threads = s.num_of_threads ∧ s1.main_tcb = s.main_tcb := by
  obtain ⟨bq1, hrep1, hloop⟩ :=
    uthread_unblock_loop_skip (t := t) bs [] (s.tcbs.length + 1) (preempt_disable s) bq hq
      (by simpa using hrep) ht habs
  have hlen : queue_length s.blocked_q = ((bs.length : Nat) : Int) := by
    simp only [hq, queue_length, hrep.1]
  refine ⟨preempt_enable { preempt_disable s with blocked_q := some bq1 }, bq1, ?_, rfl,
    by simpa using hrep1, rfl, rfl, rfl, rfl, rfl⟩
  simp only [uthread_unblock, preempt_disable] at hloop ⊢
  rw [hlen, if_neg (by omega), Int.toNat_ofNat, hloop]

/-- C10 at the end of `three_blocked_run`: the running thread (block 5,
identifier 4) is not in the blocked queue, and unblocking it changes nothing. -/
theorem uthread_unblock_absent_witness :
    Rep ⟨1, 3, 3, [⟨2, 2, 0⟩, ⟨3, 3, 1⟩, ⟨4, 0, 2⟩]⟩ [2, 3, 4] ∧
    ∃ s1 bq1, uthread_unblock sched_three_blocked 5 = some s1 ∧ s1.blocked_q = some bq1 ∧
      Rep bq1 [2, 3, 4] ∧
      s1.ready_q = sched_three_blocked.ready_q ∧
      s1.current_tcb = sched_three_blocked.current_tcb ∧
      s1.tcbs = sched_three_blocked.tcbs ∧
      s1.num_of_threads = sched_three_blocked.num_of_threads ∧
      s1.main_tcb = sched_three_blocked.main_tcb :=
  ⟨sched_three_blocked_Rep,
    uthread_unblock_absent sched_three_blocked _ [2, 3, 4] 5 ⟨4, RUNNING⟩ rfl
      sched_three_blocked_Rep rfl (by
        intro b hb
        simp only [List.mem_cons, List.mem_singleton, List.not_mem_nil, or_false] at hb
        rcases hb with rfl | rfl | rfl
        · exact ⟨⟨1, BLOCKED⟩, rfl, by decide⟩
        · exact ⟨⟨2, BLOCKED⟩, rfl, by decide⟩
        · exact ⟨⟨3, BLOCKED⟩, rfl, by decide⟩)⟩

/-! ### Iteration while the callback deletes -/

theorem node_at_of_le {mem : List queue_node} {p : Nat} (h0 : 0 < p) (hle : p ≤ mem.length) :
    ∃ n, node_at mem p = some n := by
  cases p with
  | zero => omega
  | succ r =>
    have hr : r < mem.length := by omega
    exact ⟨mem[r], by simp only [node_at]; exact List.getElem?_eq_getElem hr⟩

theorem Seg_zero_start {mem : List queue_node} {xs : List Nat} {b : Nat}
    (h : Seg mem 0 xs b) : xs = [] ∧ b = 0 := by
  cases xs with
  | nil => exact ⟨rfl, h.symm⟩
  | cons x xs =>
    obtain ⟨n, hn, _⟩ := h
    simp [node_at] at hn

theorem KeepsFrom_refl (a : Nat) (mem : List queue_node) : KeepsFrom a mem mem :=
  fun _ m _ hm => ⟨m, hm, rfl, rfl⟩

theorem KeepsFrom_trans {a : Nat} {mem mem1 mem2 : List queue_node}
    (h1 : KeepsFrom a mem mem1) (h2 : KeepsFrom a mem1 mem2) : KeepsFrom a mem mem2 := by
  intro p m hp hm
  obtain ⟨m1, hm1, hd1, hn1⟩ := h1 p m hp hm
  obtain ⟨m2, hm2, hd2, hn2⟩ := h2 p m1 hp hm1
  exact ⟨m2, hm2, hd2.trans hd1, hn2.trans hn1⟩

theorem KeepsFrom_mono {a b : Nat} {mem mem1 : List queue_node} (hab : a ≤ b)
    (h : KeepsFrom a mem mem1) : KeepsFrom b mem mem1 :=
  fun p m hp hm => h p m (le_trans hab hp) hm

theorem set_prev_inv {mem mem1 : List queue_node} {p v : Nat}
    (h : set_prev mem p v = some mem1) :
    ∃ n, node_at mem p = some n ∧ mem1.length = mem.length ∧
      node_at mem1 p = some { n with prev_in_queue := v } ∧
      ∀ b, b ≠ p → node_at mem1 b = node_at mem b := by
  cases hn : node_at mem p with
  | none => simp [set_prev, hn] at h
  | some n =>
    obtain ⟨mem1', hs, hlen, hself, hother⟩ := set_prev_spec v hn
    rw [h] at hs; cases hs
    exact ⟨n, rfl, hlen, hself, hother⟩

theorem set_next_inv {mem mem1 : List queue_node} {p v : Nat}
    (h : set_next mem p v = some mem1) :
    ∃ n, node_at mem p = some n ∧ mem1.length = mem.length ∧
      node_at mem1 p = some { n with next_in_queue := v } ∧
      ∀ b, b ≠ p → node_at mem1 b = node_at mem b := by
  cases hn : node_at mem p with
  | none => simp [set_next, hn] at h
  | some n =>
    obtain ⟨mem1', hs, hlen, hself, hother⟩ := set_next_spec v hn
    rw [h] at hs; cases hs
    exact ⟨n, rfl, hlen, hself, hother⟩

theorem KeepsFrom_set_prev {mem mem1 : List queue_node} {p v : Nat} (a : Nat)
    (h : set_prev mem p v = some mem1) : KeepsFrom a mem mem1 := by
  obtain ⟨n, hn, _, hself, hother⟩ := set_prev_inv h
  intro b m _ hm
  by_cases hbp : b = p
  · subst hbp
    rw [hn] at hm; cases hm
    exact ⟨_, hself, rfl, rfl⟩
  · exact ⟨m, by rw [hother b hbp]; exact hm, rfl, rfl⟩

theorem KeepsFrom_set_next {mem mem1 : List queue_node} {p v a : Nat}
    (h : set_next mem p v = some mem1) (hpa : p < a) : KeepsFrom a mem mem1 := by
  obtain ⟨n, _, _, _, hother⟩ := set_next_inv h
  intro b m hb hm
  exact ⟨m, by rw [hother b (by omega)]; exact hm, rfl, rfl⟩

theorem LinksForward_set_prev {mem mem1 : List queue_node} {p v : Nat}
    (hmono : LinksForward mem) (h : set_prev mem p v = some mem1) (hv : v < p) :
    LinksForward mem1 := by
  obtain ⟨n, hn, hlen, hself, hother⟩ := set_prev_inv h
  intro b m hm
  by_cases hbp : b = p
  · subst hbp
    rw [hself] at hm; cases hm
    rw [hlen]
    exact ⟨(hmono b n hn).1, hv⟩
  · rw [hother b hbp] at hm
    rw [hlen]
    exact hmono b m hm

theorem LinksForward_set_next {mem mem1 : List queue_node} {p v : Nat}
    (hmono : LinksForward mem) (h : set_next mem p v = some mem1)
    (hv : v = 0 ∨ (p < v ∧ v ≤ mem.length)) :
    LinksForward mem1 := by
  obtain ⟨n, hn, hlen, hself, hother⟩ := set_next_inv h
  intro b m hm
  by_cases hbp : b = p
  · subst hbp
    rw [hself] at hm; cases hm
    rw [hlen]
    exact ⟨hv, (hmono b n hn).2⟩
  · rw [hother b hbp] at hm
    rw [hlen]
    exact hmono b m hm

/-- A segment lies at or above its start, so it survives a change that keeps
the nodes from its start on. -/
theorem Seg_of_KeepsFrom {mem mem1 : List queue_node} {a : Nat}
    (hmono : LinksForward mem) (hkeep : KeepsFrom a mem mem1) (xs : List Nat) :
    ∀ f b, a ≤ f → Seg mem f xs b → Seg mem1 f xs b := by
  induction xs with
  | nil => intro f b _ h; exact h
  | cons x xs ih =>
    intro f b haf h
    obtain ⟨m, hm, hx, hrest⟩ := h
    obtain ⟨m1, hm1, hd, hn⟩ := hkeep f m haf hm
    refine ⟨m1, hm1, hd.trans hx, ?_⟩
    rw [hn]
    cases xs with
    | nil => exact hrest
    | cons y ys =>
      apply ih _ _ _ hrest
      obtain ⟨m', hm', _⟩ := hrest
      rcases (hmono f m hm).1 with h0 | ⟨hlt, _⟩
      · rw [h0] at hm'; simp [node_at] at hm'
      · omega

/-- A segment ends at or above its start. -/
theorem Seg_le {mem : List queue_node} (hmono : LinksForward mem) (xs : List Nat) :
    ∀ f a n, Seg mem f xs a → node_at mem a = some n → f ≤ a := by
  induction xs with
  | nil => intro f a n h _; exact le_of_eq h
  | cons x xs ih =>
    intro f a n h ha
    obtain ⟨m, hm, _, hrest⟩ := h
    have hle := ih _ a n hrest ha
    rcases (hmono f m hm).1 with h0 | ⟨hlt, _⟩
    · rw [h0] at hrest
      obtain ⟨_, hb⟩ := Seg_zero_start hrest
      subst hb
      simp [node_at] at ha
    · omega

/-- The search of `queue_delete` for the data of a node `a` that is linked from
`f` ends at a node `D` that holds this data and lies between `f` and `a`. -/
theorem queue_delete_loop_finds {q : queue} {x a : Nat} {n : queue_node}
    (hmono : LinksForward q.mem) (ha : node_at q.mem a = some n) (hx : n.data_in_node = x)
    (pre : List Nat) :
    ∀ f fuel, Seg q.mem f pre a → q.mem.length + 1 ≤ f + fuel →
      ∃ D nd xs mid, Seg q.mem f xs D ∧ Seg q.mem D mid a ∧ node_at q.mem D = some nd ∧
        nd.data_in_node = x ∧ queue_delete_loop q x fuel f = queue_delete_unlink q nd := by
  induction pre with
  | nil =>
    intro f fuel hseg hfuel
    have hfa : f = a := hseg
    subst hfa
    have hle := node_at_le ha
    obtain ⟨k, hk⟩ : ∃ k, fuel = k + 1 := ⟨fuel - 1, by omega⟩
    subst hk
    refine ⟨f, n, [], [], rfl, rfl, ha, hx, ?_⟩
    simp only [queue_delete_loop, if_neg hle.1.ne', ha, hx, ne_eq, not_true_eq_false, if_false]
  | cons y pre ih =>
    intro f fuel hseg hfuel
    obtain ⟨m, hm, hy, hrest⟩ := hseg
    have hle := node_at_le hm
    obtain ⟨k, hk⟩ : ∃ k, fuel = k + 1 := ⟨fuel - 1, by omega⟩
    subst hk
    by_cases hmx : m.data_in_node = x
    · refine ⟨f, m, [], y :: pre, rfl, ⟨m, hm, hy, hrest⟩, hm, hmx, ?_⟩
      simp only [queue_delete_loop, if_neg hle.1.ne', hm, hmx, ne_eq, not_true_eq_false,
        if_false]
    · have hlt : f < m.next_in_queue := by
        rcases (hmono f m hm).1 with h0 | ⟨hlt, _⟩
        · rw [h0] at hrest
          obtain ⟨_, hb⟩ := Seg_zero_start hrest
          subst hb
          simp [node_at] at ha
        · exact hlt
      obtain ⟨D, nd, xs, mid, hxs, hmid, hD, hdx, hloop⟩ := ih m.next_in_queue k hrest (by omega)
      refine ⟨D, nd, y :: xs, mid, ⟨m, hm, hy, hxs⟩, hmid, hD, hdx, ?_⟩
      simp only [queue_delete_loop, if_neg hle.1.ne', hm, ne_eq, hmx, not_false_eq_true,
        if_true, hloop]

/-- Redirecting the next-link of a node `P` below `D` to the successor `T` of
`D` keeps `T` linked from wherever `D` was linked from. -/
theorem Seg_bypass {mem mem2 : List queue_node} {P D T : Nat} {nd : queue_node}
    (hD : node_at mem D = some nd) (hT : nd.next_in_queue = T) (hP : P < D)
    (hsame : ∀ b m, b ≠ P → node_at mem b = some m →
      ∃ m1, node_at mem2 b = some m1 ∧ m1.next_in_queue = m.next_in_queue)
    (hPnode : ∀ m, node_at mem P = some m →
      ∃ m1, node_at mem2 P = some m1 ∧ m1.next_in_queue = T)
    (xs : List Nat) :
    ∀ f, Seg mem f xs D → ∃ xs1, Seg mem2 f xs1 T := by
  induction xs with
  | nil =>
    intro f hseg
    have hfD : f = D := hseg
    subst hfD
    obtain ⟨m1, hm1, hn1⟩ := hsame f nd (by omega) hD
    exact ⟨[m1.data_in_node], m1, hm1, rfl, hn1.trans hT⟩
  | cons y xs ih =>
    intro f hseg
    obtain ⟨m, hm, _, hrest⟩ := hseg
    by_cases hfP : f = P
    · subst hfP
      obtain ⟨m1, hm1, hn1⟩ := hPnode m hm
      exact ⟨[m1.data_in_node], m1, hm1, rfl, hn1⟩
    · obtain ⟨m1, hm1, hn1⟩ := hsame f m hfP hm
      obtain ⟨xs1, hxs1⟩ := ih _ hrest
      exact ⟨m1.data_in_node :: xs1, m1, hm1, rfl, by rw [hn1]; exact hxs1⟩

/-- What `queue_delete` does once it has found the node `D`: the links still
follow the order of allocation, the nodes from `D` on keep their data and
next-link, and the successor of `D` is still linked from the head. -/
theorem queue_delete_unlink_spec {q : queue} {D : Nat} {nd : queue_node}
    (hmono : LinksForward q.mem) (hD : node_at q.mem D = some nd) :
    ∃ q1, queue_delete_unlink q nd = some (0, q1) ∧ LinksForward q1.mem ∧
      KeepsFrom D q.mem q1.mem ∧
      ∀ xs, Seg q.mem q.first_in_queue xs D → nd.next_in_queue ≠ 0 →
        ∃ xs1, Seg q1.mem q1.first_in_queue xs1 nd.next_in_queue := by
  obtain ⟨hnext, hprev⟩ := hmono D nd hD
  have hDle := node_at_le hD
  by_cases hn0 : nd.next_in_queue = 0
  · by_cases hp0 : nd.prev_in_queue = 0
    · refine ⟨{ q with first_in_queue := 0, last_in_queue := 0
                       num_of_nodes := q.num_of_nodes - ONE_NODE }, ?_, hmono,
        KeepsFrom_refl _ _, fun _ _ h => absurd hn0 h⟩
      simp only [queue_delete_unlink, hn0, hp0, ne_eq, not_true_eq_false, false_and, and_false,
        if_false]
      rfl
    · obtain ⟨np, hnp⟩ := node_at_of_le (Nat.pos_of_ne_zero hp0)
        (show nd.prev_in_queue ≤ q.mem.length by omega)
      obtain ⟨mem1, hs1, _, _, _⟩ := set_next_spec 0 hnp
      refine ⟨{ q with last_in_queue := nd.prev_in_queue
                       num_of_nodes := q.num_of_nodes - ONE_NODE, mem := mem1 }, ?_,
        LinksForward_set_next hmono hs1 (Or.inl rfl), KeepsFrom_set_next hs1 hprev,
        fun _ _ h => absurd hn0 h⟩
      simp only [queue_delete_unlink, hn0, hp0, ne_eq, not_true_eq_false, false_and,
        not_false_eq_true, and_self, if_false, if_true, hs1]
      rfl
  · have hnlt : D < nd.next_in_queue ∧ nd.next_in_queue ≤ q.mem.length := by
      rcases hnext with h0 | h
      · exact absurd h0 hn0
      · exact h
    obtain ⟨nn, hnn⟩ := node_at_of_le (Nat.pos_of_ne_zero hn0) hnlt.2
    by_cases hp0 : nd.prev_in_queue = 0
    · obtain ⟨mem1, hs1, _, _, _⟩ := set_prev_spec 0 hnn
      refine ⟨{ q with first_in_queue := nd.next_in_queue
                       num_of_nodes := q.num_of_nodes - ONE_NODE, mem := mem1 }, ?_,
        LinksForward_set_prev hmono hs1 (Nat.pos_of_ne_zero hn0), KeepsFrom_set_prev _ hs1,
        fun _ _ _ => ⟨[], rfl⟩⟩
      simp only [queue_delete_unlink, hn0, hp0, ne_eq, not_false_eq_true, and_self, if_true,
        hs1]
      rfl
    · obtain ⟨mem1, hs1, hlen1, _, _⟩ := set_prev_spec nd.prev_in_queue hnn
      obtain ⟨np1, hnp1⟩ := node_at_of_le (Nat.pos_of_ne_zero hp0)
        (show nd.prev_in_queue ≤ mem1.length by omega)
      obtain ⟨mem2, hs2, _, hself2, hother2⟩ := set_next_spec nd.next_in_queue hnp1
      have hmono1 := LinksForward_set_prev hmono hs1 (show nd.prev_in_queue < nd.next_in_queue by omega)
      have hkeep1 : KeepsFrom 0 q.mem mem1 := KeepsFrom_set_prev 0 hs1
      refine ⟨{ q with num_of_nodes := q.num_of_nodes - ONE_NODE, mem := mem2 }, ?_,
        LinksForward_set_next hmono1 hs2 (Or.inr ⟨by omega, by omega⟩),
        KeepsFrom_trans (KeepsFrom_mono (Nat.zero_le _) hkeep1) (KeepsFrom_set_next hs2 hprev),
        fun xs hreach _ => ?_⟩
      · simp only [queue_delete_unlink, hn0, hp0, ne_eq, not_false_eq_true, and_self, if_true,
          not_true_eq_false, and_false, if_false, hs1, hs2]
        rfl
      · refine Seg_bypass hD rfl hprev ?_ ?_ xs _ hreach
        · intro b m hb hm
          obtain ⟨m1, hm1, _, hn1⟩ := hkeep1 b m (Nat.zero_le _) hm
          exact ⟨m1, by rw [hother2 b hb]; exact hm1, hn1⟩
        · intro m _
          exact ⟨_, hself2, rfl⟩

/-! ### The queue functions keep the links in the order of allocation -/

theorem LinksForward_nil : LinksForward [] := by
  intro p n h
  cases p with
  | zero => simp [node_at] at h
  | succ r => simp [node_at] at h

theorem node_at_append_cases {mem : List queue_node} {n m : queue_node} {p : Nat}
    (h : node_at (mem ++ [n]) p = some m) :
    node_at mem p = some m ∨ (p = mem.length + 1 ∧ m = n) := by
  cases p with
  | zero => simp [node_at] at h
  | succ r =>
    simp only [node_at] at h ⊢
    by_cases hr : r < mem.length
    · rw [List.getElem?_append_left hr] at h
      exact Or.inl h
    · have hle := @node_at_le (mem ++ [n]) (r + 1) m (by simpa [node_at] using h)
      simp only [List.length_append, List.length_singleton] at hle
      have hr' : r = mem.length := by omega
      subst hr'
      simp only [List.getElem?_concat_length, Option.some.injEq] at h
      exact Or.inr ⟨rfl, h.symm⟩

theorem LinksForward_enqueue {q q1 : queue} {e : Nat} {r : Int}
    (hmono : LinksForward q.mem) (h : queue_enqueue (some q) e = some (r, some q1)) :
    LinksForward q1.mem := by
  simp only [queue_enqueue] at h
  split at h
  · cases h; exact hmono
  · split at h
    · cases h
      intro p m hm
      simp only [List.length_append, List.length_singleton]
      rcases node_at_append_cases hm with hm | ⟨hp, hm⟩
      · obtain ⟨h1, h2⟩ := hmono p m hm
        exact ⟨by omega, h2⟩
      · rw [hm, hp]
        exact ⟨Or.inl rfl, Nat.succ_pos _⟩
    · split at h
      · cases h
      · rename_i mem1 hset
        cases h
        obtain ⟨nl, hnl, hlen, hself, hother⟩ := set_next_inv hset
        have hlast := node_at_le hnl
        intro p m hm
        simp only [List.length_append, List.length_singleton, hlen]
        rcases node_at_append_cases hm with hm | ⟨hp, hm⟩
        · by_cases hpl : p = q.last_in_queue
          · subst hpl
            rw [hself] at hm; cases hm
            exact ⟨Or.inr ⟨by show q.last_in_queue < q.mem.length + 1; omega, le_refl _⟩,
              (hmono _ nl hnl).2⟩
          · rw [hother p hpl] at hm
            obtain ⟨h1, h2⟩ := hmono p m hm
            exact ⟨by omega, h2⟩
        · rw [hm, hp, hlen]
          exact ⟨Or.inl rfl, by show q.last_in_queue < q.mem.length + 1; omega⟩

theorem LinksForward_dequeue {q q1 : queue} {d : Option Nat} {r : Int} {d1 : Option Nat}
    (hmono : LinksForward q.mem) (h : queue_dequeue (some q) d = some (r, some q1, d1)) :
    LinksForward q1.mem := by
  cases d with
  | none => simp only [queue_dequeue, Option.some.injEq, Prod.mk.injEq] at h
            obtain ⟨_, hq, _⟩ := h
            subst hq; exact hmono
  | some v =>
    simp only [queue_dequeue] at h
    split at h
    · cases h; exact hmono
    · split at h
      · cases h
      · cases h; exact hmono

theorem LinksForward_delete_loop {q q1 : queue} {x : Nat} {r : Int}
    (hmono : LinksForward q.mem) :
    ∀ fuel f, queue_delete_loop q x fuel f = some (r, q1) → LinksForward q1.mem := by
  intro fuel
  induction fuel with
  | zero => intro f h; simp [queue_delete_loop] at h
  | succ k ih =>
    intro f h
    simp only [queue_delete_loop] at h
    split at h
    · cases h; exact hmono
    · split at h
      · cases h
      · rename_i nd hnd
        split at h
        · exact ih _ h
        · obtain ⟨q2, hun, hmono2, _, _⟩ := queue_delete_unlink_spec hmono hnd
          rw [hun] at h
          cases h
          exact hmono2

theorem LinksForward_delete {q q1 : queue} {x : Nat} {r : Int}
    (hmono : LinksForward q.mem) (h : queue_delete (some q) x = some (r, some q1)) :
    LinksForward q1.mem := by
  simp only [queue_delete] at h
  split at h
  · cases h; exact hmono
  · split at h
    · cases h
    · rename_i r2 q2 hloop
      cases h
      exact LinksForward_delete_loop hmono _ _ hloop

/-- A call of `queue_delete`, during an iteration, on the data of the node `a`
the iteration has reached: the nodes from `a` on keep their data and
next-link, and the successor of `a` is still linked from the head. -/
theorem queue_delete_during_iterate {q : queue} {a : Nat} {n : queue_node}
    (hmono : LinksForward q.mem) (pre : List Nat)
    (hreach : Seg q.mem q.first_in_queue pre a) (ha : node_at q.mem a = some n) :
    ∃ r q1, queue_delete (some q) n.data_in_node = some (r, some q1) ∧
      LinksForward q1.mem ∧ KeepsFrom a q.mem q1.mem ∧
      (n.next_in_queue ≠ 0 → ∃ pre1, Seg q1.mem q1.first_in_queue pre1 n.next_in_queue) := by
  by_cases hchk : n.data_in_node = 0 ∨ q.first_in_queue = 0
  · refine ⟨ERROR_FOUND, q, ?_, hmono, KeepsFrom_refl _ _, fun _ =>
      ⟨pre ++ [n.data_in_node], Seg_append hreach ⟨n, ha, rfl, rfl⟩⟩⟩
    simp only [queue_delete, if_pos hchk]
  · obtain ⟨D, nd, xs, mid, hxs, hmid, hD, _, hloop⟩ :=
      queue_delete_loop_finds hmono ha rfl pre q.first_in_queue (q.mem.length + 1) hreach
        (by omega)
    obtain ⟨q1, hun, hmono1, hkeep, hnext'⟩ := queue_delete_unlink_spec hmono hD
    have hnext := hnext' xs hxs
    have hDa : D ≤ a := Seg_le hmono mid D a n hmid ha
    refine ⟨0, q1, ?_, hmono1, KeepsFrom_mono hDa hkeep, fun hn0 => ?_⟩
    · simp only [queue_delete, if_neg hchk, hloop, hun]
    · cases mid with
      | nil =>
        have hDa' : D = a := hmid
        subst hDa'
        rw [hD] at ha; cases ha
        exact hnext hn0
      | cons y mid =>
        obtain ⟨m, hm, _, hrest⟩ := hmid
        rw [hD] at hm; cases hm
        have hlt : D < nd.next_in_queue := by
          rcases (hmono D nd hD).1 with h0 | ⟨hlt, _⟩
          · rw [h0] at hrest
            obtain ⟨_, hb⟩ := Seg_zero_start hrest
            subst hb
            simp [node_at] at ha
          · exact hlt
        obtain ⟨xs1, hxs1⟩ := hnext (by omega)
        have htail : Seg q.mem nd.next_in_queue (mid ++ [n.data_in_node]) n.next_in_queue :=
          Seg_append hrest ⟨n, ha, rfl, rfl⟩
        exact ⟨xs1 ++ (mid ++ [n.data_in_node]),
          Seg_append hxs1 (Seg_of_KeepsFrom hmono hkeep _ _ _ (by omega) htail)⟩

/-- The loop of `queue_iterate` from a node `a` that is linked from the head:
the callback is called on the items stored from `a` on, in their order, and the
memory and the queue at the end are those that these calls leave. -/
theorem queue_iterate_loop_visits {σ : Type} {func : queue_func_t σ} (items : List Nat) :
    ∀ (a : Nat) (q : queue) (w : σ) (fuel : Nat) (pre : List Nat),
      DeletesOnlyCurrent func items (w, q) →
      LinksForward q.mem → Seg q.mem q.first_in_queue pre a → Seg q.mem a items 0 →
      a ≠ 0 → items.length ≤ fuel →
      ∃ w1 q1, queue_iterate_loop func fuel a (w, q) = some (items, w1, q1) ∧
        call_each func items (w, q) = some (w1, q1) := by
  induction items with
  | nil =>
    intro a q w fuel pre _ _ _ hseg ha0 _
    exact absurd hseg ha0
  | cons x rest ih =>
    intro a q w fuel pre hfunc hmono hreach hseg ha0 hfuel
    obtain ⟨n, ha, hx, hrest⟩ := hseg
    obtain ⟨halt, hcont⟩ := hfunc
    obtain ⟨k, hk⟩ : ∃ k, fuel = k + 1 :=
      ⟨fuel - 1, by simp only [List.length_cons] at hfuel; omega⟩
    subst hk
    have hcall : ∃ w1 q1, func x (w, q) = some (w1, q1) ∧ LinksForward q1.mem ∧
        KeepsFrom a q.mem q1.mem ∧
        (n.next_in_queue ≠ 0 → ∃ pre1, Seg q1.mem q1.first_in_queue pre1 n.next_in_queue) := by
      rcases halt with ⟨w1, h⟩ | ⟨w1, h⟩
      · exact ⟨w1, q, h, hmono, KeepsFrom_refl _ _, fun _ =>
          ⟨pre ++ [n.data_in_node], Seg_append hreach ⟨n, ha, rfl, rfl⟩⟩⟩
      · obtain ⟨r, q1, hdel, hmono1, hkeep, hnext⟩ :=
          queue_delete_during_iterate hmono pre hreach ha
        rw [hx] at hdel
        refine ⟨w1, q1, ?_, hmono1, hkeep, hnext⟩
        rw [h, hdel]
        rfl
    obtain ⟨w1, q1, hf, hmono1, hkeep, hnext⟩ := hcall
    obtain ⟨n1, ha1, _, hn1⟩ := hkeep a n (le_refl a) ha
    by_cases hn0 : n.next_in_queue = 0
    · rw [hn0] at hrest
      obtain ⟨hnil, _⟩ := Seg_zero_start hrest
      subst hnil
      refine ⟨w1, q1, ?_, ?_⟩
      · simp only [queue_iterate_loop, if_neg ha0, ha, hx, hf, ha1, hn1, hn0, ne_eq,
          not_true_eq_false, if_false]
      · show (func x (w, q)).bind (call_each func []) = some (w1, q1)
        rw [hf]
        rfl
    · have hlt : a < n.next_in_queue := by
        rcases (hmono a n ha).1 with h0 | ⟨hlt, _⟩
        · exact absurd h0 hn0
        · exact hlt
      obtain ⟨pre1, hreach1⟩ := hnext hn0
      have hrest1 : Seg q1.mem n.next_in_queue rest 0 :=
        Seg_of_KeepsFrom hmono hkeep rest _ _ (by omega) hrest
      obtain ⟨w2, q2, hloop, hcalls⟩ :=
        ih n.next_in_queue q1 w1 k pre1 (hcont (w1, q1) hf) hmono1 hreach1 hrest1 hn0
          (by simp only [List.length_cons] at hfuel; omega)
      refine ⟨w2, q2, ?_, ?_⟩
      · simp only [queue_iterate_loop, if_neg ha0, ha, hx, hf, ha1, hn1, ne_eq, hn0,
          not_false_eq_true, if_true, hloop]
      · show (func x (w, q)).bind (call_each func rest) = some (w2, q2)
        rw [hf]
        exact hcalls

/-- A queue that holds `items`, and whose head is `NULL` when it holds none,
stores them on the next-chain from its head to `NULL`. -/
theorem Seg_of_Rep {q : queue} {items : List Nat} (hrep : Rep q items)
    (hhead : items = [] → q.first_in_queue = 0) :
    Seg q.mem q.first_in_queue items 0 := by
  rcases hrep.2 with hnil | ⟨front, lastx, hitems, hfront, hlast⟩
  · subst hnil
    exact hhead rfl
  · rw [hitems]
    exact Seg_append hfront hlast

/-- Iteration under deletion, on a queue whose count and chain agree: when the
queue holds the N items `items` (its count is N, the nodes from its head to
`NULL` store them, and its head is `NULL` when N is 0; links follow the order of
allocation, as in every queue built by the queue functions), and the callback
on each call of the iteration either leaves the queue untouched or calls
`queue_delete` on the item it was handed, `queue_iterate` returns 0, the
arguments of its successive calls of the callback are exactly `items`, once
each and oldest first, whichever items the callback deletes, and the memory and
the queue at the end are those left by calling the callback on each item in
turn. -/
theorem queue_iterate_visits_each_item {σ : Type} (q : queue) (items : List Nat)
    (func : queue_func_t σ) (w : σ) (fuel : Nat)
    (hmono : LinksForward q.mem) (hrep : Rep q items)
    (hhead : items = [] → q.first_in_queue = 0)
    (hfunc : DeletesOnlyCurrent func items (w, q)) (hfuel : items.length < fuel) :
    ∃ w1 q1, queue_iterate fuel (some q) (some func) w = some (0, items, w1, some q1) ∧
      call_each func items (w, q) = some (w1, q1) := by
  have hitems := Seg_of_Rep hrep hhead
  by_cases h0 : q.first_in_queue = 0
  · rw [h0] at hitems
    obtain ⟨hnil, _⟩ := Seg_zero_start hitems
    subst hnil
    obtain ⟨k, hk⟩ : ∃ k, fuel = k + 1 := ⟨fuel - 1, by omega⟩
    subst hk
    refine ⟨w, q, ?_, rfl⟩
    simp only [queue_iterate, queue_iterate_loop, h0, if_true]
    rfl
  · obtain ⟨w1, q1, hloop, hcalls⟩ :=
      queue_iterate_loop_visits items q.first_in_queue q w fuel [] hfunc hmono rfl hitems h0
        (by omega)
    refine ⟨w1, q1, ?_, hcalls⟩
    simp only [queue_iterate, hloop]
    rfl

/-- A callback that on every argument leaves the queue untouched or calls
`queue_delete` on that argument does so on the calls of every iteration. -/
theorem DeletesOnlyCurrent_of_forall {σ : Type} {func : queue_func_t σ}
    (h : ∀ x w q,
      (∃ w1, func x (w, q) = some (w1, q)) ∨
      (∃ w1, func x (w, q)
        = (queue_delete (some q) x).bind (fun r => r.2.map (fun q1 => (w1, q1)))))
    (items : List Nat) : ∀ s, DeletesOnlyCurrent func items s := by
  induction items with
  | nil => intro _; trivial
  | cons x rest ih =>
    intro s
    exact ⟨h x s.1 s.2, fun s1 _ => ih s1⟩

theorem delete_current_DeletesOnlyCurrent (items : List Nat) (s : Unit × queue) :
    DeletesOnlyCurrent delete_current items s :=
  DeletesOnlyCurrent_of_forall (fun _ w _ => Or.inr ⟨w, rfl⟩) items s

theorem LinksForward_three :
    LinksForward [⟨11, 2, 0⟩, ⟨12, 3, 1⟩, ⟨13, 0, 2⟩] := by
  intro p n h
  rcases p with _ | _ | _ | _ | p
  · simp [node_at] at h
  · simp only [node_at, List.getElem?_cons_zero, Option.some.injEq] at h
    subst h; decide
  · simp only [node_at, List.getElem?_cons_succ, List.getElem?_cons_zero,
      Option.some.injEq] at h
    subst h; decide
  · simp only [node_at, List.getElem?_cons_succ, List.getElem?_cons_zero,
      Option.some.injEq] at h
    subst h; decide
  · simp [node_at] at h

theorem LinksForward_pointers :
    LinksForward [⟨1, 2, 0⟩, ⟨2, 3, 1⟩, ⟨3, 0, 2⟩] := by
  intro p n h
  rcases p with _ | _ | _ | _ | p
  · simp [node_at] at h
  · simp only [node_at, List.getElem?_cons_zero, Option.some.injEq] at h
    subst h; decide
  · simp only [node_at, List.getElem?_cons_succ, List.getElem?_cons_zero,
      Option.some.injEq] at h
    subst h; decide
  · simp only [node_at, List.getElem?_cons_succ, List.getElem?_cons_zero,
      Option.some.injEq] at h
    subst h; decide
  · simp [node_at] at h

/-- The callback `inc_item` of queue_tester.c on the queue of the pointers to
`data[0]`, `data[1]`, `data[2]`, where `data` is 4, 5, 6: the first and the
third call increment, the second calls `queue_delete` on its argument. -/
theorem inc_item_DeletesOnlyCurrent :
    DeletesOnlyCurrent inc_item [1, 2, 3]
      ([4, 5, 6], ⟨1, 3, 3, [⟨1, 2, 0⟩, ⟨2, 3, 1⟩, ⟨3, 0, 2⟩]⟩) := by
  refine ⟨Or.inl ⟨[5, 5, 6], rfl⟩, fun s1 h1 => ?_⟩
  have e1 : inc_item 1 ([4, 5, 6], ⟨1, 3, 3, [⟨1, 2, 0⟩, ⟨2, 3, 1⟩, ⟨3, 0, 2⟩]⟩)
      = some ([5, 5, 6], ⟨1, 3, 3, [⟨1, 2, 0⟩, ⟨2, 3, 1⟩, ⟨3, 0, 2⟩]⟩) := rfl
  rw [e1] at h1
  cases h1
  refine ⟨Or.inr ⟨[5, 5, 6], rfl⟩, fun s2 h2 => ?_⟩
  have e2 : inc_item 2 ([5, 5, 6], ⟨1, 3, 3, [⟨1, 2, 0⟩, ⟨2, 3, 1⟩, ⟨3, 0, 2⟩]⟩)
      = some ([5, 5, 6], ⟨1, 3, 2, [⟨1, 3, 0⟩, ⟨2, 3, 1⟩, ⟨3, 0, 1⟩]⟩) := rfl
  rw [e2] at h2
  cases h2
  exact ⟨Or.inl ⟨[5, 5, 7], rfl⟩, fun _ _ => trivial⟩

/-- Iteration under deletion at two inputs.  The queue of the pointers to
`data[0]`, `data[1]`, `data[2]`, where `data` is 4, 5, 6, with the callback
`inc_item` of queue_tester.c: the three items are visited, the second is deleted
on its visit, and `data` ends as 5, 5, 7.  The queue that holds 11, 12, 13 with
the callback that deletes every item it is handed: all three items are
visited. -/
theorem queue_iterate_visits_each_item_witness :
    (Rep ⟨1, 3, 3, [⟨1, 2, 0⟩, ⟨2, 3, 1⟩, ⟨3, 0, 2⟩]⟩ [1, 2, 3] ∧
      queue_iterate 4 (some ⟨1, 3, 3, [⟨1, 2, 0⟩, ⟨2, 3, 1⟩, ⟨3, 0, 2⟩]⟩) (some inc_item)
          [4, 5, 6]
        = some (0, [1, 2, 3], [5, 5, 7],
            some ⟨1, 3, 2, [⟨1, 3, 0⟩, ⟨2, 3, 1⟩, ⟨3, 0, 1⟩]⟩) ∧
      ∃ w1 q1,
        queue_iterate 4 (some ⟨1, 3, 3, [⟨1, 2, 0⟩, ⟨2, 3, 1⟩, ⟨3, 0, 2⟩]⟩) (some inc_item)
            [4, 5, 6]
          = some (0, [1, 2, 3], w1, some q1) ∧
        call_each inc_item [1, 2, 3] ([4, 5, 6], ⟨1, 3, 3, [⟨1, 2, 0⟩, ⟨2, 3, 1⟩, ⟨3, 0, 2⟩]⟩)
          = some (w1, q1)) ∧
    (Rep ⟨1, 3, 3, [⟨11, 2, 0⟩, ⟨12, 3, 1⟩, ⟨13, 0, 2⟩]⟩ [11, 12, 13] ∧
      ∃ w1 q1,
        queue_iterate 4 (some ⟨1, 3, 3, [⟨11, 2, 0⟩, ⟨12, 3, 1⟩, ⟨13, 0, 2⟩]⟩)
            (some delete_current) ()
          = some (0, [11, 12, 13], w1, some q1) ∧
        call_each delete_current [11, 12, 13]
            ((), ⟨1, 3, 3, [⟨11, 2, 0⟩, ⟨12, 3, 1⟩, ⟨13, 0, 2⟩]⟩)
          = some (w1, q1)) :=
  have hp : Rep ⟨1, 3, 3, [⟨1, 2, 0⟩, ⟨2, 3, 1⟩, ⟨3, 0, 2⟩]⟩ [1, 2, 3] :=
    ⟨rfl, Or.inr ⟨[1, 2], 3, rfl, ⟨⟨1, 2, 0⟩, rfl, rfl, ⟨2, 3, 1⟩, rfl, rfl, rfl⟩,
      ⟨⟨3, 0, 2⟩, rfl, rfl, rfl⟩⟩⟩
  have hd : Rep ⟨1, 3, 3, [⟨11, 2, 0⟩, ⟨12, 3, 1⟩, ⟨13, 0, 2⟩]⟩ [11, 12, 13] :=
    ⟨rfl, Or.inr ⟨[11, 12], 13, rfl, ⟨⟨11, 2, 0⟩, rfl, rfl, ⟨12, 3, 1⟩, rfl, rfl, rfl⟩,
      ⟨⟨13, 0, 2⟩, rfl, rfl, rfl⟩⟩⟩
  ⟨⟨hp, rfl,
    queue_iterate_visits_each_item ⟨1, 3, 3, [⟨1, 2, 0⟩, ⟨2, 3, 1⟩, ⟨3, 0, 2⟩]⟩ [1, 2, 3]
      inc_item [4, 5, 6] 4 LinksForward_pointers hp (fun h => absurd h (by decide))
      inc_item_DeletesOnlyCurrent (by decide)⟩,
   ⟨hd,
    queue_iterate_visits_each_item ⟨1, 3, 3, [⟨11, 2, 0⟩, ⟨12, 3, 1⟩, ⟨13, 0, 2⟩]⟩
      [11, 12, 13] delete_current () 4 LinksForward_three hd (fun h => absurd h (by decide))
      (delete_current_DeletesOnlyCurrent _ _) (by decide)⟩⟩

/-- C4 at a failing input, the queue after `queue_enqueue` of 11 and 12, one
`queue_dequeue` (which returns 11) and `queue_delete` of 12 (which returns 0):
`queue_length` is 0 and `queue_dequeue` returns -1, so the queue holds no item,
but the head still points to the node of 12, and `queue_iterate` calls the
callback once, on the deleted 12.  The callback here only records its argument
and leaves the queue untouched. -/
theorem queue_iterate_visits_deleted_item :
    queue_enqueue queue_create 11 = some (0, some ⟨1, 1, 1, [⟨11, 0, 0⟩]⟩) ∧
    queue_enqueue (some ⟨1, 1, 1, [⟨11, 0, 0⟩]⟩) 12
      = some (0, some ⟨1, 2, 2, [⟨11, 2, 0⟩, ⟨12, 0, 1⟩]⟩) ∧
    queue_dequeue (some ⟨1, 2, 2, [⟨11, 2, 0⟩, ⟨12, 0, 1⟩]⟩) (some 0)
      = some (0, some ⟨2, 2, 1, [⟨11, 2, 0⟩, ⟨12, 0, 1⟩]⟩, some 11) ∧
    queue_delete (some ⟨2, 2, 1, [⟨11, 2, 0⟩, ⟨12, 0, 1⟩]⟩) 12
      = some (0, some ⟨2, 1, 0, [⟨11, 0, 0⟩, ⟨12, 0, 1⟩]⟩) ∧
    queue_length (some ⟨2, 1, 0, [⟨11, 0, 0⟩, ⟨12, 0, 1⟩]⟩) = 0 ∧
    queue_dequeue (some ⟨2, 1, 0, [⟨11, 0, 0⟩, ⟨12, 0, 1⟩]⟩) (some 0)
      = some (-1, some ⟨2, 1, 0, [⟨11, 0, 0⟩, ⟨12, 0, 1⟩]⟩, some 0) ∧
    queue_iterate 2 (some ⟨2, 1, 0, [⟨11, 0, 0⟩, ⟨12, 0, 1⟩]⟩) (some record_item) []
      = some (0, [12], [12], some ⟨2, 1, 0, [⟨11, 0, 0⟩, ⟨12, 0, 1⟩]⟩) :=
  ⟨rfl, rfl, rfl, rfl, rfl, rfl, rfl⟩

/-! ### C11: `uthread_block` -/

/-- The transition of `uthread_block`, with the resulting state spelled out. -/
theorem uthread_block_step {s : uthread_state} {rq bq : queue} {t1 : Nat}
    {ts bs : List Nat} {tc tt : uthread_tcb}
    (hq : s.ready_q = some rq) (hrep : Rep rq (t1 :: ts))
    (hb : s.blocked_q = some bq) (hbrep : Rep bq bs)
    (hc : tcb_at s.tcbs s.current_tcb = some tc) (ht : tcb_at s.tcbs t1 = some tt) :
    ∃ rq1 bq1 tcbs1 tcbs2,
      set_state s.tcbs s.current_tcb BLOCKED = some tcbs1 ∧
      set_state tcbs1 t1 RUNNING = some tcbs2 ∧
      Rep rq1 ts ∧ Rep bq1 (bs ++ [s.current_tcb]) ∧
      uthread_block s = some
        { s with ready_q := some rq1, blocked_q := some bq1, current_tcb := t1, tcbs := tcbs2
                 sigvtalrm_blocked := false } := by
  obtain ⟨tcbs1, hs1, _, hself1, hother1⟩ := set_state_spec BLOCKED hc
  have ht1 : ∃ tt1, tcb_at tcbs1 t1 = some tt1 := by
    by_cases h : t1 = s.current_tcb
    · exact ⟨_, h ▸ hself1⟩
    · exact ⟨tt, by rw [hother1 t1 h]; exact ht⟩
  obtain ⟨tt1, ht1⟩ := ht1
  obtain ⟨tcbs2, hs2, _, _, _⟩ := set_state_spec RUNNING ht1
  have hc0 : s.current_tcb ≠ 0 := (tcb_at_le hc).1.ne'
  obtain ⟨bq1, hen, hbrep1⟩ := queue_enqueue_Rep hbrep hc0
  obtain ⟨rq1, hde, hrep1⟩ := dequeue_tcb_Rep tcbs1 hrep
  refine ⟨rq1, bq1, tcbs1, tcbs2, hs1, hs2, hrep1, hbrep1, ?_⟩
  simp only [uthread_block, preempt_disable, preempt_enable, hs1, hb, hen, hq, hde, hs2]

/-- C11: with current thread `c`, ready queue `t1 :: ts` and blocked queue
`bs`, where `c` is not `t1`, `uthread_block` makes `t1` the current thread and
marks it RUNNING, leaves the ready queue holding `ts` and the blocked queue
holding `bs` followed by `c`, marks `c` BLOCKED, and changes neither the
live-thread count nor any other TCB. -/
theorem uthread_block_switches (s : uthread_state) (rq bq : queue) (t1 : Nat)
    (ts bs : List Nat) (tc tt : uthread_tcb)
    (hq : s.ready_q = some rq) (hrep : Rep rq (t1 :: ts))
    (hb : s.blocked_q = some bq) (hbrep : Rep bq bs)
    (hc : tcb_at s.tcbs s.current_tcb = some tc) (ht : tcb_at s.tcbs t1 = some tt)
    (hne : s.current_tcb ≠ t1) :
    ∃ s1 rq1 bq1, uthread_block s = some s1 ∧
      s1.current_tcb = t1 ∧ tcb_at s1.tcbs t1 = some { tt with state := RUNNING } ∧
      s1.ready_q = some rq1 ∧ Rep rq1 ts ∧
      s1.blocked_q = some bq1 ∧ Rep bq1 (bs ++ [s.current_tcb]) ∧
      tcb_at s1.tcbs s.current_tcb = some { tc with state := BLOCKED } ∧
      s1.num_of_threads = s.num_of_threads ∧ s1.main_tcb = s.main_tcb ∧
      ∀ p, p ≠ s.current_tcb → p ≠ t1 → tcb_at s1.tcbs p = tcb_at s.tcbs p := by
  obtain ⟨rq1, bq1, tcbs1, tcbs2, hs1, hs2, hrep1, hbrep1, hblock⟩ :=
    uthread_block_step hq hrep hb hbrep hc ht
  obtain ⟨tcbs1', hs1', _, hself1, hother1⟩ := set_state_spec BLOCKED hc
  rw [hs1] at hs1'; cases hs1'
  have ht1 : tcb_at tcbs1 t1 = some tt := by rw [hother1 t1 (Ne.symm hne)]; exact ht
  obtain ⟨tcbs2', hs2', _, hself2, hother2⟩ := set_state_spec RUNNING ht1
  rw [hs2] at hs2'; cases hs2'
  refine ⟨_, rq1, bq1, hblock, rfl, hself2, rfl, hrep1, rfl, hbrep1, ?_, rfl, rfl, ?_⟩
  · show tcb_at tcbs2 s.current_tcb = _
    rw [hother2 _ hne]; exact hself1
  · intro p hpc hpt
    show tcb_at tcbs2 p = _
    rw [hother2 p hpt, hother1 p hpc]

/-- C11 at the state reached by `uthread_start` and a second `uthread_create`:
the main thread blocks and the thread of block 2 runs. -/
theorem uthread_block_switches_witness :
    Rep ⟨1, 2, 2, [⟨2, 2, 0⟩, ⟨3, 0, 1⟩]⟩ [2, 3] ∧ sched_two_ready.current_tcb ≠ 2 ∧
    ∃ s1 rq1 bq1, uthread_block sched_two_ready = some s1 ∧
      s1.current_tcb = 2 ∧ tcb_at s1.tcbs 2 = some { tid := 1, state := RUNNING } ∧
      s1.ready_q = some rq1 ∧ Rep rq1 [3] ∧
      s1.blocked_q = some bq1 ∧ Rep bq1 ([] ++ [sched_two_ready.current_tcb]) ∧
      tcb_at s1.tcbs sched_two_ready.current_tcb = some { tid := 0, state := BLOCKED } ∧
      s1.num_of_threads = sched_two_ready.num_of_threads ∧
      s1.main_tcb = sched_two_ready.main_tcb ∧
      ∀ p, p ≠ sched_two_ready.current_tcb → p ≠ 2 →
        tcb_at s1.tcbs p = tcb_at sched_two_ready.tcbs p :=
  ⟨sched_two_ready_Rep, by decide,
    uthread_block_switches sched_two_ready _ ⟨0, 0, 0, []⟩ 2 [3] [] ⟨0, READY⟩ ⟨1, READY⟩ rfl
      sched_two_ready_Rep rfl ((Rep_nil_iff _).2 rfl) rfl rfl (by decide)⟩

/-! ### C12: `uthread_exit` -/

/-- The transition of `uthread_exit` with current thread `c`, which is not in
the ready queue `rs`: `c` is marked EXIT, the live-thread count drops by one,
and the head of `rs` becomes the current thread, or the main TCB when `rs` is
empty; the ready queue then holds the rest of `rs` in the same order, and
neither the blocked queue nor any other TCB is changed.  The function never
writes to the blocked queue, so `c` is in it afterwards exactly when it was
before. -/
theorem uthread_exit_switches (s : uthread_state) (rq : queue) (rs : List Nat)
    (tc tn : uthread_tcb)
    (hq : s.ready_q = some rq) (hrep : Rep rq rs)
    (hc : tcb_at s.tcbs s.current_tcb = some tc)
    (hn : tcb_at s.tcbs (rs.headD s.main_tcb) = some tn)
    (hcr : s.current_tcb ∉ rs) :
    ∃ s1 rq1, uthread_exit s = some s1 ∧
      tcb_at s1.tcbs s.current_tcb = some { tc with state := EXIT } ∧
      s1.num_of_threads = s.num_of_threads - 1 ∧
      s1.current_tcb = rs.headD s.main_tcb ∧
      s1.ready_q = some rq1 ∧ Rep rq1 rs.tail ∧ s.current_tcb ∉ rs.tail ∧
      s1.blocked_q = s.blocked_q ∧ s1.main_tcb = s.main_tcb ∧
      ∀ p, p ≠ s.current_tcb → tcb_at s1.tcbs p = tcb_at s.tcbs p := by
  obtain ⟨tcbs1, hs1, _, hself1, hother1⟩ := set_state_spec EXIT hc
  have hn1 : ∃ tn1, tcb_at tcbs1 (rs.headD s.main_tcb) = some tn1 := by
    by_cases h : rs.headD s.main_tcb = s.current_tcb
    · exact ⟨_, h ▸ hself1⟩
    · exact ⟨tn, by rw [hother1 _ h]; exact hn⟩
  obtain ⟨tn1, hn1⟩ := hn1
  cases rs with
  | nil =>
    have hlen : ¬ queue_length (some rq) > 0 := by simp [queue_length, hrep.1]
    simp only [List.headD_nil] at hn1
    refine ⟨preempt_enable { preempt_disable s with
        current_tcb := s.main_tcb, num_of_threads := s.num_of_threads - 1, tcbs := tcbs1 },
      rq, ?_, hself1, rfl, rfl, hq, hrep, hcr, rfl, rfl, fun p hp => hother1 p hp⟩
    simp only [uthread_exit, preempt_disable, preempt_enable, hq, if_neg hlen, hs1, hn1]
  | cons t1 ts =>
    have hlen : queue_length (some rq) > 0 := by
      simp only [queue_length, hrep.1, List.length_cons]
      push_cast
      omega
    simp only [List.headD_cons] at hn1
    obtain ⟨rq1, hde, hrep1⟩ := dequeue_tcb_Rep s.tcbs hrep
    refine ⟨preempt_enable { preempt_disable s with
        ready_q := some rq1, current_tcb := t1, num_of_threads := s.num_of_threads - 1
        tcbs := tcbs1 },
      rq1, ?_, hself1, rfl, rfl, rfl, hrep1, fun h => hcr (List.mem_cons_of_mem _ h), rfl, rfl,
      fun p hp => hother1 p hp⟩
    simp only [uthread_exit, preempt_disable, preempt_enable, hq, if_pos hlen, hde, hs1, hn1]

theorem sched_first_running_reached :
    uthread_yield sched_two_ready = some sched_first_running := by
  decide

/-- The transition of `uthread_exit` at the state reached by `uthread_start`,
a second `uthread_create` and one yield: the thread of block 2 exits and the
thread of block 3 runs. -/
theorem uthread_exit_switches_witness :
    (2 : Nat) ∉ [3, 1] ∧
    ∃ s1 rq1, uthread_exit sched_first_running = some s1 ∧
      tcb_at s1.tcbs 2 = some { tid := 1, state := EXIT } ∧
      s1.num_of_threads = 3 - 1 ∧
      s1.current_tcb = 3 ∧
      s1.ready_q = some rq1 ∧ Rep rq1 [1] ∧ (2 : Nat) ∉ [1] ∧
      s1.blocked_q = some ⟨0, 0, 0, []⟩ ∧ s1.main_tcb = 1 ∧
      ∀ p, p ≠ 2 → tcb_at s1.tcbs p
        = tcb_at [⟨0, READY⟩, ⟨1, RUNNING⟩, ⟨2, READY⟩] p :=
  ⟨by decide,
    uthread_exit_switches
      sched_first_running
      ⟨2, 3, 2, [⟨2, 2, 0⟩, ⟨3, 3, 1⟩, ⟨1, 0, 2⟩]⟩ [3, 1] ⟨1, RUNNING⟩ ⟨2, READY⟩ rfl
      ⟨rfl, Or.inr ⟨[3], 1, rfl, ⟨⟨3, 3, 1⟩, rfl, rfl, rfl⟩, ⟨⟨1, 0, 2⟩, rfl, rfl, rfl⟩⟩⟩
      rfl rfl (by decide)⟩

theorem exit_while_blocked_run_eq :
    exit_while_blocked_run = some sched_exit_while_blocked := by
  decide

/-- C12 at a failing input, the state at the end of `exit_while_blocked_run`,
in which the thread of block 5 runs (its TCB is marked RUNNING), the ready queue
holds the blocks 3 and 1, and the blocked queue holds block 5: `uthread_exit`
marks block 5 EXIT and makes block 3 the current thread, and block 5 is still
in the blocked queue afterwards. -/
theorem uthread_exit_stays_in_blocked_queue :
    exit_while_blocked_run = some sched_exit_while_blocked ∧
    sched_exit_while_blocked.current_tcb = 5 ∧
    tcb_at sched_exit_while_blocked.tcbs 5 = some ⟨3, RUNNING⟩ ∧
    (∃ rq bq, sched_exit_while_blocked.ready_q = some rq ∧ Rep rq [3, 1] ∧
      sched_exit_while_blocked.blocked_q = some bq ∧ Rep bq [5]) ∧
    ∃ s1 rq1 bq1, uthread_exit sched_exit_while_blocked = some s1 ∧
      s1.current_tcb = 3 ∧ tcb_at s1.tcbs 5 = some ⟨3, EXIT⟩ ∧
      s1.num_of_threads = 3 ∧
      s1.ready_q = some rq1 ∧ Rep rq1 [1] ∧
      s1.blocked_q = some bq1 ∧ Rep bq1 [5] ∧ 5 ∈ [5] :=
  ⟨by decide, rfl, rfl,
   ⟨_, _, rfl,
    ⟨rfl, Or.inr ⟨[3], 1, rfl, ⟨⟨3, 11, 9⟩, rfl, rfl, rfl⟩, ⟨⟨1, 0, 10⟩, rfl, rfl, rfl⟩⟩⟩,
    rfl, ⟨rfl, Or.inr ⟨[], 5, rfl, rfl, ⟨⟨5, 0, 1⟩, rfl, rfl, rfl⟩⟩⟩⟩,
   { sched_exit_while_blocked with
      ready_q := some ⟨11, 11, 1, [⟨2, 2, 0⟩, ⟨1, 3, 1⟩, ⟨3, 4, 2⟩, ⟨4, 5, 3⟩, ⟨1, 6, 4⟩,
        ⟨5, 7, 5⟩, ⟨3, 8, 6⟩, ⟨1, 9, 7⟩, ⟨5, 10, 8⟩, ⟨3, 11, 9⟩, ⟨1, 0, 10⟩]⟩
      current_tcb := 3
      num_of_threads := 3
      tcbs := [⟨0, READY⟩, ⟨1, EXIT⟩, ⟨2, READY⟩, ⟨3, BLOCKED⟩, ⟨3, EXIT⟩] },
   _, _, by decide, rfl, rfl, rfl, rfl,
   ⟨rfl, Or.inr ⟨[], 1, rfl, rfl, ⟨⟨1, 0, 10⟩, rfl, rfl, rfl⟩⟩⟩,
   rfl, ⟨rfl, Or.inr ⟨[], 5, rfl, rfl, ⟨⟨5, 0, 1⟩, rfl, rfl, rfl⟩⟩⟩, by decide⟩

/-! ### C13: thread identifiers -/

/-- C13 at a failing input, the state at the end of `exit_between_creates_run`:
the thread of block 4 is alive (READY) and carries the identifier 3, the thread
counter is back to 3 after the exit of the first thread, and `uthread_create`
gives the new thread (block 5) the identifier 3 as well, which is not greater
than the identifier of the thread created before it. -/
theorem uthread_create_reuses_identifier :
    exit_between_creates_run = some sched_exit_between_creates ∧
    tcb_at sched_exit_between_creates.tcbs 4 = some ⟨3, READY⟩ ∧
    sched_exit_between_creates.tcbs.length = 4 ∧
    ∃ s1, uthread_create true sched_exit_between_creates = some (0, s1) ∧
      tcb_at s1.tcbs 4 = some ⟨3, READY⟩ ∧ tcb_at s1.tcbs 5 = some ⟨3, READY⟩ :=
  ⟨by decide, rfl, rfl,
   { sched_exit_between_creates with
      ready_q := some ⟨4, 6, 3, [⟨2, 2, 0⟩, ⟨1, 3, 1⟩, ⟨3, 4, 2⟩, ⟨4, 5, 3⟩, ⟨1, 6, 4⟩,
        ⟨5, 0, 5⟩]⟩
      num_of_threads := 4
      tcbs := [⟨0, READY⟩, ⟨1, EXIT⟩, ⟨2, RUNNING⟩, ⟨3, READY⟩, ⟨3, READY⟩] },
   by decide, rfl, rfl⟩

/-! ### C14: `uthread_yield` on an empty ready queue -/

/-- C14 at a failing input, the state at the end of `main_alone_run`, in which
the ready queue is empty and `SIGVTALRM` is not blocked: `uthread_yield`
changes neither the current thread, nor a queue, nor a TCB, but it returns with
`SIGVTALRM` blocked, that is with preemption disabled. -/
theorem uthread_yield_empty_leaves_preemption_disabled :
    main_alone_run = some sched_main_alone ∧
    queue_length sched_main_alone.ready_q = 0 ∧
    sched_main_alone.sigvtalrm_blocked = false ∧
    uthread_yield sched_main_alone
      = some { sched_main_alone with sigvtalrm_blocked := true } :=
  ⟨by decide, rfl, rfl, by decide⟩

/-! ### C16: `sem_down` -/

/-- C16: on a semaphore whose count is positive, `sem_down` returns 0 without
blocking, lowers the count by one and leaves the waiter queue, the current
thread and both scheduler queues as they were; on a semaphore whose count is 0
(with waiters `ws`, a ready queue `t1 :: ts`, a blocked queue `bs`, and a
current thread `c` other than `t1`), it does not return: the semaphore has the
waiters `ws` followed by `c`, the blocked queue holds `bs` followed by `c`,
which is marked BLOCKED, `t1` runs, and the count is still 0. -/
theorem sem_down_takes_or_blocks (sm : semaphore) (s : uthread_state) :
    (0 < sm.resources_avail →
      sem_down (some sm) s
        = some (some 0, some { sm with resources_avail := sm.resources_avail - 1 },
            { s with sigvtalrm_blocked := false })) ∧
    (sm.resources_avail = 0 →
      ∀ (rq bq : queue) (ws ts bs : List Nat) (t1 : Nat) (tc tt : uthread_tcb),
        SemRep sm ws →
        s.ready_q = some rq → Rep rq (t1 :: ts) →
        s.blocked_q = some bq → Rep bq bs →
        tcb_at s.tcbs s.current_tcb = some tc → tcb_at s.tcbs t1 = some tt →
        s.current_tcb ≠ t1 →
        ∃ sm1 s1 bq1, sem_down (some sm) s = some (none, some sm1, s1) ∧
          sm1.resources_avail = 0 ∧ SemRep sm1 (ws ++ [s.current_tcb]) ∧
          s1.blocked_q = some bq1 ∧ Rep bq1 (bs ++ [s.current_tcb]) ∧
          tcb_at s1.tcbs s.current_tcb = some { tc with state := BLOCKED } ∧
          s1.current_tcb = t1) := by
  constructor
  · intro hpos
    have hne : sm.resources_avail ≠ 0 := by omega
    simp only [sem_down, sem_down_loop, preempt_disable, preempt_enable, if_neg hne, hpos,
      if_true, NO_ERROR]
  · intro hzero rq bq ws ts bs t1 tc tt hsem hq hrep hb hbrep hc ht hne
    obtain ⟨wq, hw, hwrep, hnum⟩ := hsem
    have hc0 : s.current_tcb ≠ 0 := (tcb_at_le hc).1.ne'
    obtain ⟨wq1, hen, hwrep1⟩ := queue_enqueue_Rep hwrep hc0
    obtain ⟨rq1, bq1, tcbs1, tcbs2, hs1, hs2, hrep1, hbrep1, hblock⟩ :=
      @uthread_block_step (preempt_disable s) rq bq t1 ts bs tc tt hq hrep hb hbrep hc ht
    obtain ⟨tcbs1', hs1', _, hself1, hother1⟩ := set_state_spec BLOCKED hc
    have hs1c : set_state s.tcbs s.current_tcb BLOCKED = some tcbs1 := hs1
    rw [hs1c] at hs1'; cases hs1'
    have ht1 : tcb_at tcbs1 t1 = some tt := by rw [hother1 t1 (Ne.symm hne)]; exact ht
    obtain ⟨tcbs2', hs2', _, _, hother2⟩ := set_state_spec RUNNING ht1
    rw [hs2] at hs2'; cases hs2'
    refine ⟨{ sm with num_of_blocked_threads := sm.num_of_blocked_threads + 1
                      blocked_threads := some wq1 },
      { preempt_disable s with
        ready_q := some rq1, blocked_q := some bq1, current_tcb := t1, tcbs := tcbs2
        sigvtalrm_blocked := false }, bq1, ?_, hzero, ⟨wq1, rfl, hwrep1, ?_⟩, rfl,
      hbrep1, ?_, rfl⟩
    · simp only [sem_down, sem_down_loop, if_pos hzero, hw, uthread_current]
      have hen' : queue_enqueue (some wq) (preempt_disable s).current_tcb = some (0, some wq1) :=
        hen
      rw [hen', hblock]
    · show sm.num_of_blocked_threads + 1 = _
      rw [hnum, List.length_append, List.length_singleton]
      push_cast; ring
    · show tcb_at tcbs2 s.current_tcb = _
      rw [hother2 _ hne]; exact hself1

/-- C16 at a semaphore with count 2, and at a semaphore with count 0 and no
waiter in the state reached by `uthread_start` and a second `uthread_create`:
the main thread takes a resource of the first and blocks on the second. -/
theorem sem_down_takes_or_blocks_witness :
    sem_down (some ⟨2, queue_create, 0⟩) sched_two_ready
      = some (some 0, some ⟨1, queue_create, 0⟩, sched_two_ready) ∧
    ∃ sm1 s1 bq1, sem_down (some ⟨0, queue_create, 0⟩) sched_two_ready
        = some (none, some sm1, s1) ∧
      sm1.resources_avail = 0 ∧ SemRep sm1 ([] ++ [1]) ∧
      s1.blocked_q = some bq1 ∧ Rep bq1 ([] ++ [1]) ∧
      tcb_at s1.tcbs 1 = some { tid := 0, state := BLOCKED } ∧
      s1.current_tcb = 2 :=
  ⟨(sem_down_takes_or_blocks ⟨2, queue_create, 0⟩ sched_two_ready).1 (by decide),
   (sem_down_takes_or_blocks ⟨0, queue_create, 0⟩ sched_two_ready).2 rfl
      _ ⟨0, 0, 0, []⟩ [] [3] [] 2 ⟨0, READY⟩ ⟨1, READY⟩
      ⟨⟨0, 0, 0, []⟩, rfl, (Rep_nil_iff _).2 rfl, rfl⟩ rfl sched_two_ready_Rep rfl
      ((Rep_nil_iff _).2 rfl) rfl rfl (by decide)⟩

/-! ### C15: `sem_up` -/

/-- The call `uthread_unblock t` when the blocked queue holds `pre`, then `t`,
then `post`, and no TCB of `pre` carries the identifier of `t`, with the
resulting state spelled out. -/
theorem uthread_unblock_found {s : uthread_state} {bq rq : queue} {pre post rs : List Nat}
    {t : Nat} {tu : uthread_tcb}
    (hq : s.blocked_q = some bq) (hrep : Rep bq (pre ++ t :: post))
    (hrq : s.ready_q = some rq) (hrs : Rep rq rs)
    (ht : tcb_at s.tcbs t = some tu)
    (hpre : ∀ b ∈ pre, ∃ tb, tcb_at s.tcbs b = some tb ∧ tb.tid ≠ tu.tid) :
    ∃ bq1 rq1 tcbs1, Rep bq1 (post ++ pre) ∧ Rep rq1 (rs ++ [t]) ∧
      set_state s.tcbs t READY = some tcbs1 ∧
      uthread_unblock s t = some
        { s with ready_q := some rq1, blocked_q := some bq1, tcbs := tcbs1
                 sigvtalrm_blocked := false } := by
  obtain ⟨bq1, rq1, tcbs1, hrep1, hrs1, hs1, hloop⟩ :=
    @uthread_unblock_loop_found t t tu tu pre post post.length (s.tcbs.length + 1)
      (preempt_disable s) bq rq rs hq hrep hrq hrs ht ht rfl hpre
  have hlen : queue_length s.blocked_q = ((pre.length + 1 + post.length : Nat) : Int) := by
    simp only [hq, queue_length, hrep.1, List.length_append, List.length_cons]
    push_cast; ring
  refine ⟨bq1, rq1, tcbs1, hrep1, hrs1, hs1, ?_⟩
  simp only [uthread_unblock, preempt_disable] at hloop ⊢
  rw [hlen, if_neg (by omega), Int.toNat_ofNat, hloop]
  rfl

/-- A list has no entry with a given property, or it has a first one. -/
theorem first_match_split (P : Nat → Prop) (bs : List Nat) :
    (∀ b ∈ bs, ¬ P b) ∨
    ∃ pre x post, bs = pre ++ x :: post ∧ P x ∧ ∀ b ∈ pre, ¬ P b := by
  induction bs with
  | nil => exact Or.inl (fun _ h => absurd h (List.not_mem_nil _))
  | cons b bs ih =>
    by_cases hb : P b
    · exact Or.inr ⟨[], b, bs, rfl, hb, fun _ h => absurd h (List.not_mem_nil _)⟩
    · rcases ih with hnone | ⟨pre, x, post, hbs, hx, hpre⟩
      · left
        intro c hc
        rcases List.mem_cons.1 hc with rfl | hc'
        · exact hb
        · exact hnone c hc'
      · right
        refine ⟨b :: pre, x, post, by rw [hbs]; rfl, hx, ?_⟩
        intro c hc
        rcases List.mem_cons.1 hc with rfl | hc'
        · exact hb
        · exact hpre c hc'

/-- The function `uthread_unblock` returns whenever both scheduler queues are
well formed, the blocked queue holds TCBs, and its argument is a TCB: the scan
stops at the first TCB that carries the identifier looked for, or after one full
turn of the blocked queue. -/
theorem uthread_unblock_returns {s : uthread_state} {bq rq : queue} {bs rs : List Nat}
    {t : Nat} {tu : uthread_tcb}
    (hq : s.blocked_q = some bq) (hrep : Rep bq bs)
    (hrq : s.ready_q = some rq) (hrs : Rep rq rs)
    (ht : tcb_at s.tcbs t = some tu)
    (hvalid : ∀ b ∈ bs, ∃ tb, tcb_at s.tcbs b = some tb) :
    ∃ s1, uthread_unblock s t = some s1 := by
  rcases first_match_split (fun b => ∃ tb, tcb_at s.tcbs b = some tb ∧ tb.tid = tu.tid) bs
    with habs | ⟨pre, x, post, hbs, ⟨tx, hx, htid⟩, hpre⟩
  · have habs1 : ∀ b ∈ bs, ∃ tb, tcb_at s.tcbs b = some tb ∧ tb.tid ≠ tu.tid := by
      intro b hb
      obtain ⟨tb, htb⟩ := hvalid b hb
      exact ⟨tb, htb, fun h => habs b hb ⟨tb, htb, h⟩⟩
    obtain ⟨bq1, _, hloop⟩ :=
      uthread_unblock_loop_skip (t := t) bs [] (s.tcbs.length + 1) (preempt_disable s) bq hq
        (by simpa using hrep) ht habs1
    have hlen : queue_length s.blocked_q = ((bs.length : Nat) : Int) := by
      simp only [hq, queue_length, hrep.1]
    refine ⟨preempt_enable { preempt_disable s with blocked_q := some bq1 }, ?_⟩
    simp only [uthread_unblock, preempt_disable] at hloop ⊢
    rw [hlen, if_neg (by omega), Int.toNat_ofNat, hloop]
  · subst hbs
    have hpre1 : ∀ b ∈ pre, ∃ tb, tcb_at s.tcbs b = some tb ∧ tb.tid ≠ tu.tid := by
      intro b hb
      obtain ⟨tb, htb⟩ := hvalid b (List.mem_append_left _ hb)
      exact ⟨tb, htb, fun h => hpre b hb ⟨tb, htb, h⟩⟩
    obtain ⟨bq1, rq1, tcbs1, _, _, _, hloop⟩ :=
      @uthread_unblock_loop_found t x tu tx pre post post.length (s.tcbs.length + 1)
        (preempt_disable s) bq rq rs hq hrep hrq hrs ht hx htid hpre1
    have hlen : queue_length s.blocked_q = ((pre.length + 1 + post.length : Nat) : Int) := by
      simp only [hq, queue_length, hrep.1, List.length_append, List.length_cons]
      push_cast; ring
    refine ⟨preempt_enable { preempt_disable s with
        ready_q := some rq1, blocked_q := some bq1, tcbs := tcbs1 }, ?_⟩
    simp only [uthread_unblock, preempt_disable] at hloop ⊢
    rw [hlen, if_neg (by omega), Int.toNat_ofNat, hloop]

/-- C15, the claim as stated, fails on a semaphore whose count is `SIZE_MAX`
and that has no waiter: `sem_up` returns 0 and leaves the count 0, not
`SIZE_MAX + 1`. -/
theorem sem_up_count_wraps :
    sem_up (some ⟨SIZE_MAX, queue_create, 0⟩) sched_two_ready
      = some (0, some ⟨0, queue_create, 0⟩, sched_two_ready) ∧
    (0 : Nat) ≠ SIZE_MAX + 1 := by
  constructor <;> decide

/-- C15, amended: on a semaphore with count `c` and waiters `ws`, `sem_up`
returns 0 and leaves the count `c + 1` modulo `SIZE_MAX + 1`.  When `ws` is
empty, nothing else changes.  When `ws` is `w1 :: wrest`, in a scheduler state
whose ready queue is well formed and whose blocked queue holds TCBs `bs`, the
semaphore then has the waiters `wrest`, whatever `bs` is; and if `bs` is `pre`,
then `w1`, then `post`, where no TCB of `pre` carries the identifier of `w1`,
then `w1` is marked READY and appended to the ready queue, and the blocked queue
holds `post` followed by `pre`. -/
theorem sem_up_releases_oldest (sm : semaphore) (s : uthread_state) (ws : List Nat)
    (hsem : SemRep sm ws) :
    (ws = [] →
      sem_up (some sm) s
        = some (0, some { sm with resources_avail := (sm.resources_avail + 1) % (SIZE_MAX + 1) },
            { s with sigvtalrm_blocked := false })) ∧
    (∀ (w1 : Nat) (wrest : List Nat) (rq bq : queue) (rs bs : List Nat) (tw : uthread_tcb),
      ws = w1 :: wrest →
      s.ready_q = some rq → Rep rq rs →
      s.blocked_q = some bq → Rep bq bs →
      tcb_at s.tcbs w1 = some tw →
      (∀ b ∈ bs, ∃ tb, tcb_at s.tcbs b = some tb) →
      ∃ sm1 s1, sem_up (some sm) s = some (0, some sm1, s1) ∧
        sm1.resources_avail = (sm.resources_avail + 1) % (SIZE_MAX + 1) ∧
        SemRep sm1 wrest ∧
        ∀ pre post, bs = pre ++ w1 :: post →
          (∀ b ∈ pre, ∃ tb, tcb_at s.tcbs b = some tb ∧ tb.tid ≠ tw.tid) →
          ∃ rq1 bq1, s1.ready_q = some rq1 ∧ Rep rq1 (rs ++ [w1]) ∧
            s1.blocked_q = some bq1 ∧ Rep bq1 (post ++ pre) ∧
            tcb_at s1.tcbs w1 = some { tw with state := READY }) := by
  obtain ⟨wq, hw, hwrep, hnum⟩ := hsem
  constructor
  · intro hnil
    subst hnil
    have hn : ¬ (0 < sm.num_of_blocked_threads) := by
      rw [hnum]; simp
    simp only [sem_up, preempt_disable, preempt_enable, hn, if_false, NO_ERROR]
  · intro w1 wrest rq bq rs bs tw hws hq hrs hb hbrep ht hvalid
    subst hws
    have hn : 0 < sm.num_of_blocked_threads := by
      rw [hnum]; simp
    obtain ⟨wq1, hde, hwrep1⟩ := queue_dequeue_Rep 0 hwrep
    obtain ⟨u, hu⟩ :=
      @uthread_unblock_returns (preempt_disable s) bq rq bs rs w1 tw hb hbrep hq hrs ht hvalid
    refine ⟨{ sm with resources_avail := (sm.resources_avail + 1) % (SIZE_MAX + 1)
                      num_of_blocked_threads := sm.num_of_blocked_threads - 1
                      blocked_threads := some wq1 },
      preempt_enable u, ?_, rfl, ⟨wq1, rfl, hwrep1, ?_⟩, ?_⟩
    · simp only [sem_up, hn, if_true, hw, hde, ne_eq, not_true_eq_false, if_false,
        Option.getD_some, hu, NO_ERROR]
    · show sm.num_of_blocked_threads - 1 = _
      rw [hnum, List.length_cons]
      push_cast; ring
    · intro pre post hbs hpre
      subst hbs
      obtain ⟨bq1, rq1, tcbs1, hbrep1, hrs1, hs1, hun⟩ :=
        @uthread_unblock_found (preempt_disable s) bq rq pre post rs w1 tw hb hbrep hq hrs ht
          hpre
      rw [hun] at hu
      cases hu
      obtain ⟨tcbs2, hs2, _, hself1, _⟩ := set_state_spec READY ht
      have hs1c : set_state s.tcbs w1 READY = some tcbs1 := hs1
      rw [hs1c] at hs2
      cases hs2
      exact ⟨rq1, bq1, rfl, hrs1, rfl, hbrep1, hself1⟩

/-- C15, amended, at three inputs: a semaphore without waiter; a semaphore
whose only waiter is block 3 in the state at the end of `three_blocked_run`,
where block 3 is appended to the ready queue and the blocked queue holds 4 and
then 2; and a semaphore whose only waiter is block 5 in the state at the end of
`tid_reuse_run`, where block 4 ahead of it carries the same identifier: the
call still returns 0 with the count 1 and no waiter left. -/
theorem sem_up_releases_oldest_witness :
    SemRep ⟨0, some ⟨1, 1, 1, [⟨3, 0, 0⟩]⟩, 1⟩ [3] ∧
    sem_up (some ⟨7, queue_create, 0⟩) sched_two_ready
      = some (0, some ⟨(7 + 1) % (SIZE_MAX + 1), queue_create, 0⟩, sched_two_ready) ∧
    (∃ sm1 s1 rq1 bq1,
      sem_up (some ⟨0, some ⟨1, 1, 1, [⟨3, 0, 0⟩]⟩, 1⟩) sched_three_blocked
        = some (0, some sm1, s1) ∧
      sm1.resources_avail = (0 + 1) % (SIZE_MAX + 1) ∧
      SemRep sm1 [] ∧
      s1.ready_q = some rq1 ∧ Rep rq1 ([1] ++ [3]) ∧
      s1.blocked_q = some bq1 ∧ Rep bq1 ([4] ++ [2]) ∧
      tcb_at s1.tcbs 3 = some { tid := 2, state := READY }) ∧
    (SemRep ⟨0, some ⟨1, 1, 1, [⟨5, 0, 0⟩]⟩, 1⟩ [5] ∧
      ∃ sm1 s1,
        sem_up (some ⟨0, some ⟨1, 1, 1, [⟨5, 0, 0⟩]⟩, 1⟩) sched_tid_reuse
          = some (0, some sm1, s1) ∧
        sm1.resources_avail = (0 + 1) % (SIZE_MAX + 1) ∧
        SemRep sm1 []) := by
  have hsem3 : SemRep ⟨0, some ⟨1, 1, 1, [⟨3, 0, 0⟩]⟩, 1⟩ [3] :=
    ⟨⟨1, 1, 1, [⟨3, 0, 0⟩]⟩, rfl,
      ⟨rfl, Or.inr ⟨[], 3, rfl, rfl, ⟨⟨3, 0, 0⟩, rfl, rfl, rfl⟩⟩⟩, rfl⟩
  have hsem5 : SemRep ⟨0, some ⟨1, 1, 1, [⟨5, 0, 0⟩]⟩, 1⟩ [5] :=
    ⟨⟨1, 1, 1, [⟨5, 0, 0⟩]⟩, rfl,
      ⟨rfl, Or.inr ⟨[], 5, rfl, rfl, ⟨⟨5, 0, 0⟩, rfl, rfl, rfl⟩⟩⟩, rfl⟩
  refine ⟨hsem3,
    (sem_up_releases_oldest ⟨7, queue_create, 0⟩ sched_two_ready []
      ⟨⟨0, 0, 0, []⟩, rfl, (Rep_nil_iff _).2 rfl, rfl⟩).1 rfl, ?_, hsem5, ?_⟩
  · obtain ⟨sm1, s1, h1, h2, h3, h4⟩ :=
      (sem_up_releases_oldest ⟨0, some ⟨1, 1, 1, [⟨3, 0, 0⟩]⟩, 1⟩ sched_three_blocked [3]
        hsem3).2 3 [] _ _ [1] [2, 3, 4] ⟨2, BLOCKED⟩ rfl rfl sched_three_blocked_ready_Rep rfl
        sched_three_blocked_Rep rfl (by
          intro b hb
          simp only [List.mem_cons, List.mem_singleton, List.not_mem_nil, or_false] at hb
          rcases hb with rfl | rfl | rfl <;> exact ⟨_, rfl⟩)
    obtain ⟨rq1, bq1, h5⟩ := h4 [2] [4] rfl (by
      intro b hb
      simp only [List.mem_singleton] at hb
      subst hb
      exact ⟨⟨1, BLOCKED⟩, rfl, by decide⟩)
    exact ⟨sm1, s1, rq1, bq1, h1, h2, h3, h5⟩
  · obtain ⟨sm1, s1, h1, h2, h3, _⟩ :=
      (sem_up_releases_oldest ⟨0, some ⟨1, 1, 1, [⟨5, 0, 0⟩]⟩, 1⟩ sched_tid_reuse [5]
        hsem5).2 5 [] _ _ [1] [4, 5] ⟨3, BLOCKED⟩ rfl rfl
        ⟨rfl, Or.inr ⟨[], 1, rfl, rfl, ⟨⟨1, 0, 7⟩, rfl, rfl, rfl⟩⟩⟩ rfl
        ⟨rfl, Or.inr ⟨[4], 5, rfl, ⟨⟨4, 2, 0⟩, rfl, rfl, rfl⟩, ⟨⟨5, 0, 1⟩, rfl, rfl, rfl⟩⟩⟩
        rfl (by
          intro b hb
          simp only [List.mem_cons, List.mem_singleton, List.not_mem_nil, or_false] at hb
          rcases hb with rfl | rfl <;> exact ⟨_, rfl⟩)
    exact ⟨sm1, s1, h1, h2, h3⟩

/-! ### C17: `sem_destroy` -/

/-- C17 at a failing input: on the semaphore that `sem_create` returns, whatever
the count, whose waiter queue is empty, `sem_destroy` returns the error value
and frees nothing, because `queue_destroy` rejects the empty waiter queue; it
also returns with `SIGVTALRM` blocked. -/
theorem sem_destroy_rejects_unused (count : Nat) (s : uthread_state) :
    queue_length queue_create = 0 ∧
    sem_destroy (sem_create count) s
      = some (-1, sem_create count, { s with sigvtalrm_blocked := true }) :=
  ⟨rfl, rfl⟩

/-! ### C19: argument checks of the queue functions -/

/-- C19: each queue function returns -1 on a `NULL` queue handle;
`queue_enqueue` and `queue_delete` return -1 on a `NULL` item, `queue_dequeue`
on a `NULL` out-pointer, `queue_iterate` on a `NULL` callback, which it never
calls; `queue_dequeue` returns -1 on a queue whose count is zero.  In each case
the queue and the out-parameter are returned as they were. -/
theorem queue_argument_checks :
    (∀ d, queue_enqueue none d = some (-1, none)) ∧
    (∀ d, queue_dequeue none d = some (-1, none, d)) ∧
    (∀ d, queue_delete none d = some (-1, none)) ∧
    (∀ (σ : Type) (fuel : Nat) (func : Option (queue_func_t σ)) (w : σ),
      queue_iterate fuel none func w = some (-1, [], w, none)) ∧
    queue_length none = -1 ∧
    (∀ q, queue_enqueue (some q) 0 = some (-1, some q)) ∧
    (∀ q, queue_delete (some q) 0 = some (-1, some q)) ∧
    (∀ q, queue_dequeue (some q) none = some (-1, some q, none)) ∧
    (∀ (σ : Type) (fuel : Nat) (q : queue) (w : σ),
      queue_iterate fuel (some q) (none : Option (queue_func_t σ)) w
        = some (-1, [], w, some q)) ∧
    (∀ q d, q.num_of_nodes = 0 →
      queue_dequeue (some q) (some d) = some (-1, some q, some d)) := by
  refine ⟨fun _ => rfl, ?_, fun _ => rfl, ?_, rfl, fun _ => rfl, ?_, fun _ => rfl,
    fun _ _ _ _ => rfl, ?_⟩
  · intro d
    cases d <;> rfl
  · intro σ fuel func w
    cases func <;> rfl
  · intro q
    simp [queue_delete, ERROR_FOUND]
  · intro q d hq
    simp [queue_dequeue, hq, ERROR_FOUND]

/-- C19 at the queue that `queue_create` returns: a dequeue into a cell that
holds 9 returns -1 and leaves the cell and the queue alone. -/
theorem queue_argument_checks_witness :
    queue_dequeue queue_create (some 9) = some (-1, queue_create, some 9) :=
  queue_argument_checks.2.2.2.2.2.2.2.2.2 ⟨0, 0, 0, []⟩ 9 rfl

/-! ### C20: the end-to-end scenario -/

/-- C20, the claim as stated, fails: in the end-to-end scenario the queue
length after the iteration is 4, not 7. -/
theorem tester_scenario_length_not_7 :
    tester_scenario.map (fun r => r.length) = some 4 ∧
    tester_scenario.map (fun r => r.length) ≠ some 7 := by
  constructor <;> decide

/-- C20, amended: in the end-to-end scenario the ten enqueues return 0, the
three dequeues return 0 and the items `&data[0]`, `&data[1]`, `&data[2]`
(valued 1, 2, 3), the two deletes return 0, `queue_iterate` returns 0, the
resulting queue length is 4, and the item originally valued 6 is now 7. -/
theorem tester_scenario_result :
    tester_scenario = some
      { enqueued := [0, 0, 0, 0, 0, 0, 0, 0, 0, 0]
        dequeued := [(0, some 1), (0, some 2), (0, some 3)]
        delete_10 := 0
        delete_7 := 0
        iterate := 0
        length := 4
        data := [1, 2, 3, 5, 5, 7, 7, 9, 10, 10] } := by
  decide

/-! ### C23: membership of the TCBs -/

/-- C23 at a failing input, the state at the end of `tid_reuse_run` followed
by `uthread_unblock` of block 5: block 5 is in the ready queue and in the
blocked queue at once, and block 4, which is alive (BLOCKED) and not running,
is in neither queue. -/
theorem uthread_unblock_breaks_membership :
    ∃ s1 rq1 bq1, tid_reuse_run.bind (fun s => uthread_unblock s 5) = some s1 ∧
      s1.ready_q = some rq1 ∧ Rep rq1 [1, 5] ∧
      s1.blocked_q = some bq1 ∧ Rep bq1 [5] ∧
      (5 ∈ [1, 5] ∧ 5 ∈ [5]) ∧
      tcb_at s1.tcbs 4 = some ⟨3, BLOCKED⟩ ∧ s1.current_tcb ≠ 4 ∧
      (4 ∉ [1, 5] ∧ 4 ∉ [5]) :=
  ⟨{ sched_tid_reuse with
      ready_q := some ⟨8, 9, 2, [⟨2, 2, 0⟩, ⟨1, 3, 1⟩, ⟨3, 4, 2⟩, ⟨4, 5, 3⟩, ⟨1, 6, 4⟩,
        ⟨5, 7, 5⟩, ⟨3, 8, 6⟩, ⟨1, 9, 7⟩, ⟨5, 0, 8⟩]⟩
      blocked_q := some ⟨2, 2, 1, [⟨4, 2, 0⟩, ⟨5, 0, 1⟩]⟩
      tcbs := [⟨0, READY⟩, ⟨1, EXIT⟩, ⟨2, RUNNING⟩, ⟨3, BLOCKED⟩, ⟨3, READY⟩] },
   _, _, by decide, rfl,
   ⟨rfl, Or.inr ⟨[1], 5, rfl, ⟨⟨1, 9, 7⟩, rfl, rfl, rfl⟩, ⟨⟨5, 0, 8⟩, rfl, rfl, rfl⟩⟩⟩,
   rfl,
   ⟨rfl, Or.inr ⟨[], 5, rfl, rfl, ⟨⟨5, 0, 1⟩, rfl, rfl, rfl⟩⟩⟩,
   by decide, rfl, by decide, by decide⟩

/-! ### C24: states and membership -/

/-- C24 at a failing input, the state `sched_first_running`, in which the
ready queue holds the blocks 3 and 1, both READY, the blocked queue is empty and
the current block 2 is the only one marked RUNNING: after `uthread_exit` the
current thread is block 3, which is still marked READY, and no TCB is marked
RUNNING. -/
theorem uthread_exit_leaves_next_ready :
    Rep ⟨2, 3, 2, [⟨2, 2, 0⟩, ⟨3, 3, 1⟩, ⟨1, 0, 2⟩]⟩ [3, 1] ∧
    sched_first_running.ready_q = some ⟨2, 3, 2, [⟨2, 2, 0⟩, ⟨3, 3, 1⟩, ⟨1, 0, 2⟩]⟩ ∧
    sched_first_running.blocked_q = some ⟨0, 0, 0, []⟩ ∧
    sched_first_running.current_tcb = 2 ∧
    sched_first_running.tcbs = [⟨0, READY⟩, ⟨1, RUNNING⟩, ⟨2, READY⟩] ∧
    ∃ s1, uthread_exit sched_first_running = some s1 ∧
      s1.current_tcb = 3 ∧ tcb_at s1.tcbs 3 = some ⟨2, READY⟩ ∧
      s1.tcbs = [⟨0, READY⟩, ⟨1, EXIT⟩, ⟨2, READY⟩] :=
  ⟨⟨rfl, Or.inr ⟨[3], 1, rfl, ⟨⟨3, 3, 1⟩, rfl, rfl, rfl⟩, ⟨⟨1, 0, 2⟩, rfl, rfl, rfl⟩⟩⟩,
   rfl, rfl, rfl, rfl,
   { sched_first_running with
      ready_q := some ⟨3, 3, 1, [⟨2, 2, 0⟩, ⟨3, 3, 1⟩, ⟨1, 0, 2⟩]⟩
      current_tcb := 3
      num_of_threads := 2
      tcbs := [⟨0, READY⟩, ⟨1, EXIT⟩, ⟨2, READY⟩] },
   by decide, rfl, rfl, rfl⟩

/-! ### C25: the semaphore functions on their error returns -/

/-- C25 at failing inputs: called with a `NULL` handle in any state, each of
`sem_down`, `sem_up` and `sem_destroy` returns the error value and changes
nothing else, but returns with `SIGVTALRM` blocked, that is with preemption
disabled; so does `sem_destroy` on a semaphore that has a waiter. -/
theorem sem_error_returns_leave_preemption_disabled (s : uthread_state) :
    sem_down none s = some (some (-1), none, { s with sigvtalrm_blocked := true }) ∧
    sem_up none s = some (-1, none, { s with sigvtalrm_blocked := true }) ∧
    sem_destroy none s = some (-1, none, { s with sigvtalrm_blocked := true }) ∧
    SemRep ⟨0, some ⟨1, 1, 1, [⟨3, 0, 0⟩]⟩, 1⟩ [3] ∧
    sem_destroy (some ⟨0, some ⟨1, 1, 1, [⟨3, 0, 0⟩]⟩, 1⟩) s
      = some (-1, some ⟨0, some ⟨1, 1, 1, [⟨3, 0, 0⟩]⟩, 1⟩,
          { s with sigvtalrm_blocked := true }) :=
  ⟨rfl, rfl, rfl,
   ⟨⟨1, 1, 1, [⟨3, 0, 0⟩]⟩, rfl,
      ⟨rfl, Or.inr ⟨[], 3, rfl, rfl, ⟨⟨3, 0, 0⟩, rfl, rfl, rfl⟩⟩⟩, rfl⟩,
   rfl⟩

/-! ### C26: the period of the timer -/

/-- C26 at the failing input, any call of `preempt_start`: the initial delay
and the repeat interval of the timer are both 0 seconds and `10 * HZ` = 1000
microseconds, that is 1 millisecond, not 10000 microseconds. -/
theorem preempt_start_period (timer : itimerval) :
    preempt_start timer = { it_interval := ⟨0, 1000⟩, it_value := ⟨0, 1000⟩ } ∧
    (1000 : Int) ≠ 10000 :=
  ⟨rfl, by decide⟩

/-! ### Doubly-linked segments -/

theorem lastOr_append (p : Nat) (xs ys : List Nat) :
    lastOr p (xs ++ ys) = lastOr (lastOr p xs) ys := by
  induction xs generalizing p with
  | nil => rfl
  | cons x xs ih => exact ih x

theorem lastOr_concat (p : Nat) (xs : List Nat) (y : Nat) : lastOr p (xs ++ [y]) = y := by
  rw [lastOr_append]; rfl

theorem lastOr_cons (p p1 x : Nat) (xs : List Nat) : lastOr p (x :: xs) = lastOr p1 (x :: xs) :=
  rfl

theorem DSeg_frame {mem mem1 : List queue_node} (ns : List Nat) :
    ∀ p a b, DSeg mem p a ns b → (∀ n ∈ ns, node_at mem1 n = node_at mem n) →
      DSeg mem1 p a ns b := by
  induction ns with
  | nil => intro p a b h _; exact h
  | cons n ns ih =>
    intro p a b h hsame
    obtain ⟨ha, nd, hn, hp, hrest⟩ := h
    refine ⟨ha, nd, ?_, hp, ih _ _ _ hrest (fun m hm => hsame m (List.mem_cons_of_mem _ hm))⟩
    rw [hsame n (List.mem_cons_self _ _)]
    exact hn

theorem DSeg_append {mem : List queue_node} (xs : List Nat) :
    ∀ (ys : List Nat) p a c b, DSeg mem p a xs c → DSeg mem (lastOr p xs) c ys b →
      DSeg mem p a (xs ++ ys) b := by
  induction xs with
  | nil =>
    intro ys p a c b h1 h2
    have hac : a = c := h1
    subst hac
    exact h2
  | cons x xs ih =>
    intro ys p a c b h1 h2
    obtain ⟨ha, nd, hn, hp, hrest⟩ := h1
    exact ⟨ha, nd, hn, hp, ih ys _ _ c b hrest h2⟩

theorem DSeg_split {mem : List queue_node} (xs : List Nat) :
    ∀ (ys : List Nat) p a b, DSeg mem p a (xs ++ ys) b →
      ∃ c, DSeg mem p a xs c ∧ DSeg mem (lastOr p xs) c ys b := by
  induction xs with
  | nil =>
    intro ys p a b h
    exact ⟨a, rfl, h⟩
  | cons x xs ih =>
    intro ys p a b h
    obtain ⟨ha, nd, hn, hp, hrest⟩ := h
    obtain ⟨c, h1, h2⟩ := ih ys _ _ b hrest
    exact ⟨c, ⟨ha, nd, hn, hp, h1⟩, h2⟩

theorem DSeg_valid {mem : List queue_node} (ns : List Nat) :
    ∀ p a b, DSeg mem p a ns b → ∀ n ∈ ns, ∃ nd, node_at mem n = some nd := by
  induction ns with
  | nil => intro p a b _ n hn; cases hn
  | cons m ns ih =>
    intro p a b h n hn
    obtain ⟨_, nd, hm, _, hrest⟩ := h
    rcases List.mem_cons.1 hn with rfl | hn'
    · exact ⟨nd, hm⟩
    · exact ih _ _ _ hrest n hn'

/-- Distinct nodes of a segment are no more than the nodes of the arena. -/
theorem DSeg_length_le {mem : List queue_node} {ns : List Nat} {p a b : Nat}
    (h : DSeg mem p a ns b) (hnd : ns.Nodup) : ns.length ≤ mem.length := by
  have hsub : ns ⊆ List.range' 1 mem.length := by
    intro n hn
    obtain ⟨nd, hnode⟩ := DSeg_valid ns p a b h n hn
    have hle := node_at_le hnode
    rw [List.mem_range'_1]
    omega
  have := (List.subperm_of_subset hnd hsub).length_le
  simpa using this

/-- The last node of a segment that ends at `NULL` has a `NULL` next-link. -/
theorem DSeg_last_next {mem : List queue_node} (ns : List Nat) :
    ∀ p a, DSeg mem p a ns 0 → ns ≠ [] →
      ∃ nd, node_at mem (lastOr 0 ns) = some nd ∧ nd.next_in_queue = 0 := by
  induction ns with
  | nil => intro p a _ hne; exact absurd rfl hne
  | cons n ns ih =>
    intro p a h _
    obtain ⟨_, nd, hn, _, hrest⟩ := h
    cases ns with
    | nil => exact ⟨nd, hn, hrest⟩
    | cons m ms => exact ih _ _ hrest (List.cons_ne_nil _ _)

/-! ### `queue_delete` on a doubly-linked list -/

/-- In a list without repetition the neighbours of an entry differ from each
other and from every other entry. -/
theorem nodup_around (L rest : List Nat) (P D N : Nat)
    (h : (L ++ [P] ++ D :: N :: rest).Nodup) :
    P ≠ N ∧ (∀ m ∈ L, m ≠ P ∧ m ≠ N) ∧ (∀ m ∈ rest, m ≠ P ∧ m ≠ N) := by
  simp only [List.nodup_append, List.nodup_cons, List.mem_append, List.mem_cons,
    List.mem_singleton] at h
  refine ⟨?_, ?_, ?_⟩
  · rintro rfl; simp_all
  · intro m hm; constructor <;> rintro rfl <;> simp_all
  · intro m hm; constructor <;> rintro rfl <;> simp_all

/-- The search of `queue_delete` along a chain that ends at `NULL`: it fails
and leaves the queue alone, or it unlinks a node of the chain that stores the
data. -/
theorem queue_delete_loop_chain {q : queue} {x : Nat} (ns : List Nat) :
    ∀ p a fuel, DSeg q.mem p a ns 0 → ns.length < fuel →
      queue_delete_loop q x fuel a = some (ERROR_FOUND, q) ∨
      ∃ pre D post nd, ns = pre ++ D :: post ∧ node_at q.mem D = some nd ∧
        nd.data_in_node = x ∧ (pre = [] → a = D) ∧
        queue_delete_loop q x fuel a = queue_delete_unlink q nd := by
  induction ns with
  | nil =>
    intro p a fuel h hfuel
    have ha : a = 0 := h
    subst ha
    obtain ⟨k, hk⟩ : ∃ k, fuel = k + 1 := ⟨fuel - 1, by simp at hfuel; omega⟩
    subst hk
    left
    simp only [queue_delete_loop, if_true]
  | cons n ns ih =>
    intro p a fuel h hfuel
    obtain ⟨ha, nd, hn, _, hrest⟩ := h
    subst ha
    have hle := node_at_le hn
    obtain ⟨k, hk⟩ : ∃ k, fuel = k + 1 := ⟨fuel - 1, by omega⟩
    subst hk
    by_cases hx : nd.data_in_node = x
    · right
      refine ⟨[], a, ns, nd, rfl, hn, hx, fun _ => rfl, ?_⟩
      simp only [queue_delete_loop, if_neg hle.1.ne', hn, hx, ne_eq, not_true_eq_false,
        if_false]
    · have hstep : queue_delete_loop q x (k + 1) a
          = queue_delete_loop q x k nd.next_in_queue := by
        simp only [queue_delete_loop, if_neg hle.1.ne', hn, ne_eq, hx, not_false_eq_true,
          if_true]
      rw [hstep]
      rcases ih a nd.next_in_queue k hrest (by simp only [List.length_cons] at hfuel; omega)
        with hfail | ⟨pre, D, post, nd1, hns, hD, hdx, _, hloop⟩
      · exact Or.inl hfail
      · right
        refine ⟨a :: pre, D, post, nd1, by rw [hns]; rfl, hD, hdx, ?_, hloop⟩
        intro h
        cases h

/-- Unlinking the node `D` of a doubly-linked queue, where `D` is not a head
with a prev-link other than `NULL`: the other nodes stay doubly linked in
their order, the count drops by one, and head and tail are `NULL` when no node
is left. -/
theorem queue_delete_unlink_linked {q : queue} {p D : Nat} {pre post : List Nat}
    {nd : queue_node}
    (h : LinkedFrom p q (pre ++ D :: post)) (hD : node_at q.mem D = some nd)
    (hhead : pre = [] → p = 0) :
    ∃ q1, queue_delete_unlink q nd = some (0, q1) ∧ LinkedFrom p q1 (pre ++ post) ∧
      (pre ++ post = [] → q1.first_in_queue = 0 ∧ q1.last_in_queue = 0) ∧
      q1.num_of_nodes = q.num_of_nodes - 1 := by
  obtain ⟨hseg, hnodup, hcount, hlast⟩ := h
  obtain ⟨c, hpre, hDseg⟩ := DSeg_split pre (D :: post) p _ 0 hseg
  obtain ⟨hc, nd1, hD1, hprev, hrest⟩ := hDseg
  subst hc
  rw [hD] at hD1; cases hD1
  have hD0 : c ≠ 0 := (node_at_le hD).1.ne'
  have hsub : (pre ++ post).Nodup :=
    hnodup.sublist ((List.sublist_cons_self c post).append_left pre)
  have hcount1 : q.num_of_nodes - ONE_NODE = ((pre ++ post).length : Int) := by
    rw [hcount]
    simp only [List.length_append, List.length_cons, ONE_NODE]
    push_cast; ring
  rcases List.eq_nil_or_concat pre with hnil | ⟨L, P, hconcat⟩
  · -- `D` is the head
    subst hnil
    have hp0 : nd.prev_in_queue = 0 := by rw [hprev]; exact hhead rfl
    have hfirst : q.first_in_queue = c := hpre
    cases post with
    | nil =>
      have hn0 : nd.next_in_queue = 0 := hrest
      refine ⟨{ q with first_in_queue := 0, last_in_queue := 0
                       num_of_nodes := q.num_of_nodes - ONE_NODE }, ?_,
        ⟨rfl, hsub, hcount1, fun hne => absurd rfl hne⟩, fun _ => ⟨rfl, rfl⟩, rfl⟩
      simp only [queue_delete_unlink, hn0, hp0, ne_eq, not_true_eq_false, false_and, and_false,
        if_false]
      rfl
    | cons N rest =>
      obtain ⟨hN, nN, hnN, hNprev, hNrest⟩ := hrest
      have hn0 : nd.next_in_queue ≠ 0 := by rw [hN]; exact (node_at_le hnN).1.ne'
      obtain ⟨mem1, hs1, _, hself1, hother1⟩ := set_prev_spec 0 hnN
      have hdis : ∀ m ∈ rest, m ≠ N := by
        simp only [List.nil_append, List.nodup_cons, List.mem_cons] at hnodup
        intro m hm
        rintro rfl
        exact hnodup.2.1 hm
      refine ⟨{ q with first_in_queue := nd.next_in_queue
                       num_of_nodes := q.num_of_nodes - ONE_NODE, mem := mem1 }, ?_,
        ⟨?_, hsub, hcount1, fun _ => ?_⟩, fun hemp => by simp at hemp, rfl⟩
      · rw [← hN] at hs1
        simp only [queue_delete_unlink, hn0, hp0, ne_eq, not_false_eq_true, and_self, if_true,
          hs1]
        rfl
      · show DSeg mem1 p nd.next_in_queue (N :: rest) 0
        rw [hprev] at hp0
        have hp0' : p = 0 := hp0
        rw [hp0']
        exact ⟨hN, _, hself1, rfl,
          DSeg_frame rest _ _ _ hNrest (fun m hm => hother1 m (hdis m hm))⟩
      · show q.last_in_queue = _
        rw [hlast (by simp)]
        rfl
  · -- `D` has a predecessor `P`
    rw [List.concat_eq_append] at hconcat
    subst hconcat
    obtain ⟨cP, hL, hPseg⟩ := DSeg_split L [P] p _ c hpre
    obtain ⟨hcP, nP, hnP, hPprev, hPnext⟩ := hPseg
    subst hcP
    have hPnext' : nP.next_in_queue = c := hPnext
    have hP0 : cP ≠ 0 := (node_at_le hnP).1.ne'
    have hp : nd.prev_in_queue = cP := by rw [hprev, lastOr_concat]
    have hp0 : nd.prev_in_queue ≠ 0 := by rw [hp]; exact hP0
    cases post with
    | nil =>
      have hn0 : nd.next_in_queue = 0 := hrest
      obtain ⟨mem1, hs1, _, hself1, hother1⟩ := set_next_spec 0 hnP
      have hdis : ∀ m ∈ L, m ≠ cP := by
        simp only [List.append_assoc, List.nodup_append, List.nodup_cons, List.mem_append,
          List.mem_cons, List.mem_singleton, List.singleton_append] at hnodup
        intro m hm
        rintro rfl
        exact hnodup.2.2 hm (by simp)
      refine ⟨{ q with last_in_queue := nd.prev_in_queue
                       num_of_nodes := q.num_of_nodes - ONE_NODE, mem := mem1 }, ?_,
        ⟨?_, hsub, hcount1, fun _ => ?_⟩, fun hemp => by simp at hemp, rfl⟩
      · rw [← hp] at hs1
        simp only [queue_delete_unlink, hn0, hp0, ne_eq, not_true_eq_false, false_and,
          not_false_eq_true, and_self, if_false, if_true, hs1]
        rfl
      · show DSeg mem1 p q.first_in_queue (L ++ [cP] ++ []) 0
        rw [List.append_nil]
        refine DSeg_append L [cP] p _ cP 0
          (DSeg_frame L _ _ _ hL (fun m hm => hother1 m (hdis m hm))) ?_
        exact ⟨rfl, _, hself1, hPprev, rfl⟩
      · show nd.prev_in_queue = _
        rw [hp, List.append_nil, lastOr_concat]
    | cons N rest =>
      obtain ⟨hN, nN, hnN, hNprev, hNrest⟩ := hrest
      have hn0 : nd.next_in_queue ≠ 0 := by rw [hN]; exact (node_at_le hnN).1.ne'
      have hdis := nodup_around L rest cP c N hnodup
      obtain ⟨hPN, hdisL, hdisR⟩ := hdis
      obtain ⟨mem1, hs1, _, hself1, hother1⟩ := set_prev_spec cP hnN
      have hnP1 : node_at mem1 cP = some nP := by rw [hother1 cP hPN]; exact hnP
      obtain ⟨mem2, hs2, _, hself2, hother2⟩ := set_next_spec N hnP1
      refine ⟨{ q with num_of_nodes := q.num_of_nodes - ONE_NODE, mem := mem2 }, ?_,
        ⟨?_, hsub, hcount1, fun _ => ?_⟩, fun hemp => by simp at hemp, rfl⟩
      · rw [← hN, ← hp] at hs1
        rw [← hp, ← hN] at hs2
        simp only [queue_delete_unlink, hn0, hp0, ne_eq, not_false_eq_true, and_self, if_true,
          not_true_eq_false, and_false, if_false, hs1, hs2]
        rfl
      · show DSeg mem2 p q.first_in_queue (L ++ [cP] ++ N :: rest) 0
        have hsame : ∀ m, m ≠ cP → m ≠ N → node_at mem2 m = node_at q.mem m := by
          intro m h1 h2
          rw [hother2 m h1, hother1 m h2]
        refine DSeg_append (L ++ [cP]) (N :: rest) p _ N 0
          (DSeg_append L [cP] p _ cP N
            (DSeg_frame L _ _ _ hL (fun m hm => hsame m (hdisL m hm).1 (hdisL m hm).2)) ?_) ?_
        · exact ⟨rfl, _, hself2, hPprev, rfl⟩
        · rw [lastOr_concat]
          refine ⟨rfl, { nN with prev_in_queue := cP }, ?_, rfl, ?_⟩
          · rw [hother2 N (Ne.symm hPN)]; exact hself1
          · exact DSeg_frame rest _ _ _ hNrest
              (fun m hm => hsame m (hdisR m hm).1 (hdisR m hm).2)
      · show q.last_in_queue = _
        rw [hlast (by simp)]
        simp only [lastOr_append]
        rfl

/-! ### The three queue operations on a doubly-linked list -/

/-- The function `queue_delete` on a doubly-linked queue, when the head's
prev-link is `NULL` or the item is not in the head node: it either changes
nothing, or succeeds and leaves the other nodes doubly linked in their
order. -/
theorem queue_delete_linked {q q1 : queue} {p x : Nat} {r : Int} {ns : List Nat}
    (h : LinkedFrom p q ns) (hhead : p = 0 ∨ HeadDeletable q x)
    (hdel : queue_delete (some q) x = some (r, some q1)) :
    (r = ERROR_FOUND ∧ q1 = q) ∨
    (r = 0 ∧ ∃ pre D post, ns = pre ++ D :: post ∧ LinkedFrom p q1 (pre ++ post) ∧
      (pre ++ post = [] → q1.first_in_queue = 0 ∧ q1.last_in_queue = 0) ∧
      q1.num_of_nodes = q.num_of_nodes - 1) := by
  simp only [queue_delete] at hdel
  split at hdel
  · left
    simp only [Option.some.injEq, Prod.mk.injEq] at hdel
    exact ⟨hdel.1.symm, hdel.2.symm⟩
  · have hfuel : ns.length < q.mem.length + 1 :=
      Nat.lt_succ_of_le (DSeg_length_le h.1 h.2.1)
    rcases queue_delete_loop_chain ns p q.first_in_queue (q.mem.length + 1) h.1 hfuel
      with hfail | ⟨pre, D, post, nd, hns, hD, hdx, hfirst, hloop⟩
    · left
      rw [hfail] at hdel
      simp only [Option.some.injEq, Prod.mk.injEq] at hdel
      exact ⟨hdel.1.symm, hdel.2.symm⟩
    · right
      subst hns
      have hp : pre = [] → p = 0 := by
        intro hpre
        rcases hhead with h0 | hd
        · exact h0
        · subst hpre
          obtain ⟨hc, nd1, hD1, hprev, _⟩ := h.1
          have hnd : node_at q.mem q.first_in_queue = some nd := by
            rw [hfirst rfl]; exact hD
          have hz := hd nd hnd hdx
          rw [hD] at hD1
          cases hD1
          rw [← hprev]; exact hz
      obtain ⟨q2, hun, hlinked, hempty, hcount⟩ := queue_delete_unlink_linked h hD hp
      rw [hloop, hun] at hdel
      simp only [Option.some.injEq, Prod.mk.injEq] at hdel
      obtain ⟨hr, hq⟩ := hdel
      subst hq
      exact ⟨hr.symm, pre, D, post, rfl, hlinked, hempty, hcount⟩

/-- The function `queue_enqueue` on a doubly-linked queue: it either changes
nothing, or appends the new node; a head prev-link that was `NULL` stays
`NULL`. -/
theorem queue_enqueue_linked {q q1 : queue} {p e : Nat} {r : Int} {ns : List Nat}
    (h : LinkedFrom p q ns) (henq : queue_enqueue (some q) e = some (r, some q1)) :
    q1 = q ∨ ∃ p1, (p = 0 → p1 = 0) ∧ LinkedFrom p1 q1 (ns ++ [q.mem.length + 1]) := by
  obtain ⟨hseg, hnodup, hcount, hlast⟩ := h
  simp only [queue_enqueue] at henq
  split at henq
  · left
    simp only [Option.some.injEq, Prod.mk.injEq] at henq
    exact henq.2.symm
  · split at henq
    · rename_i hc
      right
      have hnil : ns = [] := by
        rw [hc] at hcount
        exact List.length_eq_zero.1 (by exact_mod_cast hcount.symm)
      subst hnil
      simp only [Option.some.injEq, Prod.mk.injEq] at henq
      obtain ⟨_, hq⟩ := henq
      subst hq
      refine ⟨0, fun _ => rfl, ⟨rfl, _, node_at_fresh _ _, rfl, rfl⟩,
        List.nodup_singleton _, ?_, fun _ => rfl⟩
      show q.num_of_nodes + ONE_NODE = _
      rw [hc]; rfl
    · rename_i hc
      right
      rcases List.eq_nil_or_concat ns with hnil | ⟨pre, L, hconcat⟩
      · subst hnil
        exact absurd (by simpa using hcount) hc
      · rw [List.concat_eq_append] at hconcat
        subst hconcat
        have hL : q.last_in_queue = L := by
          rw [hlast (by simp), lastOr_concat]
        obtain ⟨c, hpre, hLseg⟩ := DSeg_split pre [L] p _ 0 hseg
        obtain ⟨hcL, nL, hnL, hLprev, hLnext⟩ := hLseg
        subst hcL
        obtain ⟨mem1, hs1, hlen1, hself1, hother1⟩ := set_next_spec (q.mem.length + 1) hnL
        rw [hL, hs1] at henq
        simp only [Option.some.injEq, Prod.mk.injEq] at henq
        obtain ⟨_, hq⟩ := henq
        subst hq
        have hvalid := DSeg_valid (pre ++ [c]) p _ 0 hseg
        have hfresh : q.mem.length + 1 ∉ pre ++ [c] := by
          intro hm
          obtain ⟨nd, hnd⟩ := hvalid _ hm
          have := (node_at_le hnd).2
          omega
        have hdis : ∀ m ∈ pre, m ≠ c := by
          intro m hm
          rintro rfl
          rw [List.nodup_append] at hnodup
          exact hnodup.2.2 hm (List.mem_singleton_self _)
        have hframe : ∀ m ∈ pre,
            node_at (mem1 ++ [⟨e, 0, c⟩]) m = node_at q.mem m := by
          intro m hm
          obtain ⟨nd, hnd⟩ := hvalid m (List.mem_append_left _ hm)
          have h1 : node_at mem1 m = some nd := by rw [hother1 m (hdis m hm)]; exact hnd
          rw [node_at_append _ h1, hnd]
        refine ⟨p, id, ?_, ?_, ?_, fun _ => ?_⟩
        · show DSeg (mem1 ++ [⟨e, 0, c⟩]) p q.first_in_queue
            (pre ++ [c] ++ [q.mem.length + 1]) 0
          refine DSeg_append (pre ++ [c]) [q.mem.length + 1] p _ (q.mem.length + 1) 0
            (DSeg_append pre [c] p _ c (q.mem.length + 1)
              (DSeg_frame pre _ _ _ hpre hframe) ?_) ?_
          · exact ⟨rfl, _, node_at_append _ hself1, hLprev, rfl⟩
          · rw [lastOr_concat]
            refine ⟨rfl, ⟨e, 0, c⟩, ?_, rfl, rfl⟩
            rw [← hlen1]
            exact node_at_fresh _ _
        · rw [List.nodup_append]
          refine ⟨hnodup, List.nodup_singleton _, ?_⟩
          intro m hm hm2
          rw [List.mem_singleton] at hm2
          subst hm2
          exact hfresh hm
        · show q.num_of_nodes + ONE_NODE = _
          rw [hcount]
          simp only [List.length_append, List.length_cons, List.length_nil, ONE_NODE]
          push_cast; ring
        · show q.mem.length + 1 = _
          rw [lastOr_concat]

/-- The function `queue_delete` returns on a doubly-linked queue, when the
head's prev-link is `NULL` or the item is not in the head node. -/
theorem queue_delete_returns {q : queue} {p : Nat} {ns : List Nat} (x : Nat)
    (h : LinkedFrom p q ns) (hhead : p = 0 ∨ HeadDeletable q x) :
    ∃ r q1, queue_delete (some q) x = some (r, some q1) := by
  simp only [queue_delete]
  split
  · exact ⟨_, _, rfl⟩
  · have hfuel : ns.length < q.mem.length + 1 :=
      Nat.lt_succ_of_le (DSeg_length_le h.1 h.2.1)
    rcases queue_delete_loop_chain ns p q.first_in_queue (q.mem.length + 1) h.1 hfuel
      with hfail | ⟨pre, D, post, nd, hns, hD, hdx, hfirst, hloop⟩
    · rw [hfail]; exact ⟨_, _, rfl⟩
    · subst hns
      have hp : pre = [] → p = 0 := by
        intro hpre
        rcases hhead with h0 | hd
        · exact h0
        · subst hpre
          obtain ⟨hc, nd1, hD1, hprev, _⟩ := h.1
          have hnd : node_at q.mem q.first_in_queue = some nd := by
            rw [hfirst rfl]; exact hD
          have hz := hd nd hnd hdx
          rw [hD] at hD1
          cases hD1
          rw [← hprev]; exact hz
      obtain ⟨q2, hun, _⟩ := queue_delete_unlink_linked h hD hp
      rw [hloop, hun]; exact ⟨_, _, rfl⟩

/-- Two adjacent nodes of a doubly-linked segment point to each other. -/
theorem DSeg_adjacent {mem : List queue_node} {ns l t : List Nat} {p a b m n : Nat}
    (h : DSeg mem p a ns b) (hns : ns = l ++ m :: n :: t) :
    ∃ nm nn, node_at mem m = some nm ∧ node_at mem n = some nn ∧
      nm.next_in_queue = n ∧ nn.prev_in_queue = m := by
  subst hns
  obtain ⟨c, _, hrest⟩ := DSeg_split l (m :: n :: t) p a b h
  obtain ⟨_, nm, hm, _, hrest1⟩ := hrest
  obtain ⟨hn, nn, hnn, hprev, _⟩ := hrest1
  exact ⟨nm, nn, hm, hnn, hn, hprev⟩

/-- The head of a well-formed doubly-linked queue has a `NULL` prev-link. -/
theorem WellLinked_head_prev {q : queue} {ns : List Nat} (h : WellLinked q ns)
    (nd : queue_node) (hnd : node_at q.mem q.first_in_queue = some nd) :
    nd.prev_in_queue = 0 := by
  obtain ⟨⟨hseg, _⟩, _⟩ := h
  cases ns with
  | nil =>
    have h0 : q.first_in_queue = 0 := hseg
    rw [h0, node_at_zero] at hnd
    cases hnd
  | cons n rest =>
    obtain ⟨hn, nd1, hnode, hprev, _⟩ := hseg
    rw [hn, hnode] at hnd
    cases hnd
    exact hprev

/-- The tail of a well-formed doubly-linked queue has a `NULL` next-link. -/
theorem WellLinked_tail_next {q : queue} {ns : List Nat} (h : WellLinked q ns)
    (nd : queue_node) (hnd : node_at q.mem q.last_in_queue = some nd) :
    nd.next_in_queue = 0 := by
  obtain ⟨⟨hseg, _⟩, hlast⟩ := h
  by_cases hne : ns = []
  · subst hne
    have h0 : q.last_in_queue = 0 := hlast
    rw [h0, node_at_zero] at hnd
    cases hnd
  · obtain ⟨nd1, hnode, hnext⟩ := DSeg_last_next ns 0 _ hseg hne
    rw [hlast, hnode] at hnd
    cases hnd
    exact hnext

/-- Every queue built by `queue_enqueue` and `queue_delete` is a well-formed
doubly-linked list. -/
theorem Built_WellLinked {q : queue} (hb : Built q) : ∃ ns, WellLinked q ns := by
  induction hb with
  | create => exact ⟨[], ⟨rfl, List.nodup_nil, rfl, fun h => absurd rfl h⟩, rfl⟩
  | enqueue _ henq ih =>
    obtain ⟨ns, hl, hlast⟩ := ih
    rcases queue_enqueue_linked hl henq with rfl | ⟨p1, hp1, hl1⟩
    · exact ⟨ns, hl, hlast⟩
    · have h0 := hp1 rfl
      subst h0
      exact ⟨_, hl1, hl1.2.2.2 (by simp)⟩
  | delete _ hdel ih =>
    obtain ⟨ns, hl, hlast⟩ := ih
    rcases queue_delete_linked hl (Or.inl rfl) hdel
      with ⟨_, rfl⟩ | ⟨_, pre, D, post, _, hl1, hempty, _⟩
    · exact ⟨ns, hl, hlast⟩
    · refine ⟨pre ++ post, hl1, ?_⟩
      by_cases hne : pre ++ post = []
      · rw [hne]; exact (hempty hne).2
      · exact hl1.2.2.2 hne

theorem queue_three_Built : Built queue_three :=
  Built.enqueue
    (Built.enqueue
      (Built.enqueue Built.create
        (show queue_enqueue (some ⟨0, 0, 0, []⟩) 11 = some (0, some ⟨1, 1, 1, [⟨11, 0, 0⟩]⟩)
          from rfl))
      (show queue_enqueue (some ⟨1, 1, 1, [⟨11, 0, 0⟩]⟩) 12
          = some (0, some ⟨1, 2, 2, [⟨11, 2, 0⟩, ⟨12, 0, 1⟩]⟩) from rfl))
    (show queue_enqueue (some ⟨1, 2, 2, [⟨11, 2, 0⟩, ⟨12, 0, 1⟩]⟩) 13
        = some (0, some queue_three) from rfl)

/-- C22: on a queue built from a fresh queue by `queue_enqueue` and
`queue_delete` only, `queue_delete` returns, and when it succeeds it has
removed one node `D` of the well-formed doubly-linked list `pre ++ D :: post`
(first, middle, last or sole node) and left the well-formed doubly-linked list
`pre ++ post`: the head's prev-link and the tail's next-link are `NULL`,
adjacent nodes point to each other, the count is the number of linked nodes,
and head and tail are `NULL` after the sole node was deleted. -/
theorem queue_delete_repairs_links {q : queue} (x : Nat) (hb : Built q) :
    ∃ r q1, queue_delete (some q) x = some (r, some q1) ∧
      (r = NO_ERROR → ∃ pre D post,
        WellLinked q (pre ++ D :: post) ∧ WellLinked q1 (pre ++ post) ∧
        (∀ nd, node_at q1.mem q1.first_in_queue = some nd → nd.prev_in_queue = 0) ∧
        (∀ nd, node_at q1.mem q1.last_in_queue = some nd → nd.next_in_queue = 0) ∧
        (∀ l m n t, pre ++ post = l ++ m :: n :: t →
          ∃ nm nn, node_at q1.mem m = some nm ∧ node_at q1.mem n = some nn ∧
            nm.next_in_queue = n ∧ nn.prev_in_queue = m) ∧
        queue_length (some q1) = ((pre ++ post).length : Int) ∧
        (queue_length (some q) = 1 → q1.first_in_queue = 0 ∧ q1.last_in_queue = 0)) := by
  obtain ⟨ns, hl, hlast⟩ := Built_WellLinked hb
  obtain ⟨r, q1, hdel⟩ := queue_delete_returns x hl (Or.inl rfl)
  refine ⟨r, q1, hdel, fun hr => ?_⟩
  rcases queue_delete_linked hl (Or.inl rfl) hdel
    with ⟨hr1, _⟩ | ⟨_, pre, D, post, hns, hl1, hempty, _⟩
  · rw [hr] at hr1
    exact absurd hr1 (by decide)
  · subst hns
    have hw1 : WellLinked q1 (pre ++ post) := by
      refine ⟨hl1, ?_⟩
      by_cases hne : pre ++ post = []
      · rw [hne]; exact (hempty hne).2
      · exact hl1.2.2.2 hne
    refine ⟨pre, D, post, ⟨hl, hlast⟩, hw1, WellLinked_head_prev hw1, WellLinked_tail_next hw1,
      fun l m n t hsplit => DSeg_adjacent hl1.1 hsplit, hl1.2.2.1, fun hone => ?_⟩
    have hlen : ((pre ++ D :: post).length : Int) = 1 := by
      rw [← hl.2.2.1]; exact hone
    have hnil : pre ++ post = [] := by
      apply List.length_eq_zero.1
      simp only [List.length_append, List.length_cons] at hlen ⊢
      omega
    exact hempty hnil

theorem queue_delete_repairs_links_witness :
    Built queue_three ∧
    queue_delete (some queue_three) 12
      = some (0, some ⟨1, 3, 2, [⟨11, 3, 0⟩, ⟨12, 3, 1⟩, ⟨13, 0, 1⟩]⟩) ∧
    ∃ r q1, queue_delete (some queue_three) 12 = some (r, some q1) ∧
      (r = NO_ERROR → ∃ pre D post,
        WellLinked queue_three (pre ++ D :: post) ∧ WellLinked q1 (pre ++ post) ∧
        (∀ nd, node_at q1.mem q1.first_in_queue = some nd → nd.prev_in_queue = 0) ∧
        (∀ nd, node_at q1.mem q1.last_in_queue = some nd → nd.next_in_queue = 0) ∧
        (∀ l m n t, pre ++ post = l ++ m :: n :: t →
          ∃ nm nn, node_at q1.mem m = some nm ∧ node_at q1.mem n = some nn ∧
            nm.next_in_queue = n ∧ nn.prev_in_queue = m) ∧
        queue_length (some q1) = ((pre ++ post).length : Int) ∧
        (queue_length (some queue_three) = 1 →
          q1.first_in_queue = 0 ∧ q1.last_in_queue = 0)) :=
  ⟨queue_three_Built, rfl, queue_delete_repairs_links 12 queue_three_Built⟩

end Uthread
